import Mathlib

/-!
# Verification of the pixel algebra and view compositing core (plan44/lethd)

Shallow embedding of `src/src/view.cpp`.

Conventions
* `uint8_t` / `uint16_t` / `uint32_t` values are natural numbers; every conversion the
  C++ code performs (parameter passing, assignment to a narrower type) is an explicit
  `% 2^w`.
* `int` values are mathematical integers (signed overflow is undefined in C++ and is
  assumed not to occur).
* Pixels carry four natural numbers; `PixelColor.valid` states that each one is a byte.
-/

namespace p44

/-! ## Data model -/

/-- Modelled from the spec: the declaration of `PixelColor` lives in `view.hpp`, which is
not among the sources; the spec describes it as four 8-bit channels (r,g,b,a). -/
structure PixelColor where
  r : Nat
  g : Nat
  b : Nat
  a : Nat
deriving DecidableEq, Repr

/-- Every channel of the pixel is an 8-bit value. -/
def PixelColor.valid (p : PixelColor) : Prop :=
  p.r < 256 ∧ p.g < 256 ∧ p.b < 256 ∧ p.a < 256

instance (p : PixelColor) : Decidable p.valid := by
  unfold PixelColor.valid
  infer_instance

/-- Modelled from the spec: the constant `transparent` is declared in `view.hpp`, which is
not among the sources; the spec calls it fully transparent black. -/
def transparent : PixelColor := { r := 0, g := 0, b := 0, a := 0 }

/-! ## Utilities (`view.cpp`, lines 218-319) -/

/-- Function `uint8_t dimVal(uint8_t aVal, uint16_t aDim) { return ((aDim+1)*aVal)>>8; }`. -/
def dimVal (aVal aDim : Nat) : Nat :=
  (((aDim % 65536 + 1) * (aVal % 256)) >>> 8) % 256

/-- Function `dimPixel`: dims r, g and b, leaves alpha alone. -/
def dimPixel (aPix : PixelColor) (aDim : Nat) : PixelColor :=
  { aPix with r := dimVal aPix.r aDim, g := dimVal aPix.g aDim, b := dimVal aPix.b aDim }

/-- Function `dimmedPixel`: copy of the pixel, dimmed. -/
def dimmedPixel (aPix : PixelColor) (aDim : Nat) : PixelColor :=
  dimPixel aPix aDim

/-- Function `alpahDimPixel` (spelling of the source): premultiplies by the pixel's own alpha. -/
def alpahDimPixel (aPix : PixelColor) : PixelColor :=
  if aPix.a ≠ 255 then dimPixel aPix aPix.a else aPix

/-- Function `addToPixel`: channel-wise `+=` on `uint8_t`, which wraps modulo 256. -/
def addToPixel (aPixel aPixelToAdd : PixelColor) : PixelColor :=
  { aPixel with
    r := (aPixel.r + aPixelToAdd.r) % 256,
    g := (aPixel.g + aPixelToAdd.g) % 256,
    b := (aPixel.b + aPixelToAdd.b) % 256 }

/-- Function `overlayPixel(aPixel, aOverlay)`; the result is the new value of `aPixel`. -/
def overlayPixel (aPixel aOverlay : PixelColor) : PixelColor :=
  let res :=
    if aOverlay.a = 255 then aOverlay
    else
      addToPixel (dimmedPixel aPixel (255 - aOverlay.a)) (dimmedPixel aOverlay aOverlay.a)
  { res with a := 255 }

/-- Function `mixinPixel(aMainPixel, aOutsidePixel, aAmountOutside)`; the result is the new
value of `aMainPixel`. The weight `aAmountOutside` is a `uint8_t`, a number below 256. -/
def mixinPixel (aMainPixel aOutsidePixel : PixelColor) (aAmountOutside : Nat) : PixelColor :=
  if 0 < aAmountOutside then
    if aMainPixel.a ≠ 255 ∨ aOutsidePixel.a ≠ 255 then
      let alpha :=
        (dimVal aMainPixel.a (255 - aAmountOutside) + dimVal aOutsidePixel.a aAmountOutside) % 256
      if 0 < alpha then
        let main1 := alpahDimPixel aMainPixel
        let outside1 := alpahDimPixel aOutsidePixel
        let ab := (65025 / alpha) % 65536
        let main2 := dimPixel main1 (255 - aAmountOutside)
        let main3 := addToPixel main2 (dimmedPixel outside1 aAmountOutside)
        let main4 := dimPixel main3 ab
        { main4 with a := alpha }
      else aMainPixel
    else
      addToPixel (dimPixel aMainPixel (255 - aAmountOutside)) (dimmedPixel aOutsidePixel aAmountOutside)
  else aMainPixel

/-! ## Hex colour parsing (`view.cpp`, lines 322-348) -/

/-- Value of a hexadecimal digit character, `none` for every other character. -/
def hexDigitVal (c : Char) : Option Nat :=
  if 48 ≤ c.toNat ∧ c.toNat ≤ 57 then some (c.toNat - 48)
  else if 97 ≤ c.toNat ∧ c.toNat ≤ 102 then some (c.toNat - 87)
  else if 65 ≤ c.toNat ∧ c.toNat ≤ 70 then some (c.toNat - 55)
  else none

/-- White space in the sense of the C library's `isspace` ("C" locale). -/
def isCSpace (c : Char) : Bool :=
  c.toNat = 32 || (9 ≤ c.toNat && c.toNat ≤ 13)

/-- Reads the longest run of hexadecimal digits, accumulating their value; returns the
number of digits read and the accumulated value. -/
def scanHexDigits : List Char → Nat → Nat → Nat × Nat
  | [], cnt, acc => (cnt, acc)
  | c :: cs, cnt, acc =>
    match hexDigitVal c with
    | some v => scanHexDigits cs (cnt + 1) (16 * acc + v)
    | none => (cnt, acc)

/-- Strips an optional `0x` / `0X` marker in front of the digits. -/
def stripHexMarker : List Char → List Char
  | '0' :: 'x' :: t => t
  | '0' :: 'X' :: t => t
  | l => l

/-- Strips an optional sign; the flag tells whether it was a minus. -/
def stripSign : List Char → Bool × List Char
  | '-' :: t => (true, t)
  | '+' :: t => (false, t)
  | l => (false, l)

/-- Tells whether a `0x` / `0X` marker stands in front of the digits. -/
def hasHexMarker : List Char → Bool
  | '0' :: 'x' :: _ => true
  | '0' :: 'X' :: _ => true
  | _ => false

/-- C library call `sscanf(str, "%x", &h) == 1` with `uint32_t h`, as the GNU C library
performs it on a platform with a 64-bit `unsigned long`: leading white space is skipped,
then an optional sign, an optional `0x` marker and the longest run of hexadecimal digits
are read, and the text read is converted with `strtoul`. The result is `none` on a
matching failure and otherwise the value stored in `h`. A marker with no digit after it
is read as the number 0 (the `0` of the marker). A value of 17 or more significant
digits that does not fit `unsigned long` is stored as `0xFFFFFFFF` (`ULONG_MAX` cut to
32 bits); any other value is negated for a minus sign as a 64-bit unsigned number and cut
to 32 bits. The characters are those of the string up to its end: none of the accepted
characters is the terminating NUL, so reading stops there by itself. -/
def sscanfHex (str : List Char) : Option Nat :=
  let afterSpace := str.dropWhile isCSpace
  let signed := stripSign afterSpace
  let marked := hasHexMarker signed.2
  let digits := stripHexMarker signed.2
  let scanned := scanHexDigits digits 0 0
  if scanned.1 = 0 then (if marked then some 0 else none)
  else if 2 ^ 64 ≤ scanned.2 then some (2 ^ 32 - 1)
  else if signed.1 then some ((2 ^ 64 - scanned.2) % 2 ^ 32)
  else some (scanned.2 % 2 ^ 32)

/-- The index `i` of `webColorToPixel` after the statement
`if (i>0 && aWebColor[0]=='#') i++;` (`aWebColor[0]` of an empty string is NUL). -/
def webColorSkip (aWebColor : String) : Nat :=
  let i := 0
  if 0 < i ∧ aWebColor.toList.headD (Char.ofNat 0) = '#' then i + 1 else i

/-- Nibble replication `x = v; x |= x<<4;` on a `uint8_t`. -/
def expandNibble (v : Nat) : Nat :=
  ((v % 256) ||| ((v % 256) <<< 4)) % 256

/-- Function `webColorToPixel(aWebColor)`; `size()` counts bytes, so it is the UTF-8 size. -/
def webColorToPixel (aWebColor : String) : PixelColor :=
  let res := transparent
  let i := webColorSkip aWebColor
  let n := aWebColor.utf8ByteSize - i
  match sscanfHex (aWebColor.toList.drop i) with
  | some h =>
    if n ≤ 4 then
      let a := if n = 4 then expandNibble ((h >>> 12) &&& 0xF) else 255
      { r := expandNibble ((h >>> 8) &&& 0xF),
        g := expandNibble ((h >>> 4) &&& 0xF),
        b := expandNibble ((h >>> 0) &&& 0xF),
        a := a }
    else
      let a := if n = 8 then ((h >>> 24) &&& 0xFF) % 256 else 255
      { r := ((h >>> 16) &&& 0xFF) % 256,
        g := ((h >>> 8) &&& 0xFF) % 256,
        b := ((h >>> 0) &&& 0xFF) % 256,
        a := a }
  | none => res

/-! ## View (`view.cpp`, lines 26-215) -/

/-- Modelled from the spec: the orientation constants (`right`, `xy_swap`, `x_flip`,
`y_flip`) are declared in `view.hpp`, which is not among the sources; the spec describes
the orientation as a composable selection of axis swap, horizontal flip and vertical
flip. A field is `true` when `contentOrientation & flag` is non-zero. -/
structure Orientation where
  xy_swap : Bool := false
  x_flip : Bool := false
  y_flip : Bool := false
deriving DecidableEq, Repr

/-- Modelled from the spec: the `WrapMode` constants are declared in `view.hpp`, which is
not among the sources; the spec describes eight independent boundary policy flags, one
per axis and edge, each either clip or wrap. A field is `true` when
`contentWrapMode & flag` is non-zero. -/
structure WrapMode where
  wrapXmin : Bool := false
  wrapXmax : Bool := false
  wrapYmin : Bool := false
  wrapYmax : Bool := false
  clipXmin : Bool := false
  clipXmax : Bool := false
  clipYmin : Bool := false
  clipYmax : Bool := false
deriving DecidableEq, Repr

/-- Modelled from the spec: `contentWrapMode & clipXY`, the mask of all four clip flags
(declared in `view.hpp`, which is not among the sources). -/
def WrapMode.clipXY (m : WrapMode) : Bool :=
  m.clipXmin || m.clipXmax || m.clipYmin || m.clipYmax

/-- Modelled from the spec: `contentWrapMode & wrapX`, the mask of the two X wrap flags
(declared in `view.hpp`, which is not among the sources). -/
def WrapMode.wrapX (m : WrapMode) : Bool :=
  m.wrapXmin || m.wrapXmax

/-- Modelled from the spec: `contentWrapMode & wrapY`, the mask of the two Y wrap flags
(declared in `view.hpp`, which is not among the sources). -/
def WrapMode.wrapY (m : WrapMode) : Bool :=
  m.wrapYmin || m.wrapYmax

/-- Identity of a `SimpleCB` callback object; an absent callback (NULL) is `none`.
A function of the model that invokes callbacks returns the list of the callbacks it
invoked, in call order. In the source every invocation is the last statement of the call
that touches the object, so the state returned is the state the callback finds. -/
abbrev CallbackId := Nat

/-- The members of `View` that `view.cpp` reads and writes, with the values the
constructor gives them. The members are declared in `view.hpp`, which is not among the
sources: `alpha` is an 8-bit value as the spec says (0..255), `targetAlpha` and `fadeDist`
are `int`, the times are `MLMicroSeconds`, and `dirty` is the flag `makeDirty()` sets. -/
structure View where
  originX : Int := 0
  originY : Int := 0
  dX : Int := 0
  dY : Int := 0
  offsetX : Int := 0
  offsetY : Int := 0
  contentSizeX : Int := 0
  contentSizeY : Int := 0
  contentOrientation : Orientation := {}
  contentWrapMode : WrapMode := {}
  backgroundColor : PixelColor := transparent
  alpha : Nat := 255
  targetAlpha : Int := -1
  fadeDist : Int := 0
  startTime : Int := 0
  fadeTime : Int := 0
  fadeCompleteCB : Option CallbackId := none
  dirty : Bool := false

/-- Function `View::isInContentSize`. -/
def View.isInContentSize (v : View) (aX aY : Int) : Bool :=
  decide (0 ≤ aX) && decide (0 ≤ aY) && decide (aX < v.contentSizeX) && decide (aY < v.contentSizeY)

/-- Coordinate in content space: `colorAt`, lines 155-167 (translation, then swap,
x flip and y flip). -/
def View.contentCoord (v : View) (aX aY : Int) : Int × Int :=
  let x := aX - v.originX - v.offsetX
  let y := aY - v.originY - v.offsetY
  let xy : Int × Int := if v.contentOrientation.xy_swap then (y, x) else (x, y)
  let x := if v.contentOrientation.x_flip then v.contentSizeX - xy.1 - 1 else xy.1
  let y := if v.contentOrientation.y_flip then v.contentSizeY - xy.2 - 1 else xy.2
  (x, y)

/-- The clip condition of `colorAt`, lines 169-174. -/
def View.clips (v : View) (x y : Int) : Bool :=
  v.contentWrapMode.clipXY && (
    (v.contentWrapMode.clipXmin && decide (x < 0)) ||
    (v.contentWrapMode.clipXmax && decide (x ≥ v.contentSizeX)) ||
    (v.contentWrapMode.clipYmin && decide (y < 0)) ||
    (v.contentWrapMode.clipYmax && decide (y ≥ v.contentSizeY)))

/-- Loop `while (flag && x<0) x+=size;` inside the guard `size>0`. -/
def wrapMinLoop (flag : Bool) (size : Int) (hs : 0 < size) (x : Int) : Int :=
  if flag = true ∧ x < 0 then wrapMinLoop flag size hs (x + size) else x
termination_by (-x).toNat
decreasing_by omega

/-- Loop `while (flag && x>=size) x-=size;` inside the guard `size>0`. -/
def wrapMaxLoop (flag : Bool) (size : Int) (hs : 0 < size) (x : Int) : Int :=
  if flag = true ∧ x ≥ size then wrapMaxLoop flag size hs (x - size) else x
termination_by x.toNat
decreasing_by omega

/-- The wrap correction of one axis, `colorAt` lines 181-184 (resp. 185-188). -/
def wrapAxis (flagMin flagMax : Bool) (size : Int) (x : Int) : Int :=
  if hs : 0 < size then wrapMaxLoop flagMax size hs (wrapMinLoop flagMin size hs x) else x

/-- Function `View::colorAt(aX, aY)` with the virtual `contentColorAt` as a parameter. The second
component lists the coordinates at which `contentColorAt` was called, in call order. -/
def View.colorAtTraced (v : View) (contentColorAt : Int → Int → PixelColor) (aX aY : Int) :
    PixelColor × List (Int × Int) :=
  let pc := v.backgroundColor
  if v.alpha = 0 then
    ({ pc with a := 0 }, [])
  else
    let c := v.contentCoord aX aY
    if v.clips c.1 c.2 then
      ({ pc with a := 0 }, [])
    else
      let x := wrapAxis v.contentWrapMode.wrapXmin v.contentWrapMode.wrapXmax v.contentSizeX c.1
      let y := wrapAxis v.contentWrapMode.wrapYmin v.contentWrapMode.wrapYmax v.contentSizeY c.2
      let pc := contentColorAt x y
      let pc := if pc.a = 0 then v.backgroundColor else pc
      let pc := if v.alpha ≠ 255 then { pc with a := dimVal pc.a v.alpha } else pc
      (pc, [(x, y)])

/-- Function `View::colorAt(aX, aY)`: the pixel returned. -/
def View.colorAt (v : View) (contentColorAt : Int → Int → PixelColor) (aX aY : Int) : PixelColor :=
  (v.colorAtTraced contentColorAt aX aY).1

/-- The coordinate that `colorAt` passes to `contentColorAt` when nothing is clipped: the
content coordinate with the wrap correction of lines 181-188 applied to each axis. -/
def View.wrappedCoord (v : View) (aX aY : Int) : Int × Int :=
  (wrapAxis v.contentWrapMode.wrapXmin v.contentWrapMode.wrapXmax v.contentSizeX
      (v.contentCoord aX aY).1,
   wrapAxis v.contentWrapMode.wrapYmin v.contentWrapMode.wrapYmax v.contentSizeY
      (v.contentCoord aX aY).2)

/-- The pixel `colorAt` works with after the content query: the content pixel, or the
background colour when the content pixel is fully transparent (lines 190-207). -/
def View.contentOrBackground (v : View) (contentColorAt : Int → Int → PixelColor)
    (aX aY : Int) : PixelColor :=
  if (contentColorAt (v.wrappedCoord aX aY).1 (v.wrappedCoord aX aY).2).a = 0 then
    v.backgroundColor
  else contentColorAt (v.wrappedCoord aX aY).1 (v.wrappedCoord aX aY).2

/-! ## Fading (`view.cpp`, lines 74-132) -/

/-- Modelled from the spec: `makeDirty()` is defined in `view.hpp`, which is not among the
sources; the spec says the dirty flag is set on any mutation. -/
def View.makeDirty (v : View) : View :=
  { v with dirty := true }

/-- Function `View::setAlpha(int aAlpha)`; the assignment to the 8-bit `alpha` reduces the
value modulo 256. -/
def View.setAlpha (v : View) (aAlpha : Int) : View :=
  if (v.alpha : Int) ≠ aAlpha then
    View.makeDirty { v with alpha := (aAlpha % 256).toNat }
  else v

/-- The test `timeDone<1` of `View::step`, where
`timeDone = (double)(now-startTime)/fadeTime`. The quotient of two integers of magnitude
below `2^53` is rounded correctly, so it is below 1 exactly when the real quotient is
(`timeDoneBelowOne_double` proves the agreement for a positive `fadeTime`);
a division by zero gives an infinity, or NaN for `0/0`, and NaN is not below 1. -/
def timeDoneBelowOne (elapsed fadeTime : Int) : Bool :=
  if 0 < fadeTime then decide (elapsed < fadeTime)
  else if fadeTime < 0 then decide (fadeTime < elapsed)
  else decide (elapsed < 0)

/-- The value of `(int)(targetAlpha-(1-timeDone)*fadeDist)` as a function of
`targetAlpha`, `fadeDist`, `now-startTime` and `fadeTime`. The expression is evaluated in
`double` arithmetic; `View.step` takes the function as a parameter, and `fadeValueDouble`
below is its evaluation in binary64. -/
abbrev FadeValue := Int → Int → Int → Int → Int

/-- Function `View::step()` at mainloop time `now` (`MainLoop::now()`). Returns the new
state and the callbacks invoked. -/
def View.step (fadeValue : FadeValue) (v : View) (now : Int) : View × List CallbackId :=
  if v.targetAlpha ≥ 0 then
    if timeDoneBelowOne (now - v.startTime) v.fadeTime then
      -- continue fading
      let currentAlpha := fadeValue v.targetAlpha v.fadeDist (now - v.startTime) v.fadeTime
      (v.setAlpha currentAlpha, [])
    else
      -- target alpha reached
      let v1 := v.setAlpha v.targetAlpha
      let v2 := { v1 with targetAlpha := -1 }
      match v2.fadeCompleteCB with
      | some cb => ({ v2 with fadeCompleteCB := none }, [cb])
      | none => (v2, [])
  else (v, [])

/-- Function `View::stopFading()`. -/
def View.stopFading (v : View) : View :=
  { v with targetAlpha := -1, fadeCompleteCB := none }

/-- Function `View::fadeTo(aAlpha, aWithIn, aCompletedCB)` at mainloop time `now`. Returns
the new state and the callbacks invoked. -/
def View.fadeTo (v : View) (now : Int) (aAlpha : Int) (aWithIn : Int)
    (aCompletedCB : Option CallbackId) : View × List CallbackId :=
  let v1 := { v with fadeDist := aAlpha - v.alpha, startTime := now, fadeTime := aWithIn }
  if v1.fadeTime ≤ 0 ∨ v1.fadeDist = 0 then
    -- immediate
    let v2 := v1.setAlpha aAlpha
    ({ v2 with targetAlpha := -1 }, aCompletedCB.toList)
  else
    -- start fading
    ({ v1 with targetAlpha := aAlpha, fadeCompleteCB := aCompletedCB }, [])

/-- A run of `View::step()` calls at the given times, with no other call in between;
the callbacks invoked are collected in order. -/
def View.steps (fadeValue : FadeValue) (v : View) : List Int → View × List CallbackId
  | [] => (v, [])
  | now :: rest =>
    let r1 := View.step fadeValue v now
    let r2 := View.steps fadeValue r1.1 rest
    (r2.1, r1.2 ++ r2.2)

/-! ## The `double` arithmetic of `View::step` (`view.cpp`, lines 78-81)

`double` is IEEE 754 binary64: every conversion and every operation delivers the exact
result rounded to 53 significant bits, to nearest, ties to even. The exponent is not
bounded here: the operands are 64-bit integers and quotients of them, far from overflow
and from the subnormal range. Each of the four operations of lines 78 and 81 is rounded on
its own (no fused multiply-add). -/

/-- A finite `double`: the number `m * 2^e`. -/
structure Dbl where
  m : Int
  e : Int
deriving DecidableEq, Repr

/-- The rational value of a `double`. -/
def Dbl.val (d : Dbl) : ℚ := (d.m : ℚ) * (2 : ℚ) ^ d.e

/-- Number of binary digits of `n`, by repeated halving (`fuel` bounds the recursion). -/
def bitLenAux : Nat → Nat → Nat
  | 0, _ => 0
  | fuel + 1, n => if n = 0 then 0 else bitLenAux fuel (n / 2) + 1

/-- Number of binary digits of `n` (0 for 0). -/
def bitLen (n : Nat) : Nat := bitLenAux n n

/-- Rounding of a natural number to 53 significant bits, to nearest, ties to even: the
result is `(q, s)` for the value `q * 2^s`. -/
def roundNat53 (n : Nat) : Nat × Nat :=
  if bitLen n ≤ 53 then (n, 0)
  else
    let s := bitLen n - 53
    let q := n / 2 ^ s
    let r := n % 2 ^ s
    let half := 2 ^ (s - 1)
    if half < r ∨ (r = half ∧ q % 2 = 1) then (q + 1, s) else (q, s)

/-- The `double` nearest to `m * 2^e`. -/
def Dbl.round (m e : Int) : Dbl :=
  { m := (if m < 0 then -1 else 1) * ((roundNat53 m.natAbs).1 : Int),
    e := e + ((roundNat53 m.natAbs).2 : Int) }

/-- Conversion of an integer to `double`: `(double)n`, also the implicit conversion of an
`int` or `long long` operand of a `double` operation. -/
def Dbl.ofInt (n : Int) : Dbl := Dbl.round n 0

/-- The `double` difference `a - b`: the exact difference, rounded. -/
def Dbl.sub (a b : Dbl) : Dbl :=
  let e := min a.e b.e
  Dbl.round (a.m * 2 ^ (a.e - e).toNat - b.m * 2 ^ (b.e - e).toNat) e

/-- The `double` product `a * b`: the exact product, rounded. -/
def Dbl.mul (a b : Dbl) : Dbl := Dbl.round (a.m * b.m) (a.e + b.e)

/-- The `double` quotient `a / b`: the exact quotient, rounded. The quotient is developed
to more than 55 significant bits and the remainder is kept as a sticky bit, which rounds
like the exact quotient. A zero divisor gives an infinity or NaN in C; the value 0
returned here for it is not used by any statement below. -/
def Dbl.div (a b : Dbl) : Dbl :=
  if a.m = 0 ∨ b.m = 0 then { m := 0, e := 0 }
  else
    let k := bitLen b.m.natAbs + 55
    let num := a.m.natAbs * 2 ^ k
    let q := num / b.m.natAbs
    let sticky := if num % b.m.natAbs = 0 then 0 else 1
    Dbl.round ((if (a.m < 0) = (b.m < 0) then 1 else -1) * ((2 * q + sticky : Nat) : Int))
      (a.e - b.e - k - 1)

/-- Conversion of a `double` to `int`: `(int)a`, which discards the fraction (rounds
toward zero). -/
def Dbl.toInt (a : Dbl) : Int :=
  if 0 ≤ a.e then a.m * 2 ^ a.e.toNat else Int.tdiv a.m (2 ^ (-a.e).toNat)

/-- Lines 78 and 81 of `View::step`:
`double timeDone = (double)(MainLoop::now()-startTime)/fadeTime;` and
`int currentAlpha = targetAlpha-(1-timeDone)*fadeDist;` with `elapsed = now-startTime`. -/
def fadeValueDouble (targetAlpha fadeDist elapsed fadeTime : Int) : Int :=
  let timeDone := Dbl.div (Dbl.ofInt elapsed) (Dbl.ofInt fadeTime)
  Dbl.toInt (Dbl.sub (Dbl.ofInt targetAlpha)
    (Dbl.mul (Dbl.sub (Dbl.ofInt 1) timeDone) (Dbl.ofInt fadeDist)))

/-- The specification's opacity during a fade: the integer truncation (toward zero) of
`targetAlpha - (1 - elapsed/fadeTime) * fadeDist` evaluated in exact arithmetic, for a
positive `fadeTime`; the value is the fraction
`(targetAlpha*fadeTime - (fadeTime-elapsed)*fadeDist) / fadeTime`. -/
def fadeValueExact (targetAlpha fadeDist elapsed fadeTime : Int) : Int :=
  Int.tdiv (targetAlpha * fadeTime - (fadeTime - elapsed) * fadeDist) fadeTime

/-! ## ViewScroller (`viewscroller.cpp`) -/

/-- Constant `Never` of the mainloop library (`const MLMicroSeconds Never = 0`). -/
def Never : Int := 0

/-- The members of `ViewScroller` (declared in `viewscroller.hpp`, named in the
constructor of `viewscroller.cpp`) with the values the constructor gives them, and the
inherited dirty flag. All of them are `long` or `MLMicroSeconds`. -/
structure ViewScroller where
  scrollOffsetX_milli : Int := 0
  scrollOffsetY_milli : Int := 0
  scrollStepX_milli : Int := 0
  scrollStepY_milli : Int := 0
  scrollSteps : Int := 0
  scrollStepInterval : Int := Never
  nextScrollStepAt : Int := Never
  scrollCompletedCB : Option CallbackId := none
  dirty : Bool := false

/-- Loop `while ((wm&wrapXmax) && offset>=cs_milli && cs_milli>0) offset-=cs_milli;` -/
def foldMaxLoop (flag : Bool) (cs_milli : Int) (offset : Int) : Int :=
  if flag = true ∧ offset ≥ cs_milli ∧ cs_milli > 0 then
    foldMaxLoop flag cs_milli (offset - cs_milli)
  else offset
termination_by offset.toNat
decreasing_by omega

/-- Loop `while ((wm&wrapXmin) && offset<0 && cs_milli>0) offset+=cs_milli;` -/
def foldMinLoop (flag : Bool) (cs_milli : Int) (offset : Int) : Int :=
  if flag = true ∧ offset < 0 ∧ cs_milli > 0 then
    foldMinLoop flag cs_milli (offset + cs_milli)
  else offset
termination_by (-offset).toNat
decreasing_by omega

/-- One scroll step: the body of the catch-up loop of `ViewScroller::step` up to the wrap
correction (lines 81-102). `scrolledView` is the scrolled view, `none` when there is
none. -/
def ViewScroller.performStep (s : ViewScroller) (scrolledView : Option View) : ViewScroller :=
  let s1 := { s with
    scrollOffsetX_milli := s.scrollOffsetX_milli + s.scrollStepX_milli,
    scrollOffsetY_milli := s.scrollOffsetY_milli + s.scrollStepY_milli,
    dirty := true }
  match scrolledView with
  | none => s1
  | some child =>
    let wm := child.contentWrapMode
    let s2 :=
      if wm.wrapX then
        let csx_milli := child.contentSizeX * 1000
        let afterMax := foldMaxLoop wm.wrapXmax csx_milli s1.scrollOffsetX_milli
        { s1 with scrollOffsetX_milli := foldMinLoop wm.wrapXmin csx_milli afterMax }
      else s1
    if wm.wrapY then
      let csy_milli := child.contentSizeY * 1000
      let afterMax := foldMaxLoop wm.wrapYmax csy_milli s2.scrollOffsetY_milli
      { s2 with scrollOffsetY_milli := foldMinLoop wm.wrapYmin csy_milli afterMax }
    else s2

/-- The catch-up loop `while (next<=0)` of `ViewScroller::step` (lines 76-123). The loop
does not change `scrollStepInterval`; its value is the parameter `interval`, positive by
the guard in front of the loop. Returns the new state, the callbacks invoked and the
number of scroll steps performed. -/
def ViewScroller.catchUp (interval : Int) (hi : 0 < interval) (scrolledView : Option View)
    (s : ViewScroller) (next : Int) : ViewScroller × List CallbackId × Nat :=
  if next ≤ 0 then
    let s1 := s.performStep scrolledView
    if s1.scrollSteps > 0 then
      let s2 := { s1 with scrollSteps := s1.scrollSteps - 1 }
      if s2.scrollSteps = 0 then
        -- scroll ends here
        match s2.scrollCompletedCB with
        | some cb => ({ s2 with scrollCompletedCB := none }, [cb], 1)
        | none => (s2, [], 1)
      else
        let s3 := { s2 with nextScrollStepAt := s2.nextScrollStepAt + interval }
        let r := ViewScroller.catchUp interval hi scrolledView s3 (next + interval)
        (r.1, r.2.1, r.2.2 + 1)
    else
      let s3 := { s1 with nextScrollStepAt := s1.nextScrollStepAt + interval }
      let r := ViewScroller.catchUp interval hi scrolledView s3 (next + interval)
      (r.1, r.2.1, r.2.2 + 1)
  else (s, [], 0)
termination_by (1 - next).toNat
decreasing_by all_goals omega

/-- The scroll part of `ViewScroller::step` (lines 66-125) at mainloop time `now`. The
calls `inherited::step` and `scrolledView->step` in front of it act on the base view and
on the scrolled view, and the returned `nextCall` is built with `updateNextCall`; neither
is among the sources, and they do not touch the members modelled here. `scrolledView` is
the scrolled view as the loop reads it. Returns the new state, the callbacks invoked and
the number of scroll steps performed. -/
def ViewScroller.step (s : ViewScroller) (scrolledView : Option View) (now : Int) :
    ViewScroller × List CallbackId × Nat :=
  if h : s.scrollSteps ≠ 0 ∧ s.scrollStepInterval > 0 then
    let next := s.nextScrollStepAt - now
    if next > 0 then (s, [], 0)
    else ViewScroller.catchUp s.scrollStepInterval h.2 scrolledView s next
  else (s, [], 0)

/-- Function `ViewScroller::startScroll` at mainloop time `now`. The parameters
`aStepX_milli` and `aStepY_milli` are the values `aStepX*1000` and `aStepY*1000` as
stored in the `long` members (the `double` product is formed by the caller of the model).
`>>1` on a `long` is the arithmetic shift and `/` the truncating division. -/
def ViewScroller.startScroll (s : ViewScroller) (now : Int) (aStepX_milli aStepY_milli : Int)
    (aInterval : Int) (aRoundOffsets : Bool) (aNumSteps : Int) (aStartTime : Int)
    (aCompletedCB : Option CallbackId) : ViewScroller :=
  let s1 : ViewScroller :=
    { s with scrollStepX_milli := aStepX_milli, scrollStepY_milli := aStepY_milli }
  let s2 : ViewScroller :=
    if aRoundOffsets then
      let sx : ViewScroller :=
        if s1.scrollStepX_milli ≠ (0 : Int) then
          let q := Int.tdiv (s1.scrollOffsetX_milli + (s1.scrollStepX_milli >>> (1 : Nat))) s1.scrollStepX_milli
          { s1 with scrollOffsetX_milli := q * s1.scrollStepX_milli }
        else s1
      if sx.scrollStepY_milli ≠ (0 : Int) then
        let q := Int.tdiv (sx.scrollOffsetY_milli + (sx.scrollStepY_milli >>> (1 : Nat))) sx.scrollStepY_milli
        { sx with scrollOffsetY_milli := q * sx.scrollStepY_milli }
      else sx
    else s1
  { s2 with
    scrollStepInterval := aInterval,
    scrollSteps := aNumSteps,
    nextScrollStepAt := if aStartTime = Never ∨ aStartTime < now then now else aStartTime,
    scrollCompletedCB := aCompletedCB }

/-- Function `ViewScroller::stopScroll()`. -/
def ViewScroller.stopScroll (s : ViewScroller) : ViewScroller :=
  { s with scrollSteps := 0 }

/-- The integer sample displacement of `ViewScroller::contentColorAt` (lines 149-150):
`(int)((offset+(offset>0 ? 500 : -500))/1000)` with the truncating division of C. -/
def sampleOffset (offset_milli : Int) : Int :=
  Int.tdiv (offset_milli + (if offset_milli > 0 then 500 else -500)) 1000

/-- The signed residual weight of `ViewScroller::contentColorAt` (lines 153, 155):
`(int)((offset-(long)sampleOffset*1000)*255/1000)`. -/
def outsideWeight (offset_milli : Int) : Int :=
  Int.tdiv ((offset_milli - sampleOffset offset_milli * 1000) * 255) 1000

/-- The weight `outsideWeightX` (resp. Y) of `ViewScroller::contentColorAt` after lines
154 and 156, where a negative value has been multiplied by -1. -/
def residualWeight (offset_milli : Int) : Nat :=
  (outsideWeight offset_milli).natAbs

/-- The neighbour direction `subSampleOffsetX` (resp. Y) of
`ViewScroller::contentColorAt` after lines 154 and 156: -1 for a negative weight, else 1. -/
def subSampleDir (offset_milli : Int) : Int :=
  if outsideWeight offset_milli < 0 then -1 else 1

/-- Function `ViewScroller::contentColorAt(aX, aY)`; `childColorAt` is
`scrolledView->colorAt`, `none` when there is no scrolled view. The weights are passed to
`mixinPixel` as `uint8_t`. -/
def ViewScroller.contentColorAt (s : ViewScroller)
    (childColorAt : Option (Int → Int → PixelColor)) (aX aY : Int) : PixelColor :=
  match childColorAt with
  | none => transparent
  | some colorAt =>
    let wx := outsideWeight s.scrollOffsetX_milli
    let wy := outsideWeight s.scrollOffsetY_milli
    let subSampleOffsetX : Int := if wx < 0 then -1 else 1
    let subSampleOffsetY : Int := if wy < 0 then -1 else 1
    let outsideWeightX := if wx < 0 then wx * -1 else wx
    let outsideWeightY := if wy < 0 then wy * -1 else wy
    let sampleOffsetX := sampleOffset s.scrollOffsetX_milli + aX
    let sampleOffsetY := sampleOffset s.scrollOffsetY_milli + aY
    let samp := colorAt sampleOffsetX sampleOffsetY
    if outsideWeightX ≠ 0 then
      let samp1 := mixinPixel samp (colorAt (sampleOffsetX + subSampleOffsetX) sampleOffsetY)
        (outsideWeightX % 256).toNat
      if outsideWeightY ≠ 0 then
        let neighbourY := colorAt sampleOffsetX (sampleOffsetY + subSampleOffsetY)
        let neighbourY1 := mixinPixel neighbourY
          (colorAt (sampleOffsetX + subSampleOffsetX) (sampleOffsetY + subSampleOffsetY))
          (outsideWeightX % 256).toNat
        mixinPixel samp1 neighbourY1 (outsideWeightY % 256).toNat
      else samp1
    else if outsideWeightY ≠ 0 then
      mixinPixel samp (colorAt sampleOffsetX (sampleOffsetY + subSampleOffsetY))
        (outsideWeightY % 256).toNat
    else samp

/-- A run of `ViewScroller::step` calls with no other call in between; each call comes
with the scrolled view as it is at that time and the mainloop time. The callbacks invoked
are collected in order. -/
def ViewScroller.steps (s : ViewScroller) :
    List (Option View × Int) → ViewScroller × List CallbackId
  | [] => (s, [])
  | call :: rest =>
    let r1 := s.step call.1 call.2
    let r2 := ViewScroller.steps r1.1 rest
    (r2.1, r1.2.1 ++ r2.2)

/-! ## Callbacks executed

In `View::step` and in `ViewScroller::step` the invocation `cb()` is the last statement
that touches the object (it is followed by the end of the branch, resp. by `break`).
With `run cb` the effect of callback `cb` on the object, the state at the return of the
call is therefore the callback applied to the state the model returns. -/

/-- Function `View::step()` with the callbacks executed. -/
def View.stepRun (run : CallbackId → View → View) (fadeValue : FadeValue) (v : View)
    (now : Int) : View :=
  let r := View.step fadeValue v now
  r.2.foldl (fun st cb => run cb st) r.1

/-- The scroll part of `ViewScroller::step` with the callbacks executed. -/
def ViewScroller.stepRun (run : CallbackId → ViewScroller → ViewScroller) (s : ViewScroller)
    (scrolledView : Option View) (now : Int) : ViewScroller :=
  let r := s.step scrolledView now
  r.2.1.foldl (fun st cb => run cb st) r.1

/-! ## WifiTrack: search for related MACs (`wifitrack.cpp`, lines 621-652) -/

/-- The members of `WTMac` that the search reads: the identity of the object (the
pointer), the set `ssids` as the list of the identities of its SSIDs in iteration order,
and the identity of its person, if any. -/
structure WTMac where
  id : Nat
  ssids : List Nat
  person : Option Nat
deriving DecidableEq, Repr

/-- The local variables of the search: `relatedMacs` (identities), `mostCommonMac`,
`mostProbablePerson` and `maxCommonSsids`. -/
structure RelatedSearch where
  relatedMacs : List Nat := []
  mostCommonMac : Option WTMac := none
  mostProbablePerson : Option Nat := none
  maxCommonSsids : Int := 0
deriving DecidableEq, Repr

/-- The inner loop (lines 632-639): `commonSsids` starts at 1 and is incremented for every
SSID of the candidate other than `aSSid` that `aMac` has too. -/
def commonSsidCount (aMac : WTMac) (aSSid : Nat) (candidate : WTMac) : Int :=
  candidate.ssids.foldl
    (fun commonSsids spos =>
      if spos = aSSid then commonSsids
      else if spos ∈ aMac.ssids then commonSsids + 1
      else commonSsids)
    1

/-- One pass of the outer loop (lines 628-651) for the MAC `mpos`. The member
`minCommonSsidCount` is an `int` that is not negative; it is a natural number here. -/
def relatedStep (minCommonSsidCount : Nat) (aMac : WTMac) (aSSid : Nat)
    (st : RelatedSearch) (mpos : WTMac) : RelatedSearch :=
  if mpos.id = aMac.id then st
  else if mpos.ssids.length < minCommonSsidCount then st
  else
    let commonSsids := commonSsidCount aMac aSSid mpos
    if commonSsids < (minCommonSsidCount : Int) then st
    else
      let st1 : RelatedSearch :=
        { st with relatedMacs :=
            if mpos.id ∈ st.relatedMacs then st.relatedMacs else st.relatedMacs ++ [mpos.id] }
      if commonSsids > st1.maxCommonSsids then
        { st1 with
          mostCommonMac := some mpos,
          mostProbablePerson :=
            match mpos.person with
            | some person => some person
            | none => st1.mostProbablePerson }
      else st1

/-- The search of `WifiTrack::processSighting` (lines 621-652); `macs` is `aSSid->macs` in
the order the iterator visits it. -/
def findRelated (minCommonSsidCount : Nat) (aMac : WTMac) (aSSid : Nat)
    (macs : List WTMac) : RelatedSearch :=
  if aMac.ssids.length ≥ minCommonSsidCount then
    macs.foldl (relatedStep minCommonSsidCount aMac aSSid) {}
  else {}

end p44

namespace p44

/-! ## Arithmetic of `dimVal` -/

theorem dimVal_eq_div (v d : Nat) (hv : v < 256) (hd : d < 256) :
    dimVal v d = (d + 1) * v / 256 := by
  have hm : (d + 1) * v ≤ 256 * 255 := Nat.mul_le_mul (by omega) (by omega)
  unfold dimVal
  rw [Nat.mod_eq_of_lt (by omega : d < 65536), Nat.mod_eq_of_lt hv, Nat.shiftRight_eq_div_pow]
  apply Nat.mod_eq_of_lt
  generalize (d + 1) * v = m at hm
  omega

theorem dimVal_lt (v d : Nat) : dimVal v d < 256 := by
  unfold dimVal
  exact Nat.mod_lt _ (by decide)

theorem dimVal_full (v : Nat) (hv : v < 256) : dimVal v 255 = v := by
  rw [dimVal_eq_div v 255 hv (by decide)]
  omega

theorem dimVal_none (v : Nat) (hv : v < 256) : dimVal v 0 = 0 := by
  rw [dimVal_eq_div v 0 hv (by decide)]
  omega

/-- The two dimmed shares of a blend with weights `255-w` and `w` never add up to more
than 255. -/
theorem dimVal_add_le (v1 v2 w : Nat) (h1 : v1 < 256) (h2 : v2 < 256) (hw : w < 256) :
    dimVal v1 (255 - w) + dimVal v2 w ≤ 255 := by
  rw [dimVal_eq_div v1 (255 - w) h1 (by omega), dimVal_eq_div v2 w h2 hw]
  have hp : (255 - w + 1) * v1 ≤ (255 - w + 1) * 255 := Nat.mul_le_mul_left _ (by omega)
  have hq : (w + 1) * v2 ≤ (w + 1) * 255 := Nat.mul_le_mul_left _ (by omega)
  generalize (255 - w + 1) * v1 = P at hp
  generalize (w + 1) * v2 = Q at hq
  omega

/-- Blending a value with itself with weights `255-w` and `w` loses at most one unit. -/
theorem dimVal_self_blend (v w : Nat) (hv : v < 256) (hw : w < 256) :
    dimVal v (255 - w) + dimVal v w ≤ v ∧ v ≤ dimVal v (255 - w) + dimVal v w + 1 := by
  rw [dimVal_eq_div v (255 - w) hv (by omega), dimVal_eq_div v w hv hw]
  have hs : (255 - w + 1) * v + (w + 1) * v = 257 * v := by
    rw [← Nat.add_mul]
    congr 1
    omega
  generalize (255 - w + 1) * v = P at hs
  generalize (w + 1) * v = Q at hs
  omega

/-! ## `overlayPixel` -/

/-- Claim C1, as the code has it: for every base pixel and every overlay pixel whose alpha
`a` is not 255, each colour channel of `overlayPixel base overlay` equals
`dimVal base.c (255-a) + dimVal overlay.c a` (the overlay channel is dimmed by `a` once,
without a preceding `alpahDimPixel`), and the resulting alpha is 255. -/
theorem overlayPixel_mix (base overlay : PixelColor) (hb : base.valid) (ho : overlay.valid)
    (ha : overlay.a ≠ 255) :
    (overlayPixel base overlay).r = dimVal base.r (255 - overlay.a) + dimVal overlay.r overlay.a ∧
    (overlayPixel base overlay).g = dimVal base.g (255 - overlay.a) + dimVal overlay.g overlay.a ∧
    (overlayPixel base overlay).b = dimVal base.b (255 - overlay.a) + dimVal overlay.b overlay.a ∧
    (overlayPixel base overlay).a = 255 := by
  obtain ⟨hbr, hbg, hbb, _⟩ := hb
  obtain ⟨hor, hog, hob, hoa⟩ := ho
  have h1 := dimVal_add_le base.r overlay.r overlay.a hbr hor hoa
  have h2 := dimVal_add_le base.g overlay.g overlay.a hbg hog hoa
  have h3 := dimVal_add_le base.b overlay.b overlay.a hbb hob hoa
  simp only [overlayPixel, if_neg ha, addToPixel, dimmedPixel, dimPixel]
  refine ⟨?_, ?_, ?_, trivial⟩
  · exact Nat.mod_eq_of_lt (by omega)
  · exact Nat.mod_eq_of_lt (by omega)
  · exact Nat.mod_eq_of_lt (by omega)

/-- Witness for `overlayPixel_mix`: a half-transparent red over opaque black. -/
theorem overlayPixel_mix_witness :
    (overlayPixel ⟨0, 0, 0, 255⟩ ⟨255, 0, 0, 128⟩).r = dimVal 0 (255 - 128) + dimVal 255 128 ∧
    (overlayPixel ⟨0, 0, 0, 255⟩ ⟨255, 0, 0, 128⟩).g = dimVal 0 (255 - 128) + dimVal 0 128 ∧
    (overlayPixel ⟨0, 0, 0, 255⟩ ⟨255, 0, 0, 128⟩).b = dimVal 0 (255 - 128) + dimVal 0 128 ∧
    (overlayPixel ⟨0, 0, 0, 255⟩ ⟨255, 0, 0, 128⟩).a = 255 :=
  overlayPixel_mix ⟨0, 0, 0, 255⟩ ⟨255, 0, 0, 128⟩ (by decide) (by decide) (by decide)

/-- Claim C1 as stated fails: for a half-transparent red overlay over opaque black the red
channel of `overlayPixel` is 128, whereas dimming the premultiplied overlay
(`alpahDimPixel`) by its alpha would give 64. -/
theorem overlayPixel_premultiplied_cex :
    PixelColor.valid ⟨0, 0, 0, 255⟩ ∧ PixelColor.valid ⟨255, 0, 0, 128⟩ ∧
    (128 : Nat) ≠ 255 ∧
    (overlayPixel ⟨0, 0, 0, 255⟩ ⟨255, 0, 0, 128⟩).r = 128 ∧
    dimVal (0 : Nat) (255 - 128) + dimVal (alpahDimPixel ⟨255, 0, 0, 128⟩).r 128 = 64 ∧
    (overlayPixel ⟨0, 0, 0, 255⟩ ⟨255, 0, 0, 128⟩).r ≠
      dimVal (0 : Nat) (255 - 128) + dimVal (alpahDimPixel ⟨255, 0, 0, 128⟩).r 128 := by
  decide

/-- Claim C2: an overlay with alpha 255 replaces the base (`overlayPixel` returns the
overlay exactly), and an overlay with alpha 0 leaves r, g, b of the base unchanged and
forces the alpha to 255. -/
theorem overlayPixel_extremes (base overlay : PixelColor) (hb : base.valid) (ho : overlay.valid) :
    (overlay.a = 255 → overlayPixel base overlay = overlay) ∧
    (overlay.a = 0 → overlayPixel base overlay = { base with a := 255 }) := by
  obtain ⟨hbr, hbg, hbb, _⟩ := hb
  obtain ⟨hor, hog, hob, _⟩ := ho
  constructor
  · intro ha
    cases overlay
    simp only at ha
    subst ha
    simp [overlayPixel]
  · intro ha
    have hne : overlay.a ≠ 255 := by omega
    simp only [overlayPixel, if_neg hne, addToPixel, dimmedPixel, dimPixel, ha, Nat.sub_zero,
      dimVal_full _ hbr, dimVal_full _ hbg, dimVal_full _ hbb,
      dimVal_none _ hor, dimVal_none _ hog, dimVal_none _ hob, Nat.add_zero,
      Nat.mod_eq_of_lt hbr, Nat.mod_eq_of_lt hbg, Nat.mod_eq_of_lt hbb]
    simp

/-- Witness for `overlayPixel_extremes`. -/
theorem overlayPixel_extremes_witness :
    (overlayPixel ⟨1, 2, 3, 40⟩ ⟨9, 8, 7, 255⟩ = ⟨9, 8, 7, 255⟩) ∧
    (overlayPixel ⟨1, 2, 3, 40⟩ ⟨9, 8, 7, 0⟩ = ⟨1, 2, 3, 255⟩) :=
  ⟨(overlayPixel_extremes ⟨1, 2, 3, 40⟩ ⟨9, 8, 7, 255⟩ (by decide) (by decide)).1 rfl,
   (overlayPixel_extremes ⟨1, 2, 3, 40⟩ ⟨9, 8, 7, 0⟩ (by decide) (by decide)).2 rfl⟩

/-! ## `dimVal` -/

/-- Claim C3: for every 8-bit value `v` and every `d` in 0..255, `dimVal v d` is
`floor((d+1)*v / 256)`, that quotient fits 8 bits (nothing is lost in the conversion to
`uint8_t`), `dimVal 0 d = 0`; and `dimVal 255 255 = 255`, `dimVal 128 127 = 64`. -/
theorem dimVal_spec (v d : Nat) (hv : v < 256) (hd : d < 256) :
    dimVal v d = (d + 1) * v / 256 ∧ ((d + 1) * v) >>> 8 ≤ 255 ∧ dimVal 0 d = 0 ∧
    dimVal 255 255 = 255 ∧ dimVal 128 127 = 64 := by
  refine ⟨dimVal_eq_div v d hv hd, ?_, ?_, by decide, by decide⟩
  · have hm : (d + 1) * v ≤ 256 * 255 := Nat.mul_le_mul (by omega) (by omega)
    rw [Nat.shiftRight_eq_div_pow]
    generalize (d + 1) * v = m at hm
    omega
  · rw [dimVal_eq_div 0 d (by decide) hd]
    simp

/-- Witness for `dimVal_spec`. -/
theorem dimVal_spec_witness :
    dimVal 200 99 = (99 + 1) * 200 / 256 ∧ ((99 + 1) * 200) >>> 8 ≤ 255 ∧ dimVal 0 99 = 0 ∧
    dimVal 255 255 = 255 ∧ dimVal 128 127 = 64 :=
  dimVal_spec 200 99 (by decide) (by decide)

/-! ## `mixinPixel` -/

theorem mixinPixel_zero (main outside : PixelColor) : mixinPixel main outside 0 = main := by
  simp [mixinPixel]

theorem mixinPixel_simplified (main outside : PixelColor) (w : Nat) (hw : 0 < w)
    (hm : main.a = 255) (ho : outside.a = 255) :
    mixinPixel main outside w =
      addToPixel (dimPixel main (255 - w)) (dimmedPixel outside w) := by
  simp [mixinPixel, hw, hm, ho]

/-- Claim C4, as the code has it: for every pixel `p` and every weight `w` in 0..255,
`mixinPixel p p w` is exactly `p` when `w = 0`; for every `w` its alpha is `p.a` or
`p.a - 1`; and when `p` is fully opaque each of r, g, b is the channel of `p` or one less
and the alpha stays 255. (The colour channels of a non-opaque `p` are not covered.) -/
theorem mixinPixel_self (p : PixelColor) (w : Nat) (hp : p.valid) (hw : w < 256) :
    (w = 0 → mixinPixel p p w = p) ∧
    ((mixinPixel p p w).a ≤ p.a ∧ p.a ≤ (mixinPixel p p w).a + 1) ∧
    (p.a = 255 →
      ((mixinPixel p p w).r ≤ p.r ∧ p.r ≤ (mixinPixel p p w).r + 1) ∧
      ((mixinPixel p p w).g ≤ p.g ∧ p.g ≤ (mixinPixel p p w).g + 1) ∧
      ((mixinPixel p p w).b ≤ p.b ∧ p.b ≤ (mixinPixel p p w).b + 1) ∧
      (mixinPixel p p w).a = 255) := by
  obtain ⟨hr, hg, hb, ha⟩ := hp
  rcases Nat.eq_zero_or_pos w with h0 | hpos
  · subst h0
    rw [mixinPixel_zero]
    exact ⟨fun _ => rfl, ⟨le_refl _, Nat.le_succ _⟩,
      fun h => ⟨⟨le_refl _, Nat.le_succ _⟩, ⟨le_refl _, Nat.le_succ _⟩,
        ⟨le_refl _, Nat.le_succ _⟩, h⟩⟩
  · refine ⟨fun h => by omega, ?_, ?_⟩
    · by_cases h255 : p.a = 255
      · rw [mixinPixel_simplified p p w hpos h255 h255]
        simp only [addToPixel, dimPixel, dimmedPixel]
        omega
      · have hsa := dimVal_self_blend p.a w ha hw
        simp only [mixinPixel, if_pos hpos, h255, ne_eq, not_false_eq_true, or_self, if_true]
        split
        · simp only [dimPixel]
          omega
        · omega
    · intro h255
      rw [mixinPixel_simplified p p w hpos h255 h255]
      have h1 := dimVal_self_blend p.r w hr hw
      have h2 := dimVal_self_blend p.g w hg hw
      have h3 := dimVal_self_blend p.b w hb hw
      simp only [addToPixel, dimPixel, dimmedPixel]
      refine ⟨?_, ?_, ?_, h255⟩ <;> omega

/-- Witness for `mixinPixel_self`: an opaque pixel blended with itself at weight 100. -/
theorem mixinPixel_self_witness :
    ((100 : Nat) = 0 → mixinPixel ⟨200, 100, 7, 255⟩ ⟨200, 100, 7, 255⟩ 100 = ⟨200, 100, 7, 255⟩) ∧
    ((mixinPixel ⟨200, 100, 7, 255⟩ ⟨200, 100, 7, 255⟩ 100).a ≤ 255 ∧
      255 ≤ (mixinPixel ⟨200, 100, 7, 255⟩ ⟨200, 100, 7, 255⟩ 100).a + 1) ∧
    ((255 : Nat) = 255 →
      ((mixinPixel ⟨200, 100, 7, 255⟩ ⟨200, 100, 7, 255⟩ 100).r ≤ 200 ∧
        200 ≤ (mixinPixel ⟨200, 100, 7, 255⟩ ⟨200, 100, 7, 255⟩ 100).r + 1) ∧
      ((mixinPixel ⟨200, 100, 7, 255⟩ ⟨200, 100, 7, 255⟩ 100).g ≤ 100 ∧
        100 ≤ (mixinPixel ⟨200, 100, 7, 255⟩ ⟨200, 100, 7, 255⟩ 100).g + 1) ∧
      ((mixinPixel ⟨200, 100, 7, 255⟩ ⟨200, 100, 7, 255⟩ 100).b ≤ 7 ∧
        7 ≤ (mixinPixel ⟨200, 100, 7, 255⟩ ⟨200, 100, 7, 255⟩ 100).b + 1) ∧
      (mixinPixel ⟨200, 100, 7, 255⟩ ⟨200, 100, 7, 255⟩ 100).a = 255) :=
  mixinPixel_self ⟨200, 100, 7, 255⟩ 100 (by decide) (by decide)

/-- Claim C4 as stated fails: the pixel (100,0,0) with alpha 1 blended with itself at
weight 255 comes back with red 0, which is 100 away from the original red. -/
theorem mixinPixel_self_cex :
    PixelColor.valid ⟨100, 0, 0, 1⟩ ∧ (255 : Nat) < 256 ∧
    mixinPixel ⟨100, 0, 0, 1⟩ ⟨100, 0, 0, 1⟩ 255 = ⟨0, 0, 0, 1⟩ ∧
    ¬ ((100 : Nat) ≤ (mixinPixel ⟨100, 0, 0, 1⟩ ⟨100, 0, 0, 1⟩ 255).r + 1) := by
  decide

/-- Claim C5, the code at the failing input: blending the pixel (10,20,30) of alpha 200
fully (weight 255) towards a transparent pixel gives the combined alpha 0, and
`mixinPixel` returns the main pixel untouched, with alpha 200 instead of 0. The same
happens at a small weight for a main pixel of alpha 1 (weight 100, result alpha 1). -/
theorem mixinPixel_zero_alpha_keeps_main :
    PixelColor.valid ⟨10, 20, 30, 200⟩ ∧ PixelColor.valid ⟨0, 0, 0, 0⟩ ∧
    ¬ ((200 : Nat) = 255 ∧ (0 : Nat) = 255) ∧
    dimVal 200 (255 - 255) + dimVal 0 255 = 0 ∧
    mixinPixel ⟨10, 20, 30, 200⟩ ⟨0, 0, 0, 0⟩ 255 = ⟨10, 20, 30, 200⟩ ∧
    (mixinPixel ⟨10, 20, 30, 200⟩ ⟨0, 0, 0, 0⟩ 255).a ≠ 0 ∧
    dimVal 1 (255 - 100) + dimVal 0 100 = 0 ∧
    (mixinPixel ⟨10, 20, 30, 1⟩ ⟨0, 0, 0, 0⟩ 100).a ≠ 0 := by
  decide

/-- Claim C6: for two fully opaque pixels and every weight `w` in 0..255, each colour
channel of `mixinPixel main outside w` equals
`dimVal main.c (255-w) + dimVal outside.c w`, that sum is at most 255, and the alpha of
the result is 255. -/
theorem mixinPixel_opaque_blend (main outside : PixelColor) (w : Nat)
    (hm : main.valid) (ho : outside.valid) (hw : w < 256)
    (hma : main.a = 255) (hoa : outside.a = 255) :
    ((mixinPixel main outside w).r = dimVal main.r (255 - w) + dimVal outside.r w ∧
      dimVal main.r (255 - w) + dimVal outside.r w ≤ 255) ∧
    ((mixinPixel main outside w).g = dimVal main.g (255 - w) + dimVal outside.g w ∧
      dimVal main.g (255 - w) + dimVal outside.g w ≤ 255) ∧
    ((mixinPixel main outside w).b = dimVal main.b (255 - w) + dimVal outside.b w ∧
      dimVal main.b (255 - w) + dimVal outside.b w ≤ 255) ∧
    (mixinPixel main outside w).a = 255 := by
  obtain ⟨hmr, hmg, hmb, _⟩ := hm
  obtain ⟨hor, hog, hob, _⟩ := ho
  have h1 := dimVal_add_le main.r outside.r w hmr hor hw
  have h2 := dimVal_add_le main.g outside.g w hmg hog hw
  have h3 := dimVal_add_le main.b outside.b w hmb hob hw
  rcases Nat.eq_zero_or_pos w with h0 | hpos
  · subst h0
    rw [mixinPixel_zero]
    simp only [Nat.sub_zero, dimVal_full _ hmr, dimVal_full _ hmg, dimVal_full _ hmb,
      dimVal_none _ hor, dimVal_none _ hog, dimVal_none _ hob, Nat.add_zero]
    exact ⟨⟨trivial, by omega⟩, ⟨trivial, by omega⟩, ⟨trivial, by omega⟩, hma⟩
  · rw [mixinPixel_simplified main outside w hpos hma hoa]
    simp only [addToPixel, dimPixel, dimmedPixel]
    exact ⟨⟨Nat.mod_eq_of_lt (by omega), h1⟩, ⟨Nat.mod_eq_of_lt (by omega), h2⟩,
      ⟨Nat.mod_eq_of_lt (by omega), h3⟩, hma⟩

/-- Witness for `mixinPixel_opaque_blend`: opaque red towards opaque blue at weight 64. -/
theorem mixinPixel_opaque_blend_witness :
    ((mixinPixel ⟨255, 0, 0, 255⟩ ⟨0, 0, 255, 255⟩ 64).r = dimVal 255 (255 - 64) + dimVal 0 64 ∧
      dimVal 255 (255 - 64) + dimVal 0 64 ≤ 255) ∧
    ((mixinPixel ⟨255, 0, 0, 255⟩ ⟨0, 0, 255, 255⟩ 64).g = dimVal 0 (255 - 64) + dimVal 0 64 ∧
      dimVal 0 (255 - 64) + dimVal 0 64 ≤ 255) ∧
    ((mixinPixel ⟨255, 0, 0, 255⟩ ⟨0, 0, 255, 255⟩ 64).b = dimVal 0 (255 - 64) + dimVal 255 64 ∧
      dimVal 0 (255 - 64) + dimVal 255 64 ≤ 255) ∧
    (mixinPixel ⟨255, 0, 0, 255⟩ ⟨0, 0, 255, 255⟩ 64).a = 255 :=
  mixinPixel_opaque_blend ⟨255, 0, 0, 255⟩ ⟨0, 0, 255, 255⟩ 64 (by decide) (by decide)
    (by decide) rfl rfl

/-! ## `webColorToPixel` -/

theorem and_0xF (x : Nat) : x &&& 0xF = x % 16 := Nat.and_pow_two_sub_one_eq_mod x 4

theorem and_0xFF (x : Nat) : x &&& 0xFF = x % 256 := Nat.and_pow_two_sub_one_eq_mod x 8

theorem expandNibble_eq (v : Nat) (hv : v < 16) : expandNibble v = 17 * v := by
  interval_cases v <;> rfl

theorem expandNibble_of_eq (x v : Nat) (h : x = v) (hv : v < 16) : expandNibble x = 17 * v := by
  rw [h, expandNibble_eq v hv]

theorem hexDigitVal_lt (c : Char) (v : Nat) (h : hexDigitVal c = some v) : v < 16 := by
  unfold hexDigitVal at h
  split_ifs at h <;> simp at h <;> omega

theorem hexDigitVal_toNat (c : Char) (v : Nat) (h : hexDigitVal c = some v) :
    48 ≤ c.toNat ∧ c.toNat ≤ 102 ∧ c.toNat ≠ 88 := by
  unfold hexDigitVal at h
  split_ifs at h <;> omega

theorem hexDigitVal_utf8Size (c : Char) (v : Nat) (h : hexDigitVal c = some v) :
    c.utf8Size = 1 := by
  have hc := hexDigitVal_toNat c v h
  have : c.val ≤ 0x7F := by
    rw [UInt32.le_def]
    show c.val.toNat ≤ 127
    have : c.toNat = c.val.toNat := rfl
    omega
  simp [Char.utf8Size, this]

theorem hexDigitVal_not_space (c : Char) (v : Nat) (h : hexDigitVal c = some v) :
    isCSpace c = false := by
  have hc := hexDigitVal_toNat c v h
  simp [isCSpace]
  omega

theorem hexDigitVal_ne (c : Char) (v : Nat) (h : hexDigitVal c = some v) :
    c ≠ '-' ∧ c ≠ '+' ∧ c ≠ 'x' ∧ c ≠ 'X' := by
  have hc := hexDigitVal_toNat c v h
  refine ⟨?_, ?_, ?_, ?_⟩ <;> (intro he; subst he; revert hc; decide)

theorem stripSign_cons (c : Char) (t : List Char) (h1 : c ≠ '-') (h2 : c ≠ '+') :
    stripSign (c :: t) = (false, c :: t) := by
  unfold stripSign
  split <;> simp_all

theorem stripHexMarker_second (c d : Char) (t : List Char) (h1 : d ≠ 'x') (h2 : d ≠ 'X') :
    stripHexMarker (c :: d :: t) = c :: d :: t := by
  unfold stripHexMarker
  split <;> simp_all

theorem sscanfHex_digits (c d : Char) (t : List Char) (vc vd : Nat)
    (hc : hexDigitVal c = some vc) (hd : hexDigitVal d = some vd)
    (hv : (scanHexDigits (c :: d :: t) 0 0).2 < 2 ^ 64) :
    sscanfHex (c :: d :: t) =
      if (scanHexDigits (c :: d :: t) 0 0).1 = 0 then none
      else some ((scanHexDigits (c :: d :: t) 0 0).2 % 2 ^ 32) := by
  obtain ⟨hm, hp, _, _⟩ := hexDigitVal_ne c vc hc
  obtain ⟨_, _, hx, hX⟩ := hexDigitVal_ne d vd hd
  have hs := hexDigitVal_not_space c vc hc
  have hmark : hasHexMarker (c :: d :: t) = false := by
    unfold hasHexMarker
    split <;> simp_all
  simp only [sscanfHex, List.dropWhile_cons_of_neg (by simp [hs] : ¬ isCSpace c = true),
    stripSign_cons c _ hm hp, stripHexMarker_second c d t hx hX, hmark,
    if_neg (not_le.mpr hv)]
  simp

theorem webColorSkip_eq (s : String) : webColorSkip s = 0 := by
  simp [webColorSkip]

theorem webColorToPixel_RGB (r g b : Char) (vr vg vb : Nat)
    (hr : hexDigitVal r = some vr) (hg : hexDigitVal g = some vg)
    (hb : hexDigitVal b = some vb) :
    webColorToPixel (String.mk [r, g, b]) = ⟨17 * vr, 17 * vg, 17 * vb, 255⟩ := by
  have lr := hexDigitVal_lt r vr hr
  have lg := hexDigitVal_lt g vg hg
  have lb := hexDigitVal_lt b vb hb
  have hn : (String.mk [r, g, b]).utf8ByteSize = 3 := by
    simp [String.utf8ByteSize, String.utf8ByteSize.go, hexDigitVal_utf8Size r vr hr,
      hexDigitVal_utf8Size g vg hg, hexDigitVal_utf8Size b vb hb]
  unfold webColorToPixel
  simp only [webColorSkip_eq, hn, String.toList, List.drop_zero,
    sscanfHex_digits r g [b] vr vg hr hg
      (by simp only [scanHexDigits, hr, hg, hb]; omega), scanHexDigits, hr, hg, hb]
  simp only [Nat.shiftRight_eq_div_pow, and_0xF]
  simp only [Nat.reduceAdd, Nat.reduceEqDiff, Nat.sub_zero, Nat.reduceLeDiff, ↓reduceIte]
  rw [expandNibble_of_eq _ vr (by omega) lr, expandNibble_of_eq _ vg (by omega) lg,
    expandNibble_of_eq _ vb (by omega) lb]

theorem webColorToPixel_ARGB (a r g b : Char) (va vr vg vb : Nat)
    (ha : hexDigitVal a = some va) (hr : hexDigitVal r = some vr)
    (hg : hexDigitVal g = some vg) (hb : hexDigitVal b = some vb) :
    webColorToPixel (String.mk [a, r, g, b]) = ⟨17 * vr, 17 * vg, 17 * vb, 17 * va⟩ := by
  have la := hexDigitVal_lt a va ha
  have lr := hexDigitVal_lt r vr hr
  have lg := hexDigitVal_lt g vg hg
  have lb := hexDigitVal_lt b vb hb
  have hn : (String.mk [a, r, g, b]).utf8ByteSize = 4 := by
    simp [String.utf8ByteSize, String.utf8ByteSize.go, hexDigitVal_utf8Size a va ha,
      hexDigitVal_utf8Size r vr hr, hexDigitVal_utf8Size g vg hg, hexDigitVal_utf8Size b vb hb]
  unfold webColorToPixel
  simp only [webColorSkip_eq, hn, String.toList, List.drop_zero,
    sscanfHex_digits a r [g, b] va vr ha hr
      (by simp only [scanHexDigits, ha, hr, hg, hb]; omega), scanHexDigits, ha, hr, hg, hb]
  simp only [Nat.shiftRight_eq_div_pow, and_0xF]
  simp only [Nat.reduceAdd, Nat.reduceEqDiff, Nat.sub_zero, Nat.reduceLeDiff, ↓reduceIte]
  rw [expandNibble_of_eq _ vr (by omega) lr, expandNibble_of_eq _ vg (by omega) lg,
    expandNibble_of_eq _ vb (by omega) lb, expandNibble_of_eq _ va (by omega) la]

theorem webColorToPixel_RRGGBB (r1 r2 g1 g2 b1 b2 : Char) (vr1 vr2 vg1 vg2 vb1 vb2 : Nat)
    (hr1 : hexDigitVal r1 = some vr1) (hr2 : hexDigitVal r2 = some vr2)
    (hg1 : hexDigitVal g1 = some vg1) (hg2 : hexDigitVal g2 = some vg2)
    (hb1 : hexDigitVal b1 = some vb1) (hb2 : hexDigitVal b2 = some vb2) :
    webColorToPixel (String.mk [r1, r2, g1, g2, b1, b2]) =
      ⟨16 * vr1 + vr2, 16 * vg1 + vg2, 16 * vb1 + vb2, 255⟩ := by
  have lr1 := hexDigitVal_lt r1 vr1 hr1
  have lr2 := hexDigitVal_lt r2 vr2 hr2
  have lg1 := hexDigitVal_lt g1 vg1 hg1
  have lg2 := hexDigitVal_lt g2 vg2 hg2
  have lb1 := hexDigitVal_lt b1 vb1 hb1
  have lb2 := hexDigitVal_lt b2 vb2 hb2
  have hn : (String.mk [r1, r2, g1, g2, b1, b2]).utf8ByteSize = 6 := by
    simp [String.utf8ByteSize, String.utf8ByteSize.go, hexDigitVal_utf8Size r1 vr1 hr1,
      hexDigitVal_utf8Size r2 vr2 hr2, hexDigitVal_utf8Size g1 vg1 hg1,
      hexDigitVal_utf8Size g2 vg2 hg2, hexDigitVal_utf8Size b1 vb1 hb1,
      hexDigitVal_utf8Size b2 vb2 hb2]
  unfold webColorToPixel
  simp only [webColorSkip_eq, hn, String.toList, List.drop_zero,
    sscanfHex_digits r1 r2 [g1, g2, b1, b2] vr1 vr2 hr1 hr2
      (by simp only [scanHexDigits, hr1, hr2, hg1, hg2, hb1, hb2]; omega), scanHexDigits,
    hr1, hr2, hg1, hg2, hb1, hb2]
  simp only [Nat.shiftRight_eq_div_pow, and_0xFF]
  simp only [Nat.reduceAdd, Nat.reduceEqDiff, Nat.sub_zero, Nat.reduceLeDiff, ↓reduceIte]
  simp only [PixelColor.mk.injEq, and_true]
  refine ⟨?_, ?_, ?_⟩ <;> omega

theorem webColorToPixel_AARRGGBB (a1 a2 r1 r2 g1 g2 b1 b2 : Char)
    (va1 va2 vr1 vr2 vg1 vg2 vb1 vb2 : Nat)
    (ha1 : hexDigitVal a1 = some va1) (ha2 : hexDigitVal a2 = some va2)
    (hr1 : hexDigitVal r1 = some vr1) (hr2 : hexDigitVal r2 = some vr2)
    (hg1 : hexDigitVal g1 = some vg1) (hg2 : hexDigitVal g2 = some vg2)
    (hb1 : hexDigitVal b1 = some vb1) (hb2 : hexDigitVal b2 = some vb2) :
    webColorToPixel (String.mk [a1, a2, r1, r2, g1, g2, b1, b2]) =
      ⟨16 * vr1 + vr2, 16 * vg1 + vg2, 16 * vb1 + vb2, 16 * va1 + va2⟩ := by
  have la1 := hexDigitVal_lt a1 va1 ha1
  have la2 := hexDigitVal_lt a2 va2 ha2
  have lr1 := hexDigitVal_lt r1 vr1 hr1
  have lr2 := hexDigitVal_lt r2 vr2 hr2
  have lg1 := hexDigitVal_lt g1 vg1 hg1
  have lg2 := hexDigitVal_lt g2 vg2 hg2
  have lb1 := hexDigitVal_lt b1 vb1 hb1
  have lb2 := hexDigitVal_lt b2 vb2 hb2
  have hn : (String.mk [a1, a2, r1, r2, g1, g2, b1, b2]).utf8ByteSize = 8 := by
    simp [String.utf8ByteSize, String.utf8ByteSize.go, hexDigitVal_utf8Size a1 va1 ha1,
      hexDigitVal_utf8Size a2 va2 ha2, hexDigitVal_utf8Size r1 vr1 hr1,
      hexDigitVal_utf8Size r2 vr2 hr2, hexDigitVal_utf8Size g1 vg1 hg1,
      hexDigitVal_utf8Size g2 vg2 hg2, hexDigitVal_utf8Size b1 vb1 hb1,
      hexDigitVal_utf8Size b2 vb2 hb2]
  unfold webColorToPixel
  simp only [webColorSkip_eq, hn, String.toList, List.drop_zero,
    sscanfHex_digits a1 a2 [r1, r2, g1, g2, b1, b2] va1 va2 ha1 ha2
      (by simp only [scanHexDigits, ha1, ha2, hr1, hr2, hg1, hg2, hb1, hb2]; omega),
    scanHexDigits,
    ha1, ha2, hr1, hr2, hg1, hg2, hb1, hb2]
  simp only [Nat.shiftRight_eq_div_pow, and_0xFF]
  simp only [Nat.reduceAdd, Nat.reduceEqDiff, Nat.sub_zero, Nat.reduceLeDiff, ↓reduceIte]
  simp only [PixelColor.mk.injEq]
  refine ⟨?_, ?_, ?_, ?_⟩ <;> omega

theorem webColorToPixel_scan_none (s : String) (h : sscanfHex s.toList = none) :
    webColorToPixel s = transparent := by
  unfold webColorToPixel
  simp only [webColorSkip_eq, List.drop_zero, h]

theorem stripHexMarker_head (c : Char) (t : List Char) (h : hexDigitVal c = none) :
    stripHexMarker (c :: t) = c :: t := by
  have h0 : c ≠ '0' := by
    intro he
    subst he
    revert h
    decide
  unfold stripHexMarker
  split <;> simp_all

theorem hasHexMarker_head (c : Char) (t : List Char) (h : hexDigitVal c = none) :
    hasHexMarker (c :: t) = false := by
  have h0 : c ≠ '0' := by
    intro he
    subst he
    revert h
    decide
  unfold hasHexMarker
  split <;> simp_all

/-- The scan fails when, after white space and an optional sign, no hexadecimal digit
follows. -/
theorem sscanfHex_none (l : List Char)
    (h : ∀ c, (stripSign (l.dropWhile isCSpace)).2.head? = some c → hexDigitVal c = none) :
    sscanfHex l = none := by
  have key : ∀ m : List Char, (∀ c, m.head? = some c → hexDigitVal c = none) →
      scanHexDigits (stripHexMarker m) 0 0 = (0, 0) ∧ hasHexMarker m = false := by
    intro m hm
    cases m with
    | nil => simp [stripHexMarker, scanHexDigits, hasHexMarker]
    | cons c t =>
      have hc : hexDigitVal c = none := hm c rfl
      simp [stripHexMarker_head c t hc, scanHexDigits, hc, hasHexMarker_head c t hc]
  simp only [sscanfHex, (key _ h).1, (key _ h).2]
  simp

/-- Claim C7: a string of exactly 3, 4, 6 or 8 hexadecimal digits is decoded by
`webColorToPixel` as RGB (each nibble `n` expanded to `17*n`, alpha 255), ARGB (all four
nibbles expanded), RRGGBB (the bytes r, g, b, alpha 255) or AARRGGBB (the bytes a, r, g,
b). `hexDigitVal c = some v` says that `c` is a hexadecimal digit of value `v`. -/
theorem webColorToPixel_hex_forms :
    (∀ (r g b : Char) (vr vg vb : Nat),
      hexDigitVal r = some vr → hexDigitVal g = some vg → hexDigitVal b = some vb →
      webColorToPixel (String.mk [r, g, b]) = ⟨17 * vr, 17 * vg, 17 * vb, 255⟩) ∧
    (∀ (a r g b : Char) (va vr vg vb : Nat),
      hexDigitVal a = some va → hexDigitVal r = some vr →
      hexDigitVal g = some vg → hexDigitVal b = some vb →
      webColorToPixel (String.mk [a, r, g, b]) = ⟨17 * vr, 17 * vg, 17 * vb, 17 * va⟩) ∧
    (∀ (r1 r2 g1 g2 b1 b2 : Char) (vr1 vr2 vg1 vg2 vb1 vb2 : Nat),
      hexDigitVal r1 = some vr1 → hexDigitVal r2 = some vr2 →
      hexDigitVal g1 = some vg1 → hexDigitVal g2 = some vg2 →
      hexDigitVal b1 = some vb1 → hexDigitVal b2 = some vb2 →
      webColorToPixel (String.mk [r1, r2, g1, g2, b1, b2]) =
        ⟨16 * vr1 + vr2, 16 * vg1 + vg2, 16 * vb1 + vb2, 255⟩) ∧
    (∀ (a1 a2 r1 r2 g1 g2 b1 b2 : Char) (va1 va2 vr1 vr2 vg1 vg2 vb1 vb2 : Nat),
      hexDigitVal a1 = some va1 → hexDigitVal a2 = some va2 →
      hexDigitVal r1 = some vr1 → hexDigitVal r2 = some vr2 →
      hexDigitVal g1 = some vg1 → hexDigitVal g2 = some vg2 →
      hexDigitVal b1 = some vb1 → hexDigitVal b2 = some vb2 →
      webColorToPixel (String.mk [a1, a2, r1, r2, g1, g2, b1, b2]) =
        ⟨16 * vr1 + vr2, 16 * vg1 + vg2, 16 * vb1 + vb2, 16 * va1 + va2⟩) :=
  ⟨webColorToPixel_RGB, webColorToPixel_ARGB, webColorToPixel_RRGGBB, webColorToPixel_AARRGGBB⟩

/-- Witness for `webColorToPixel_hex_forms`: the strings F80, 8F80, ff8000 and 40FF8001. -/
theorem webColorToPixel_hex_forms_witness :
    webColorToPixel "F80" = ⟨255, 136, 0, 255⟩ ∧
    webColorToPixel "8F80" = ⟨255, 136, 0, 136⟩ ∧
    webColorToPixel "ff8000" = ⟨255, 128, 0, 255⟩ ∧
    webColorToPixel "40FF8001" = ⟨255, 128, 1, 64⟩ :=
  ⟨webColorToPixel_hex_forms.1 'F' '8' '0' 15 8 0 rfl rfl rfl,
   webColorToPixel_hex_forms.2.1 '8' 'F' '8' '0' 8 15 8 0 rfl rfl rfl rfl,
   webColorToPixel_hex_forms.2.2.1 'f' 'f' '8' '0' '0' '0' 15 15 8 0 0 0 rfl rfl rfl rfl rfl rfl,
   webColorToPixel_hex_forms.2.2.2 '4' '0' 'F' 'F' '8' '0' '0' '1' 4 0 15 15 8 0 0 1
     rfl rfl rfl rfl rfl rfl rfl rfl⟩

theorem scanHexDigits_count (l : List Char) :
    ∀ cnt acc : Nat, cnt ≤ (scanHexDigits l cnt acc).1 := by
  induction l with
  | nil => intro cnt acc; simp [scanHexDigits]
  | cons c t ih =>
    intro cnt acc
    unfold scanHexDigits
    cases hv : hexDigitVal c with
    | none => simp
    | some v =>
      simp only
      have := ih (cnt + 1) (16 * acc + v)
      omega

theorem stripHexMarker_unmarked (m : List Char) (h : hasHexMarker m = false) :
    stripHexMarker m = m := by
  unfold stripHexMarker
  unfold hasHexMarker at h
  split <;> simp_all

/-- The scan succeeds when, after white space and an optional sign, a hexadecimal digit
follows. -/
theorem sscanfHex_some (l : List Char) (c : Char) (v : Nat)
    (hc : (stripSign (l.dropWhile isCSpace)).2.head? = some c) (hv : hexDigitVal c = some v) :
    ∃ h, sscanfHex l = some h := by
  simp only [sscanfHex]
  generalize (stripSign (l.dropWhile isCSpace)).2 = m at hc
  generalize (stripSign (l.dropWhile isCSpace)).1 = sg
  cases hmark : hasHexMarker m with
  | true =>
    simp only [if_true]
    split
    · exact ⟨_, rfl⟩
    · split
      · exact ⟨_, rfl⟩
      · split <;> exact ⟨_, rfl⟩
  | false =>
    rw [stripHexMarker_unmarked m hmark]
    cases m with
    | nil => simp at hc
    | cons d t =>
      simp only [List.head?_cons, Option.some.injEq] at hc
      subst hc
      have hcount : (scanHexDigits (d :: t) 0 0).1 ≠ 0 := by
        have := scanHexDigits_count t (0 + 1) (16 * 0 + v)
        simp only [scanHexDigits, hv]
        omega
      simp only [if_neg hcount]
      split
      · exact ⟨_, rfl⟩
      · split <;> exact ⟨_, rfl⟩

/-- A scanned number is decoded whatever the length of the string: as the short form up
to 4 bytes, as the long form beyond; the result is opaque unless the string has 4 or 8
bytes. -/
theorem webColorToPixel_scan_some (s : String) (h : Nat) (hs : sscanfHex s.toList = some h) :
    webColorToPixel s =
      (if s.utf8ByteSize ≤ 4 then
        { r := expandNibble ((h >>> 8) &&& 0xF),
          g := expandNibble ((h >>> 4) &&& 0xF),
          b := expandNibble ((h >>> 0) &&& 0xF),
          a := if s.utf8ByteSize = 4 then expandNibble ((h >>> 12) &&& 0xF) else 255 }
      else
        { r := ((h >>> 16) &&& 0xFF) % 256,
          g := ((h >>> 8) &&& 0xFF) % 256,
          b := ((h >>> 0) &&& 0xFF) % 256,
          a := if s.utf8ByteSize = 8 then ((h >>> 24) &&& 0xFF) % 256 else 255 }) ∧
    (s.utf8ByteSize ≠ 4 → s.utf8ByteSize ≠ 8 → (webColorToPixel s).a = 255) := by
  have e : webColorToPixel s =
      (if s.utf8ByteSize ≤ 4 then
        { r := expandNibble ((h >>> 8) &&& 0xF),
          g := expandNibble ((h >>> 4) &&& 0xF),
          b := expandNibble ((h >>> 0) &&& 0xF),
          a := if s.utf8ByteSize = 4 then expandNibble ((h >>> 12) &&& 0xF) else 255 }
      else
        { r := ((h >>> 16) &&& 0xFF) % 256,
          g := ((h >>> 8) &&& 0xFF) % 256,
          b := ((h >>> 0) &&& 0xFF) % 256,
          a := if s.utf8ByteSize = 8 then ((h >>> 24) &&& 0xFF) % 256 else 255 }) := by
    unfold webColorToPixel
    simp only [webColorSkip_eq, List.drop_zero, hs, Nat.sub_zero]
  refine ⟨e, fun h4 h8 => ?_⟩
  rw [e]
  split
  · simp only [if_neg h4]
  · simp only [if_neg h8]

/-- Claim C8, as the code has it: for every input string in which, after leading white
space and an optional sign, no hexadecimal digit follows (the empty string included),
`webColorToPixel` returns fully transparent black. The function is total, so no error is
signalled for any input. A string in which a hexadecimal digit does follow there is never
rejected, whatever its length and its other characters: the number `h` that `sscanf`
reads is decoded as the short form when the string has at most 4 bytes and as the long
form otherwise, and the result is opaque (alpha 255) unless the string has 4 or 8 bytes.
So the two-digit string 12 is decoded as the short form (0,17,34) with alpha 255. -/
theorem webColorToPixel_no_number (s : String) :
    ((∀ c, (stripSign (s.toList.dropWhile isCSpace)).2.head? = some c → hexDigitVal c = none) →
      webColorToPixel s = { r := 0, g := 0, b := 0, a := 0 }) ∧
    ((∃ c v, (stripSign (s.toList.dropWhile isCSpace)).2.head? = some c ∧
        hexDigitVal c = some v) →
      ∃ h, sscanfHex s.toList = some h ∧
        webColorToPixel s =
          (if s.utf8ByteSize ≤ 4 then
            { r := expandNibble ((h >>> 8) &&& 0xF),
              g := expandNibble ((h >>> 4) &&& 0xF),
              b := expandNibble ((h >>> 0) &&& 0xF),
              a := if s.utf8ByteSize = 4 then expandNibble ((h >>> 12) &&& 0xF) else 255 }
          else
            { r := ((h >>> 16) &&& 0xFF) % 256,
              g := ((h >>> 8) &&& 0xFF) % 256,
              b := ((h >>> 0) &&& 0xFF) % 256,
              a := if s.utf8ByteSize = 8 then ((h >>> 24) &&& 0xFF) % 256 else 255 }) ∧
        (s.utf8ByteSize ≠ 4 → s.utf8ByteSize ≠ 8 → (webColorToPixel s).a = 255)) ∧
    webColorToPixel "12" = { r := 0, g := 17, b := 34, a := 255 } := by
  refine ⟨fun h => webColorToPixel_scan_none s (sscanfHex_none s.toList h), ?_, by decide⟩
  rintro ⟨c, v, hc, hv⟩
  obtain ⟨h, hh⟩ := sscanfHex_some s.toList c v hc hv
  exact ⟨h, hh, webColorToPixel_scan_some s h hh⟩

/-- Witness for `webColorToPixel_no_number`: a blank, a plus sign and a letter that is
not a hexadecimal digit give transparent black; the five-character string 0x12g, which
starts with a digit, gives an opaque pixel. -/
theorem webColorToPixel_no_number_witness :
    webColorToPixel " +g0" = { r := 0, g := 0, b := 0, a := 0 } ∧
    (webColorToPixel "0x12g").a = 255 :=
  ⟨(webColorToPixel_no_number " +g0").1 (by
    intro c hc
    have h2 : (stripSign (" +g0".toList.dropWhile isCSpace)).2.head? = some 'g' := by decide
    rw [h2] at hc
    cases hc
    decide),
   by
    obtain ⟨h, _, _, ha⟩ := (webColorToPixel_no_number "0x12g").2.1
      ⟨'0', 0, by decide, by decide⟩
    exact ha (by decide) (by decide)⟩

/-- Claim C8 as stated fails: the two-digit string 12 is not one of the accepted forms,
yet `webColorToPixel` decodes it as a short form and returns (0,17,34) with alpha 255. -/
theorem webColorToPixel_short_cex :
    "12".length = 2 ∧ webColorToPixel "12" = ⟨0, 17, 34, 255⟩ ∧
    webColorToPixel "12" ≠ { r := 0, g := 0, b := 0, a := 0 } := by
  decide

/-- Claim C9: the skip index of `webColorToPixel` is 0 for every input, so a leading `#`
is never stripped, and every string whose first character is `#` yields fully
transparent black. -/
theorem webColorToPixel_hash (s : String) :
    webColorSkip s = 0 ∧
    (s.toList.head? = some '#' → webColorToPixel s = { r := 0, g := 0, b := 0, a := 0 }) := by
  refine ⟨webColorSkip_eq s, fun h => ?_⟩
  apply webColorToPixel_scan_none
  apply sscanfHex_none
  obtain ⟨l⟩ := s
  change l.head? = some '#' at h
  show ∀ c, (stripSign (l.dropWhile isCSpace)).2.head? = some c → hexDigitVal c = none
  cases l with
  | nil => simp at h
  | cons d t =>
    simp only [List.head?_cons, Option.some.injEq] at h
    subst h
    intro c hc
    have e : stripSign (List.dropWhile isCSpace ('#' :: t)) = (false, '#' :: t) := by
      rw [List.dropWhile_cons_of_neg (by decide), stripSign_cons _ _ (by decide) (by decide)]
    rw [e] at hc
    simp only [List.head?_cons, Option.some.injEq] at hc
    subst hc
    decide

/-- Witness for `webColorToPixel_hash`: the string #FF0000. -/
theorem webColorToPixel_hash_witness :
    webColorSkip "#FF0000" = 0 ∧ webColorToPixel "#FF0000" = { r := 0, g := 0, b := 0, a := 0 } :=
  ⟨(webColorToPixel_hash "#FF0000").1, (webColorToPixel_hash "#FF0000").2 rfl⟩

/-! ## `View::colorAt` -/

/-- Claim C10: with overall alpha not 0, whenever the content coordinate violates an
enabled clip flag, `colorAt` returns the background colour with alpha 0 and does not call
the content hook at all (so no wrapped coordinate is ever computed), whatever the wrap
flags of the view are. -/
theorem colorAt_clip_before_wrap (v : View) (contentColorAt : Int → Int → PixelColor)
    (aX aY : Int) (ha : v.alpha ≠ 0)
    (hclip :
      (v.contentWrapMode.clipXmin = true ∧ (v.contentCoord aX aY).1 < 0) ∨
      (v.contentWrapMode.clipXmax = true ∧ (v.contentCoord aX aY).1 ≥ v.contentSizeX) ∨
      (v.contentWrapMode.clipYmin = true ∧ (v.contentCoord aX aY).2 < 0) ∨
      (v.contentWrapMode.clipYmax = true ∧ (v.contentCoord aX aY).2 ≥ v.contentSizeY)) :
    v.colorAtTraced contentColorAt aX aY = ({ v.backgroundColor with a := 0 }, []) ∧
    (v.colorAt contentColorAt aX aY).a = 0 := by
  have hc : v.clips (v.contentCoord aX aY).1 (v.contentCoord aX aY).2 = true := by
    unfold View.clips WrapMode.clipXY
    rcases hclip with h | h | h | h <;> simp [h.1, h.2]
  have ht : v.colorAtTraced contentColorAt aX aY = ({ v.backgroundColor with a := 0 }, []) := by
    simp only [View.colorAtTraced, if_neg ha, hc, if_true]
  exact ⟨ht, by rw [View.colorAt, ht]⟩

/-- Witness for `colorAt_clip_before_wrap`: a 4x4 view that both clips and wraps at the
left edge, queried one pixel left of its content. -/
theorem colorAt_clip_before_wrap_witness :
    View.colorAtTraced
        { contentSizeX := 4, contentSizeY := 4, backgroundColor := ⟨1, 2, 3, 255⟩,
          contentWrapMode := { clipXmin := true, wrapXmin := true, wrapXmax := true } }
        (fun _ _ => ⟨9, 9, 9, 255⟩) (-1) 0 = (⟨1, 2, 3, 0⟩, []) ∧
    (View.colorAt
        { contentSizeX := 4, contentSizeY := 4, backgroundColor := ⟨1, 2, 3, 255⟩,
          contentWrapMode := { clipXmin := true, wrapXmin := true, wrapXmax := true } }
        (fun _ _ => ⟨9, 9, 9, 255⟩) (-1) 0).a = 0 :=
  colorAt_clip_before_wrap
    { contentSizeX := 4, contentSizeY := 4, backgroundColor := ⟨1, 2, 3, 255⟩,
      contentWrapMode := { clipXmin := true, wrapXmin := true, wrapXmax := true } }
    (fun _ _ => ⟨9, 9, 9, 255⟩) (-1) 0 (by decide) (Or.inl ⟨rfl, by decide⟩)

/-! ## Wrap correction in `View::colorAt` -/

theorem wrapMinLoop_false (size : Int) (hs : 0 < size) (x : Int) :
    wrapMinLoop false size hs x = x := by
  rw [wrapMinLoop]
  simp

theorem wrapMaxLoop_false (size : Int) (hs : 0 < size) (x : Int) :
    wrapMaxLoop false size hs x = x := by
  rw [wrapMaxLoop]
  simp

theorem wrapMinLoop_nonneg (flag : Bool) (size : Int) (hs : 0 < size) (x : Int) (hx : 0 ≤ x) :
    wrapMinLoop flag size hs x = x := by
  rw [wrapMinLoop]
  simp [not_lt.mpr hx]

theorem wrapMaxLoop_small (flag : Bool) (size : Int) (hs : 0 < size) (x : Int) (hx : x < size) :
    wrapMaxLoop flag size hs x = x := by
  rw [wrapMaxLoop]
  simp [hx]

/-- Closed form of the lower wrap loop: a negative coordinate is reduced modulo the size. -/
theorem wrapMinLoop_true (size : Int) (hs : 0 < size) (x : Int) :
    wrapMinLoop true size hs x = if x < 0 then x % size else x := by
  induction x using wrapMinLoop.induct true size hs with
  | case1 x h ih =>
    rw [wrapMinLoop, if_pos h, ih, if_pos h.2]
    split
    · exact Int.add_emod_self
    · rw [← Int.add_emod_self (a := x) (b := size)]
      exact (Int.emod_eq_of_lt (by omega) (by omega)).symm
  | case2 x h =>
    rw [wrapMinLoop, if_neg h]
    have : ¬ x < 0 := fun hx => h ⟨rfl, hx⟩
    rw [if_neg this]

/-- Closed form of the upper wrap loop: a coordinate beyond the size is reduced modulo
the size (for a coordinate that is not negative). -/
theorem wrapMaxLoop_true (size : Int) (hs : 0 < size) (x : Int) (hx : 0 ≤ x) :
    wrapMaxLoop true size hs x = x % size := by
  induction x using wrapMaxLoop.induct true size hs with
  | case1 x h ih =>
    rw [wrapMaxLoop, if_pos h, ih (by omega)]
    have : x = (x - size) + size := by omega
    conv => rhs; rw [this]
    exact Int.add_emod_self.symm
  | case2 x h =>
    rw [wrapMaxLoop, if_neg h]
    have : x < size := by
      by_contra hc
      exact h ⟨rfl, by omega⟩
    exact (Int.emod_eq_of_lt hx this).symm

/-- With both wrap flags of an axis set and a positive size the wrap correction is the
reduction modulo the size. -/
theorem wrapAxis_both (size : Int) (hs : 0 < size) (x : Int) :
    wrapAxis true true size x = x % size := by
  rw [wrapAxis, dif_pos hs, wrapMinLoop_true]
  split
  · rw [wrapMaxLoop_true size hs _ (Int.emod_nonneg _ (by omega))]
    exact Int.emod_emod_of_dvd x (dvd_refl size)
  · exact wrapMaxLoop_true size hs x (by omega)

theorem wrapAxis_nonpos (flagMin flagMax : Bool) (size : Int) (hs : size ≤ 0) (x : Int) :
    wrapAxis flagMin flagMax size x = x := by
  rw [wrapAxis, dif_neg (by omega)]

theorem colorAtTraced_inside (v : View) (contentColorAt : Int → Int → PixelColor) (aX aY : Int)
    (ha : v.alpha ≠ 0)
    (hc : v.clips (v.contentCoord aX aY).1 (v.contentCoord aX aY).2 = false) :
    v.colorAtTraced contentColorAt aX aY =
      (let x := wrapAxis v.contentWrapMode.wrapXmin v.contentWrapMode.wrapXmax v.contentSizeX
          (v.contentCoord aX aY).1
       let y := wrapAxis v.contentWrapMode.wrapYmin v.contentWrapMode.wrapYmax v.contentSizeY
          (v.contentCoord aX aY).2
       let pc := contentColorAt x y
       let pc := if pc.a = 0 then v.backgroundColor else pc
       let pc := if v.alpha ≠ 255 then { pc with a := dimVal pc.a v.alpha } else pc
       (pc, [(x, y)])) := by
  simp only [View.colorAtTraced, if_neg ha, hc]
  simp

theorem emod_unique (size c z : Int) (h0 : 0 ≤ z) (h1 : z < size)
    (hd : size ∣ c - z) : z = c % size := by
  obtain ⟨k, hk⟩ := hd
  have hc : c = z + size * k := by linarith
  rw [hc, Int.add_mul_emod_self_left]
  exact (Int.emod_eq_of_lt h0 h1).symm

theorem emod_spec (size c : Int) (hs : 0 < size) :
    0 ≤ c % size ∧ c % size < size ∧ size ∣ c - c % size ∧
    ∀ z : Int, 0 ≤ z → z < size → size ∣ c - z → z = c % size :=
  ⟨Int.emod_nonneg c (by omega), Int.emod_lt_of_pos c hs, Int.dvd_sub_of_emod_eq rfl,
    fun z h0 h1 hd => emod_unique size c z h0 h1 hd⟩

/-- Claim C11: when the view is visible and no clip flag fires, the content hook is
queried once, at `wrappedCoord`, whose components are obtained by correcting each axis on
its own (`wrapAxis` with the flags and size of that axis only). On an axis with both wrap
flags set and a positive content size the coordinate passed is `c % size`, the unique
value in `[0, size)` congruent to the content coordinate `c` modulo the size. -/
theorem colorAt_wrap_modular (v : View) (contentColorAt : Int → Int → PixelColor) (aX aY : Int)
    (ha : v.alpha ≠ 0)
    (hc : v.clips (v.contentCoord aX aY).1 (v.contentCoord aX aY).2 = false) :
    (v.colorAtTraced contentColorAt aX aY).2 = [v.wrappedCoord aX aY] ∧
    (v.contentWrapMode.wrapXmin = true → v.contentWrapMode.wrapXmax = true →
      0 < v.contentSizeX →
      (v.wrappedCoord aX aY).1 = (v.contentCoord aX aY).1 % v.contentSizeX ∧
      0 ≤ (v.wrappedCoord aX aY).1 ∧ (v.wrappedCoord aX aY).1 < v.contentSizeX ∧
      v.contentSizeX ∣ (v.contentCoord aX aY).1 - (v.wrappedCoord aX aY).1 ∧
      ∀ z : Int, 0 ≤ z → z < v.contentSizeX → v.contentSizeX ∣ (v.contentCoord aX aY).1 - z →
        z = (v.wrappedCoord aX aY).1) ∧
    (v.contentWrapMode.wrapYmin = true → v.contentWrapMode.wrapYmax = true →
      0 < v.contentSizeY →
      (v.wrappedCoord aX aY).2 = (v.contentCoord aX aY).2 % v.contentSizeY ∧
      0 ≤ (v.wrappedCoord aX aY).2 ∧ (v.wrappedCoord aX aY).2 < v.contentSizeY ∧
      v.contentSizeY ∣ (v.contentCoord aX aY).2 - (v.wrappedCoord aX aY).2 ∧
      ∀ z : Int, 0 ≤ z → z < v.contentSizeY → v.contentSizeY ∣ (v.contentCoord aX aY).2 - z →
        z = (v.wrappedCoord aX aY).2) := by
  refine ⟨?_, ?_, ?_⟩
  · rw [colorAtTraced_inside v contentColorAt aX aY ha hc]
    rfl
  · intro h1 h2 hs
    have e : (v.wrappedCoord aX aY).1 = (v.contentCoord aX aY).1 % v.contentSizeX := by
      simp only [View.wrappedCoord, h1, h2]
      exact wrapAxis_both _ hs _
    rw [e]
    exact ⟨rfl, emod_spec _ _ hs⟩
  · intro h1 h2 hs
    have e : (v.wrappedCoord aX aY).2 = (v.contentCoord aX aY).2 % v.contentSizeY := by
      simp only [View.wrappedCoord, h1, h2]
      exact wrapAxis_both _ hs _
    rw [e]
    exact ⟨rfl, emod_spec _ _ hs⟩

/-- Witness for `colorAt_wrap_modular`: a 4x3 view wrapping on all edges, queried at
(-1, 7), asks the content for (3, 1). -/
theorem colorAt_wrap_modular_witness :
    (View.wrappedCoord
        { contentSizeX := 4, contentSizeY := 3,
          contentWrapMode :=
            { wrapXmin := true, wrapXmax := true, wrapYmin := true, wrapYmax := true } }
        (-1) 7).1 = 3 ∧
    (View.wrappedCoord
        { contentSizeX := 4, contentSizeY := 3,
          contentWrapMode :=
            { wrapXmin := true, wrapXmax := true, wrapYmin := true, wrapYmax := true } }
        (-1) 7).2 = 1 :=
  ⟨((colorAt_wrap_modular
      { contentSizeX := 4, contentSizeY := 3,
        contentWrapMode :=
          { wrapXmin := true, wrapXmax := true, wrapYmin := true, wrapYmax := true } }
      (fun _ _ => ⟨9, 9, 9, 255⟩) (-1) 7 (by decide) (by decide)).2.1 rfl rfl
        (by decide)).1.trans (by decide),
   ((colorAt_wrap_modular
      { contentSizeX := 4, contentSizeY := 3,
        contentWrapMode :=
          { wrapXmin := true, wrapXmax := true, wrapYmin := true, wrapYmax := true } }
      (fun _ _ => ⟨9, 9, 9, 255⟩) (-1) 7 (by decide) (by decide)).2.2 rfl rfl
        (by decide)).1.trans (by decide)⟩

/-- Claim C12: for a view with overall alpha 255 and a query where no clip flag fires,
`colorAt` returns the background colour exactly when the content pixel has alpha 0, and
the content pixel exactly (whatever the background is) when its alpha is at least 1. The
content pixel is the value of the content hook at `wrappedCoord`. -/
theorem colorAt_background_or_content (v : View) (contentColorAt : Int → Int → PixelColor)
    (aX aY : Int) (ha : v.alpha = 255)
    (hc : v.clips (v.contentCoord aX aY).1 (v.contentCoord aX aY).2 = false) :
    ((contentColorAt (v.wrappedCoord aX aY).1 (v.wrappedCoord aX aY).2).a = 0 →
      v.colorAt contentColorAt aX aY = v.backgroundColor) ∧
    (1 ≤ (contentColorAt (v.wrappedCoord aX aY).1 (v.wrappedCoord aX aY).2).a →
      v.colorAt contentColorAt aX aY =
        contentColorAt (v.wrappedCoord aX aY).1 (v.wrappedCoord aX aY).2) := by
  have hne : v.alpha ≠ 0 := by omega
  rw [View.colorAt, colorAtTraced_inside v contentColorAt aX aY hne hc]
  simp only [View.wrappedCoord]
  constructor
  · intro h0
    simp [h0, ha]
  · intro h1
    have hn : ¬ (contentColorAt
        (wrapAxis v.contentWrapMode.wrapXmin v.contentWrapMode.wrapXmax v.contentSizeX
          (v.contentCoord aX aY).1)
        (wrapAxis v.contentWrapMode.wrapYmin v.contentWrapMode.wrapYmax v.contentSizeY
          (v.contentCoord aX aY).2)).a = 0 := by omega
    simp [hn, ha]

/-- Witness for `colorAt_background_or_content`: a semi-transparent content pixel over a
red background is returned as it is. -/
theorem colorAt_background_or_content_witness :
    View.colorAt { contentSizeX := 4, contentSizeY := 4, backgroundColor := ⟨255, 0, 0, 255⟩ }
      (fun _ _ => ⟨1, 2, 3, 40⟩) 1 1 = ⟨1, 2, 3, 40⟩ :=
  (colorAt_background_or_content
    { contentSizeX := 4, contentSizeY := 4, backgroundColor := ⟨255, 0, 0, 255⟩ }
    (fun _ _ => ⟨1, 2, 3, 40⟩) 1 1 rfl (by decide)).2 (by decide)

/-- Claim C13: for a view with overall alpha `A` and a query where no clip flag fires,
let `P` be the content pixel, or the background when the content pixel has alpha 0
(`contentOrBackground`). If `0 < A < 255`, `colorAt` returns `P` with r, g, b unchanged
and alpha `dimVal P.a A`; if `A = 255` it returns `P` unchanged. -/
theorem colorAt_layer_alpha (v : View) (contentColorAt : Int → Int → PixelColor)
    (aX aY : Int)
    (hc : v.clips (v.contentCoord aX aY).1 (v.contentCoord aX aY).2 = false) :
    (0 < v.alpha → v.alpha < 255 →
      v.colorAt contentColorAt aX aY =
        { v.contentOrBackground contentColorAt aX aY with
          a := dimVal (v.contentOrBackground contentColorAt aX aY).a v.alpha }) ∧
    (v.alpha = 255 →
      v.colorAt contentColorAt aX aY = v.contentOrBackground contentColorAt aX aY) := by
  constructor
  · intro h0 h255
    have hne : v.alpha ≠ 0 := by omega
    have hne2 : v.alpha ≠ 255 := by omega
    rw [View.colorAt, colorAtTraced_inside v contentColorAt aX aY hne hc]
    simp [hne2, View.contentOrBackground, View.wrappedCoord]
  · intro h255
    have hne : v.alpha ≠ 0 := by omega
    rw [View.colorAt, colorAtTraced_inside v contentColorAt aX aY hne hc]
    simp [h255, View.contentOrBackground, View.wrappedCoord]

/-- Witness for `colorAt_layer_alpha`: a view of overall alpha 127 halves the alpha of an
opaque content pixel. -/
theorem colorAt_layer_alpha_witness :
    View.colorAt { contentSizeX := 4, contentSizeY := 4, alpha := 127 }
      (fun _ _ => ⟨1, 2, 3, 255⟩) 1 1 =
      { View.contentOrBackground { contentSizeX := 4, contentSizeY := 4, alpha := 127 }
          (fun _ _ => ⟨1, 2, 3, 255⟩) 1 1 with
        a := dimVal (View.contentOrBackground { contentSizeX := 4, contentSizeY := 4, alpha := 127 }
          (fun _ _ => ⟨1, 2, 3, 255⟩) 1 1).a 127 } :=
  (colorAt_layer_alpha { contentSizeX := 4, contentSizeY := 4, alpha := 127 }
    (fun _ _ => ⟨1, 2, 3, 255⟩) 1 1 (by decide)).1 (by decide) (by decide)

/-! ## Fading -/

theorem setAlpha_alpha (v : View) (a : Int) (h0 : 0 ≤ a) (h1 : a ≤ 255) :
    ((v.setAlpha a).alpha : Int) = a := by
  unfold View.setAlpha
  split
  · simp only [View.makeDirty]
    omega
  · rename_i h
    simp only [ne_eq, Decidable.not_not] at h
    exact h

theorem setAlpha_fade (v : View) (a : Int) :
    (v.setAlpha a).targetAlpha = v.targetAlpha ∧ (v.setAlpha a).fadeDist = v.fadeDist ∧
    (v.setAlpha a).startTime = v.startTime ∧ (v.setAlpha a).fadeTime = v.fadeTime ∧
    (v.setAlpha a).fadeCompleteCB = v.fadeCompleteCB := by
  unfold View.setAlpha
  split <;> simp [View.makeDirty]

/-- Claim C14: for every view state and every target alpha in 0..255, `fadeTo` with a
duration `<= 0` or with the target equal to the current alpha sets alpha to the target,
leaves the state machine idle (`targetAlpha = -1`) and invokes the callback exactly once;
in every other case alpha is unchanged, no callback is invoked and the state machine is
armed: `targetAlpha` is the target (not negative), with the start time, the duration, the
distance and the callback stored. -/
theorem fadeTo_spec (v : View) (now target duration : Int) (cb : CallbackId)
    (h0 : 0 ≤ target) (h1 : target ≤ 255) :
    ((duration ≤ 0 ∨ target = v.alpha) →
      ((v.fadeTo now target duration (some cb)).1.alpha : Int) = target ∧
      (v.fadeTo now target duration (some cb)).1.targetAlpha = -1 ∧
      (v.fadeTo now target duration (some cb)).2 = [cb]) ∧
    (¬ (duration ≤ 0 ∨ target = v.alpha) →
      (v.fadeTo now target duration (some cb)).1.alpha = v.alpha ∧
      (v.fadeTo now target duration (some cb)).2 = [] ∧
      (v.fadeTo now target duration (some cb)).1.targetAlpha = target ∧
      (v.fadeTo now target duration (some cb)).1.targetAlpha ≥ 0 ∧
      (v.fadeTo now target duration (some cb)).1.startTime = now ∧
      (v.fadeTo now target duration (some cb)).1.fadeTime = duration ∧
      (v.fadeTo now target duration (some cb)).1.fadeDist = target - v.alpha ∧
      (v.fadeTo now target duration (some cb)).1.fadeCompleteCB = some cb) := by
  constructor
  · intro h
    have hcond : duration ≤ 0 ∨ target - (v.alpha : Int) = 0 := by omega
    simp only [View.fadeTo, if_pos hcond, Option.toList]
    exact ⟨setAlpha_alpha _ target h0 h1, trivial, trivial⟩
  · intro h
    have hcond : ¬ (duration ≤ 0 ∨ target - (v.alpha : Int) = 0) := by omega
    simp only [View.fadeTo, if_neg hcond]
    exact ⟨trivial, trivial, trivial, h0, trivial, trivial, trivial, trivial⟩

/-- Witness for `fadeTo_spec`: fading the default view (alpha 255) to 0 within 100 ms
arms the state machine. -/
theorem fadeTo_spec_witness :
    (View.fadeTo {} 0 0 100000 (some 7)).1.alpha = 255 ∧
    (View.fadeTo {} 0 0 100000 (some 7)).2 = [] ∧
    (View.fadeTo {} 0 0 100000 (some 7)).1.targetAlpha = 0 :=
  ⟨((fadeTo_spec {} 0 0 100000 7 (by decide) (by decide)).2 (by decide)).1,
   ((fadeTo_spec {} 0 0 100000 7 (by decide) (by decide)).2 (by decide)).2.1,
   ((fadeTo_spec {} 0 0 100000 7 (by decide) (by decide)).2 (by decide)).2.2.1⟩

theorem step_idle (fadeValue : FadeValue) (v : View) (now : Int) (h : v.targetAlpha = -1) :
    View.step fadeValue v now = (v, []) := by
  simp [View.step, h]

theorem steps_idle (fadeValue : FadeValue) (v : View) (times : List Int)
    (h : v.targetAlpha = -1) : View.steps fadeValue v times = (v, []) := by
  induction times with
  | nil => rfl
  | cons t rest ih => simp [View.steps, step_idle fadeValue v t h, ih]

/-- A step before the end of the fade keeps the fade armed and invokes nothing. -/
theorem step_fading (fadeValue : FadeValue) (v : View) (now : Int)
    (ht : 0 ≤ v.targetAlpha) (hT : 0 < v.fadeTime) (he : now < v.startTime + v.fadeTime) :
    (View.step fadeValue v now).2 = [] ∧
    (View.step fadeValue v now).1.targetAlpha = v.targetAlpha ∧
    (View.step fadeValue v now).1.startTime = v.startTime ∧
    (View.step fadeValue v now).1.fadeTime = v.fadeTime ∧
    (View.step fadeValue v now).1.fadeCompleteCB = v.fadeCompleteCB := by
  have hb : timeDoneBelowOne (now - v.startTime) v.fadeTime = true := by
    simp only [timeDoneBelowOne, if_pos hT, decide_eq_true_eq]
    omega
  have hf := setAlpha_fade v (fadeValue v.targetAlpha v.fadeDist (now - v.startTime) v.fadeTime)
  simp only [View.step, ge_iff_le, if_pos ht, hb, if_true]
  exact ⟨trivial, hf.1, hf.2.2.1, hf.2.2.2.1, hf.2.2.2.2⟩

theorem steps_fading (fadeValue : FadeValue) (times : List Int) :
    ∀ v : View, 0 ≤ v.targetAlpha → 0 < v.fadeTime →
      (∀ e ∈ times, e < v.startTime + v.fadeTime) →
      (View.steps fadeValue v times).2 = [] ∧
      (View.steps fadeValue v times).1.targetAlpha = v.targetAlpha ∧
      (View.steps fadeValue v times).1.startTime = v.startTime ∧
      (View.steps fadeValue v times).1.fadeTime = v.fadeTime ∧
      (View.steps fadeValue v times).1.fadeCompleteCB = v.fadeCompleteCB := by
  induction times with
  | nil => intro v _ _ _; exact ⟨rfl, rfl, rfl, rfl, rfl⟩
  | cons t rest ih =>
    intro v ht hT he
    have h1 := step_fading fadeValue v t ht hT (he t (List.mem_cons_self t rest))
    have h2 := ih (View.step fadeValue v t).1 (by rw [h1.2.1]; exact ht)
      (by rw [h1.2.2.2.1]; exact hT)
      (by
        intro e hm
        rw [h1.2.2.1, h1.2.2.2.1]
        exact he e (List.mem_cons_of_mem t hm))
    simp only [View.steps, h1.1, List.nil_append]
    exact ⟨h2.1, h2.2.1.trans h1.2.1, h2.2.2.1.trans h1.2.2.1, h2.2.2.2.1.trans h1.2.2.2.1,
      h2.2.2.2.2.trans h1.2.2.2.2⟩

/-! ## Rounding error of the `double` opacity -/

theorem bitLenAux_spec (fuel : Nat) :
    ∀ n : Nat, n ≤ fuel → 0 < n →
      2 ^ (bitLenAux fuel n - 1) ≤ n ∧ n < 2 ^ bitLenAux fuel n ∧ 0 < bitLenAux fuel n := by
  induction fuel with
  | zero => intro n h1 h2; omega
  | succ f ih =>
    intro n h1 h2
    have hn : n ≠ 0 := by omega
    simp only [bitLenAux, if_neg hn, Nat.add_sub_cancel]
    by_cases h : n / 2 = 0
    · have h1' : n = 1 := by omega
      subst h1'
      cases f <;> simp [bitLenAux]
    · have hp : 0 < n / 2 := Nat.pos_of_ne_zero h
      obtain ⟨a, b, c⟩ := ih (n / 2) (by omega) hp
      refine ⟨?_, ?_, Nat.succ_pos _⟩
      · have e : bitLenAux f (n / 2) = (bitLenAux f (n / 2) - 1) + 1 := by omega
        rw [e, pow_succ]
        omega
      · rw [pow_succ]
        omega

theorem bitLen_spec (n : Nat) (h : 0 < n) :
    2 ^ (bitLen n - 1) ≤ n ∧ n < 2 ^ bitLen n ∧ 0 < bitLen n :=
  bitLenAux_spec n n (le_refl n) h

theorem bitLen_zero : bitLen 0 = 0 := rfl

theorem bitLen_le_of_lt (n k : Nat) (h : n < 2 ^ k) : bitLen n ≤ k := by
  rcases Nat.eq_zero_or_pos n with h0 | hp
  · subst h0
    simp [bitLen_zero]
  · obtain ⟨a, _, c⟩ := bitLen_spec n hp
    by_contra hc
    have : 2 ^ k ≤ 2 ^ (bitLen n - 1) := Nat.pow_le_pow_right (by decide) (by omega)
    omega

/-- Values below `2^53` are representable: rounding leaves them alone. -/
theorem roundNat53_exact (n : Nat) (h : n < 2 ^ 53) : roundNat53 n = (n, 0) := by
  simp [roundNat53, bitLen_le_of_lt n 53 h]

/-- Rounding moves a value by at most one unit of the last place, which is at most
`2^-52` of the value. -/
theorem roundNat53_err (n : Nat) :
    (roundNat53 n).1 * 2 ^ (roundNat53 n).2 ≤ n + 2 ^ (roundNat53 n).2 ∧
    n ≤ (roundNat53 n).1 * 2 ^ (roundNat53 n).2 + 2 ^ (roundNat53 n).2 ∧
    ((roundNat53 n).2 = 0 → (roundNat53 n).1 = n) ∧
    (0 < (roundNat53 n).2 → 2 ^ (roundNat53 n).2 * 2 ^ 52 ≤ n) := by
  unfold roundNat53
  by_cases h : bitLen n ≤ 53
  · simp [h]
  · have hp : 0 < n := by
      rcases Nat.eq_zero_or_pos n with h0 | hp
      · subst h0
        simp [bitLen_zero] at h
      · exact hp
    obtain ⟨a, _, _⟩ := bitLen_spec n hp
    have hs : 0 < bitLen n - 53 := by omega
    have hpow : 2 ^ (bitLen n - 53) * 2 ^ 52 = 2 ^ (bitLen n - 1) := by
      rw [← pow_add]
      congr 1
      omega
    have hd := Nat.div_add_mod n (2 ^ (bitLen n - 53))
    have hm := Nat.mod_lt n (Nat.two_pow_pos (bitLen n - 53))
    have hmul : n / 2 ^ (bitLen n - 53) * 2 ^ (bitLen n - 53) =
        2 ^ (bitLen n - 53) * (n / 2 ^ (bitLen n - 53)) := Nat.mul_comm _ _
    simp only [if_neg h]
    split
    · simp only
      refine ⟨?_, ?_, ?_, ?_⟩
      · rw [Nat.add_mul, hmul]
        omega
      · rw [Nat.add_mul, hmul]
        omega
      · intro h0
        omega
      · intro _
        rw [hpow]
        exact a
    · simp only
      refine ⟨?_, ?_, ?_, ?_⟩
      · rw [hmul]
        omega
      · rw [hmul]
        omega
      · intro h0
        omega
      · intro _
        rw [hpow]
        exact a


theorem roundNat53_abs (n : Nat) :
    |((roundNat53 n).1 : ℚ) * 2 ^ (roundNat53 n).2 - n| * 2 ^ 52 ≤ n := by
  obtain ⟨a, b, c, d⟩ := roundNat53_err n
  by_cases hs : (roundNat53 n).2 = 0
  · rw [hs, c hs]
    simp
  · have d2 := d (Nat.pos_of_ne_zero hs)
    have a1 : ((roundNat53 n).1 : ℚ) * 2 ^ (roundNat53 n).2 ≤ n + 2 ^ (roundNat53 n).2 := by
      exact_mod_cast a
    have b1 : (n : ℚ) ≤ ((roundNat53 n).1 : ℚ) * 2 ^ (roundNat53 n).2 + 2 ^ (roundNat53 n).2 := by
      exact_mod_cast b
    have d1 : (2 : ℚ) ^ (roundNat53 n).2 * 2 ^ 52 ≤ n := by exact_mod_cast d2
    have habs : |((roundNat53 n).1 : ℚ) * 2 ^ (roundNat53 n).2 - n| ≤ 2 ^ (roundNat53 n).2 := by
      rw [abs_le]
      constructor <;> linarith
    calc |((roundNat53 n).1 : ℚ) * 2 ^ (roundNat53 n).2 - n| * 2 ^ 52
        ≤ 2 ^ (roundNat53 n).2 * 2 ^ 52 := by
          apply mul_le_mul_of_nonneg_right habs
          positivity
      _ ≤ (n : ℚ) := d1

/-- Rounding to `double` has a relative error of at most `2^-52`. -/
theorem val_round (m e : Int) :
    |Dbl.val (Dbl.round m e) - (m : ℚ) * 2 ^ e| * 2 ^ 52 ≤ |(m : ℚ) * 2 ^ e| := by
  have hpos : (0 : ℚ) < 2 ^ e := by positivity
  have key := roundNat53_abs m.natAbs
  have hval : Dbl.val (Dbl.round m e) =
      ((if m < 0 then -1 else 1 : ℚ) * (((roundNat53 m.natAbs).1 : ℚ) *
        2 ^ (roundNat53 m.natAbs).2)) * 2 ^ e := by
    simp only [Dbl.val, Dbl.round]
    rw [zpow_add₀ (by norm_num : (2 : ℚ) ≠ 0), zpow_natCast]
    push_cast
    split <;> ring
  rw [hval]
  by_cases hm : m < 0
  · have e1 : (m : ℚ) = -((m.natAbs : ℕ) : ℚ) := by
      have h1 : ((m.natAbs : ℕ) : ℤ) = -m := by omega
      rw [← Int.cast_natCast, h1]
      simp
    simp only [if_pos hm]
    have e2 : (-1 * (((roundNat53 m.natAbs).1 : ℚ) * 2 ^ (roundNat53 m.natAbs).2)) * 2 ^ e
        - (m : ℚ) * 2 ^ e =
        -((((roundNat53 m.natAbs).1 : ℚ) * 2 ^ (roundNat53 m.natAbs).2 - m.natAbs) * 2 ^ e) := by
      rw [e1]
      ring
    rw [e2, abs_neg, abs_mul, abs_mul, abs_of_pos hpos, e1, abs_neg, Nat.abs_cast]
    calc |((roundNat53 m.natAbs).1 : ℚ) * 2 ^ (roundNat53 m.natAbs).2 - m.natAbs| * 2 ^ e * 2 ^ 52
        = (|((roundNat53 m.natAbs).1 : ℚ) * 2 ^ (roundNat53 m.natAbs).2 - m.natAbs| * 2 ^ 52)
            * 2 ^ e := by ring
      _ ≤ (m.natAbs : ℚ) * 2 ^ e := mul_le_mul_of_nonneg_right key hpos.le
  · have e1 : (m : ℚ) = ((m.natAbs : ℕ) : ℚ) := by
      have h1 : ((m.natAbs : ℕ) : ℤ) = m := by omega
      rw [← Int.cast_natCast, h1]
    simp only [if_neg hm]
    have e2 : (1 * (((roundNat53 m.natAbs).1 : ℚ) * 2 ^ (roundNat53 m.natAbs).2)) * 2 ^ e
        - (m : ℚ) * 2 ^ e =
        ((((roundNat53 m.natAbs).1 : ℚ) * 2 ^ (roundNat53 m.natAbs).2 - m.natAbs) * 2 ^ e) := by
      rw [e1]
      ring
    rw [e2, abs_mul, abs_mul, abs_of_pos hpos, e1, Nat.abs_cast]
    calc |((roundNat53 m.natAbs).1 : ℚ) * 2 ^ (roundNat53 m.natAbs).2 - m.natAbs| * 2 ^ e * 2 ^ 52
        = (|((roundNat53 m.natAbs).1 : ℚ) * 2 ^ (roundNat53 m.natAbs).2 - m.natAbs| * 2 ^ 52)
            * 2 ^ e := by ring
      _ ≤ (m.natAbs : ℚ) * 2 ^ e := mul_le_mul_of_nonneg_right key hpos.le

/-- Integers below `2^53` in magnitude convert exactly. -/
theorem ofInt_exact (n : Int) (h : n.natAbs < 2 ^ 53) : Dbl.ofInt n = { m := n, e := 0 } := by
  simp only [Dbl.ofInt, Dbl.round, roundNat53_exact n.natAbs h]
  congr 1
  · split <;> omega


theorem val_sub (a b : Dbl) :
    |Dbl.val (Dbl.sub a b) - (Dbl.val a - Dbl.val b)| * 2 ^ 52 ≤ |Dbl.val a - Dbl.val b| := by
  have h2 : (2 : ℚ) ≠ 0 := by norm_num
  have key := val_round (a.m * 2 ^ (a.e - min a.e b.e).toNat - b.m * 2 ^ (b.e - min a.e b.e).toNat)
    (min a.e b.e)
  have ea : (2 : ℚ) ^ (a.e - min a.e b.e).toNat * 2 ^ (min a.e b.e) = 2 ^ a.e := by
    rw [← zpow_natCast, ← zpow_add₀ h2]
    congr 1
    omega
  have eb : (2 : ℚ) ^ (b.e - min a.e b.e).toNat * 2 ^ (min a.e b.e) = 2 ^ b.e := by
    rw [← zpow_natCast, ← zpow_add₀ h2]
    congr 1
    omega
  have ev : ((a.m * 2 ^ (a.e - min a.e b.e).toNat - b.m * 2 ^ (b.e - min a.e b.e).toNat : ℤ) : ℚ)
      * 2 ^ (min a.e b.e) = Dbl.val a - Dbl.val b := by
    push_cast
    rw [sub_mul, mul_assoc, mul_assoc, ea, eb]
    rfl
  rw [ev] at key
  exact key

theorem val_mul (a b : Dbl) :
    |Dbl.val (Dbl.mul a b) - Dbl.val a * Dbl.val b| * 2 ^ 52 ≤ |Dbl.val a * Dbl.val b| := by
  have h2 : (2 : ℚ) ≠ 0 := by norm_num
  have key := val_round (a.m * b.m) (a.e + b.e)
  have ev : ((a.m * b.m : ℤ) : ℚ) * 2 ^ (a.e + b.e) = Dbl.val a * Dbl.val b := by
    push_cast
    rw [zpow_add₀ h2]
    simp only [Dbl.val]
    ring
  rw [ev] at key
  exact key


/-- The quotient of two exactly represented integers has a relative error of at most `2^-51`. -/
theorem val_div (n d : Int) (hn : 0 ≤ n) (hd : 0 < d) :
    |Dbl.val (Dbl.div { m := n, e := 0 } { m := d, e := 0 }) - (n : ℚ) / d| * 2 ^ 51
      ≤ (n : ℚ) / d := by
  obtain ⟨N, rfl⟩ := Int.eq_ofNat_of_zero_le hn
  obtain ⟨M, rfl⟩ := Int.eq_ofNat_of_zero_le hd.le
  by_cases h0 : N = 0
  · subst h0
    simp [Dbl.div, Dbl.val]
  · have hMpos : 0 < M := by omega
    have hNpos : 1 ≤ N := by omega
    have hsign : (((N : ℤ) < 0) = ((M : ℤ) < 0)) := by
      simp only [eq_iff_iff]
      constructor <;> intro h <;> omega
    have hor : ¬ ((N : ℤ) = 0 ∨ (M : ℤ) = 0) := by omega
    simp only [Dbl.div, if_neg hor, if_pos hsign, one_mul, Int.natAbs_ofNat, Int.cast_natCast]
    generalize hst : (if N * 2 ^ (bitLen M + 55) % M = 0 then 0 else 1 : ℕ) = st
    have hst1 : st ≤ 1 := by
      rw [← hst]
      split <;> omega
    have hMlt : M * 2 ^ 55 < 2 ^ (bitLen M + 55) := by
      rw [pow_add]
      exact Nat.mul_lt_mul_of_pos_right (bitLen_spec M hMpos).2.1 (by norm_num)
    have hdm := Nat.div_add_mod (N * 2 ^ (bitLen M + 55)) M
    have hml := Nat.mod_lt (N * 2 ^ (bitLen M + 55)) hMpos
    clear hst
    generalize N * 2 ^ (bitLen M + 55) / M = q at *
    generalize N * 2 ^ (bitLen M + 55) % M = r at *
    generalize bitLen M + 55 = k at *
    have key := val_round ((2 * q + st : ℕ) : ℤ) (0 - 0 - (k : ℤ) - 1)
    generalize Dbl.val (Dbl.round ((2 * q + st : ℕ) : ℤ) (0 - 0 - (k : ℤ) - 1)) = vR at *
    have hMq : (0 : ℚ) < M := by exact_mod_cast hMpos
    have hNq : (1 : ℚ) ≤ N := by exact_mod_cast hNpos
    have hP : (0 : ℚ) < 2 ^ (0 - 0 - (k : ℤ) - 1) := by positivity
    have hPk : (2 : ℚ) ^ (0 - 0 - (k : ℤ) - 1) * (2 * 2 ^ k) = 1 := by
      have e1 : (2 : ℚ) * 2 ^ k = 2 ^ ((k : ℤ) + 1) := by
        rw [zpow_add₀ (by norm_num : (2 : ℚ) ≠ 0), zpow_natCast]
        ring
      rw [e1, ← zpow_add₀ (by norm_num : (2 : ℚ) ≠ 0)]
      have : (0 - 0 - (k : ℤ) - 1) + ((k : ℤ) + 1) = 0 := by ring
      rw [this, zpow_zero]
    generalize (2 : ℚ) ^ (0 - 0 - (k : ℤ) - 1) = P at *
    have hdmq : (M : ℚ) * q + r = N * 2 ^ k := by exact_mod_cast hdm
    have hrq : (r : ℚ) < M := by exact_mod_cast hml
    have hr0 : (0 : ℚ) ≤ r := Nat.cast_nonneg r
    have hq0 : (0 : ℚ) ≤ q := Nat.cast_nonneg q
    have hstq : (st : ℚ) ≤ 1 := by exact_mod_cast hst1
    have hst0 : (0 : ℚ) ≤ st := Nat.cast_nonneg st
    have hMltq : (M : ℚ) * 2 ^ 55 < 2 ^ k := by exact_mod_cast hMlt
    -- the exact quotient, scaled like the integer quotient
    have hX : ∃ X : ℚ, X * M = 2 * (N * 2 ^ k) ∧ (N : ℚ) / M = X * P := by
      refine ⟨2 * (N * 2 ^ k) / M, div_mul_cancel₀ _ hMq.ne', ?_⟩
      calc (N : ℚ) / M = N * (P * (2 * 2 ^ k)) / M := by rw [hPk, mul_one]
        _ = 2 * (N * 2 ^ k) / M * P := by ring
    obtain ⟨X, hXM, hXP⟩ := hX
    rw [hXP]
    have hXlo : 2 * (q : ℚ) ≤ X := by
      apply le_of_mul_le_mul_right _ hMq
      rw [hXM]
      nlinarith
    have hXhi : X ≤ 2 * (q : ℚ) + 2 := by
      apply le_of_mul_le_mul_right _ hMq
      rw [hXM]
      nlinarith
    have hXbig : (2 : ℚ) ^ 56 ≤ X := by
      apply le_of_mul_le_mul_right _ hMq
      rw [hXM]
      have : (2 : ℚ) ^ k ≤ N * 2 ^ k := by
        have hk0 : (0 : ℚ) < 2 ^ k := by positivity
        nlinarith
      nlinarith
    have hcast : (((2 * q + st : ℕ) : ℤ) : ℚ) = 2 * q + st := by push_cast; ring
    rw [hcast] at key
    have hQ0 : (0 : ℚ) ≤ (2 * q + st) * P := by positivity
    rw [abs_of_nonneg hQ0] at key
    have htri : |vR - X * P| ≤ |vR - (2 * q + st) * P| + |(2 * q + st) * P - X * P| := by
      have := abs_add (vR - (2 * q + st) * P) ((2 * q + st) * P - X * P)
      simpa using this
    have hd2 : |(2 * (q : ℚ) + st) * P - X * P| ≤ 2 * P := by
      rw [← sub_mul, abs_mul, abs_of_pos hP]
      apply mul_le_mul_of_nonneg_right _ hP.le
      rw [abs_le]
      constructor <;> linarith
    have hXPbig : (2 : ℚ) ^ 56 * P ≤ X * P := mul_le_mul_of_nonneg_right hXbig hP.le
    have hQX : (2 * (q : ℚ) + st) * P ≤ (X + 1) * P := by
      apply mul_le_mul_of_nonneg_right _ hP.le
      linarith
    have hfin : (|vR - (2 * q + st) * P| + |(2 * q + st) * P - X * P|) * 2 ^ 51 ≤ X * P := by
      have hQX2 : (2 * (q : ℚ) + st) * P ≤ X * P + P := by
        have : (X + 1) * P = X * P + P := by ring
        rw [← this]
        exact hQX
      generalize |vR - (2 * (q : ℚ) + st) * P| = d1 at *
      generalize |(2 * (q : ℚ) + st) * P - X * P| = d2 at *
      generalize (2 * (q : ℚ) + st) * P = QP at *
      generalize X * P = XP at *
      norm_num at key hXPbig ⊢
      linarith
    calc |vR - X * P| * 2 ^ 51
        ≤ (|vR - (2 * q + st) * P| + |(2 * q + st) * P - X * P|) * 2 ^ 51 :=
          mul_le_mul_of_nonneg_right htri (by positivity)
      _ ≤ X * P := hfin


/-- The conversion to an integer truncates toward zero. -/
theorem toInt_trunc (d : Dbl) :
    (0 ≤ Dbl.val d → ((Dbl.toInt d : ℤ) : ℚ) ≤ Dbl.val d ∧ Dbl.val d < (Dbl.toInt d : ℤ) + 1) ∧
    (Dbl.val d < 0 → Dbl.val d ≤ ((Dbl.toInt d : ℤ) : ℚ) ∧ ((Dbl.toInt d : ℤ) : ℚ) ≤ 0) := by
  by_cases he : 0 ≤ d.e
  · have hv : Dbl.val d = ((Dbl.toInt d : ℤ) : ℚ) := by
      simp only [Dbl.val, Dbl.toInt, if_pos he]
      push_cast
      rw [← zpow_natCast]
      congr 2
      omega
    rw [hv]
    constructor
    · intro _
      exact ⟨le_refl _, by linarith⟩
    · intro h
      exact ⟨le_refl _, h.le⟩
  · have hp : (0 : ℤ) < 2 ^ (-d.e).toNat := by positivity
    have hpq : (0 : ℚ) < 2 ^ (-d.e).toNat := by positivity
    have hv : Dbl.val d * 2 ^ (-d.e).toNat = d.m := by
      simp only [Dbl.val]
      rw [mul_assoc, ← zpow_natCast, ← zpow_add₀ (by norm_num : (2 : ℚ) ≠ 0)]
      have : d.e + (((-d.e).toNat : ℕ) : ℤ) = 0 := by omega
      rw [this, zpow_zero, mul_one]
    simp only [Dbl.toInt, if_neg he]
    generalize (-d.e).toNat = k at *
    generalize Dbl.val d = y at *
    constructor
    · intro h0
      have hm : 0 ≤ d.m := by
        have : (0 : ℚ) ≤ d.m := by
          rw [← hv]
          positivity
        exact_mod_cast this
      rw [Int.tdiv_eq_ediv hm hp.le]
      have h1 := Int.ediv_mul_le d.m hp.ne'
      have h2 := Int.lt_ediv_add_one_mul_self d.m hp
      have h1q : ((d.m / 2 ^ k : ℤ) : ℚ) * 2 ^ k ≤ d.m := by exact_mod_cast h1
      have h2q : (d.m : ℚ) < (((d.m / 2 ^ k : ℤ) : ℚ) + 1) * 2 ^ k := by exact_mod_cast h2
      rw [← hv] at h1q h2q
      exact ⟨le_of_mul_le_mul_right h1q hpq, lt_of_mul_lt_mul_right h2q hpq.le⟩
    · intro h0
      have hm : d.m < 0 := by
        have : (d.m : ℚ) < 0 := by
          rw [← hv]
          exact mul_neg_of_neg_of_pos h0 hpq
        exact_mod_cast this
      have e1 : Int.tdiv d.m (2 ^ k) = -((-d.m) / 2 ^ k) := by
        have := Int.neg_tdiv (-d.m) (2 ^ k)
        rw [neg_neg] at this
        rw [this, Int.tdiv_eq_ediv (by omega) hp.le]
      rw [e1]
      have h1 := Int.ediv_mul_le (-d.m) hp.ne'
      have h3 : 0 ≤ (-d.m) / 2 ^ k := Int.ediv_nonneg (by omega) hp.le
      have h1q : (((-d.m) / 2 ^ k : ℤ) : ℚ) * 2 ^ k ≤ -(d.m : ℚ) := by exact_mod_cast h1
      have h3q : (0 : ℚ) ≤ (((-d.m) / 2 ^ k : ℤ) : ℚ) := by exact_mod_cast h3
      rw [← hv] at h1q
      constructor
      · push_cast
        have : (((-d.m) / 2 ^ k : ℤ) : ℚ) * 2 ^ k ≤ (-y) * 2 ^ k := by linarith
        have := le_of_mul_le_mul_right this hpq
        push_cast at this
        linarith
      · push_cast
        push_cast at h3q
        linarith


theorem val_exact (n : Int) : Dbl.val { m := n, e := 0 } = n := by
  simp [Dbl.val]

theorem abs_le_of_rel (v z B : ℚ) (k : Nat) (h : |v - z| * 2 ^ 52 ≤ |z|) (hB : |z| ≤ B)
    (hk : B ≤ 2 ^ k) : |v - z| * 2 ^ 52 ≤ 2 ^ k := by
  linarith

/-- The `double` evaluation of the opacity formula stays within `2^-40` of the exact value. -/
theorem fade_val_err (a0 target e T : Int) (ha0 : 0 ≤ a0) (ha1 : a0 ≤ 255)
    (ht0 : 0 ≤ target) (ht1 : target ≤ 255) (he : 0 ≤ e) (heT : e < T) (hT : T < 2 ^ 53) :
    |Dbl.val (Dbl.sub (Dbl.ofInt target)
        (Dbl.mul (Dbl.sub (Dbl.ofInt 1) (Dbl.div (Dbl.ofInt e) (Dbl.ofInt T)))
          (Dbl.ofInt (target - a0))))
      - ((target : ℚ) - (1 - (e : ℚ) / T) * ((target : ℚ) - a0))| * 2 ^ 40 ≤ 1 := by
  rw [ofInt_exact target (by omega), ofInt_exact 1 (by decide), ofInt_exact e (by omega),
    ofInt_exact T (by omega), ofInt_exact (target - a0) (by omega)]
  have hTq : (0 : ℚ) < T := by exact_mod_cast (by omega : (0 : ℤ) < T)
  have hr0 : (0 : ℚ) ≤ (e : ℚ) / T := div_nonneg (by exact_mod_cast he) hTq.le
  have hr1 : (e : ℚ) / T < 1 := by
    rw [div_lt_one hTq]
    exact_mod_cast heT
  have hD : |(target : ℚ) - a0| ≤ 255 := by
    have h1 : (0 : ℚ) ≤ a0 := by exact_mod_cast ha0
    have h2 : (a0 : ℚ) ≤ 255 := by exact_mod_cast ha1
    have h3 : (0 : ℚ) ≤ target := by exact_mod_cast ht0
    have h4 : (target : ℚ) ≤ 255 := by exact_mod_cast ht1
    rw [abs_le]
    constructor <;> linarith
  have htg : |(target : ℚ)| ≤ 255 := by
    have h3 : (0 : ℚ) ≤ target := by exact_mod_cast ht0
    have h4 : (target : ℚ) ≤ 255 := by exact_mod_cast ht1
    rw [abs_le]
    constructor <;> linarith
  have h1 := val_div e T he (by omega)
  have h2 := val_sub { m := 1, e := 0 } (Dbl.div { m := e, e := 0 } { m := T, e := 0 })
  have h3 := val_mul (Dbl.sub { m := 1, e := 0 } (Dbl.div { m := e, e := 0 } { m := T, e := 0 }))
    { m := target - a0, e := 0 }
  have h4 := val_sub { m := target, e := 0 }
    (Dbl.mul (Dbl.sub { m := 1, e := 0 } (Dbl.div { m := e, e := 0 } { m := T, e := 0 }))
      { m := target - a0, e := 0 })
  rw [val_exact] at h2 h3 h4
  generalize Dbl.val (Dbl.sub { m := target, e := 0 }
    (Dbl.mul (Dbl.sub { m := 1, e := 0 } (Dbl.div { m := e, e := 0 } { m := T, e := 0 }))
      { m := target - a0, e := 0 })) = v4 at *
  generalize Dbl.val (Dbl.mul (Dbl.sub { m := 1, e := 0 }
    (Dbl.div { m := e, e := 0 } { m := T, e := 0 })) { m := target - a0, e := 0 }) = v3 at *
  generalize Dbl.val (Dbl.sub { m := 1, e := 0 }
    (Dbl.div { m := e, e := 0 } { m := T, e := 0 })) = v2 at *
  generalize Dbl.val (Dbl.div { m := e, e := 0 } { m := T, e := 0 }) = v1 at *
  push_cast at h2 h3 h4 ⊢
  generalize (e : ℚ) / T = r at *
  generalize (target : ℚ) - a0 = D at *
  generalize (target : ℚ) = tg at *
  -- first rounding: the quotient
  have b1 : |v1 - r| * 2 ^ 51 ≤ 1 := by linarith
  have a1 := abs_le.mp (show |v1 - r| ≤ 1 by
    have : |v1 - r| * 1 ≤ |v1 - r| * 2 ^ 51 :=
      mul_le_mul_of_nonneg_left (by norm_num) (abs_nonneg _)
    linarith)
  -- second rounding: one minus the quotient
  have c2 : |1 - v1| ≤ 2 ^ 1 := by
    rw [abs_le]
    constructor <;> norm_num <;> linarith [a1.1, a1.2]
  have b2 : |v2 - (1 - v1)| * 2 ^ 52 ≤ 2 ^ 1 := abs_le_of_rel _ _ _ 1 h2 c2 (le_refl _)
  have a2 := abs_le.mp (show |v2 - (1 - v1)| ≤ 1 by
    have : |v2 - (1 - v1)| * 2 ≤ |v2 - (1 - v1)| * 2 ^ 52 :=
      mul_le_mul_of_nonneg_left (by norm_num) (abs_nonneg _)
    norm_num at b2
    linarith)
  have c2b : |v2| ≤ 4 := by
    rw [abs_le]
    constructor <;> linarith [a1.1, a1.2, a2.1, a2.2]
  -- third rounding: the product
  have c3 : |v2 * D| ≤ 2 ^ 10 := by
    rw [abs_mul]
    calc |v2| * |D| ≤ 4 * 255 := mul_le_mul c2b hD (abs_nonneg _) (by norm_num)
      _ ≤ 2 ^ 10 := by norm_num
  have b3 : |v3 - v2 * D| * 2 ^ 52 ≤ 2 ^ 10 := abs_le_of_rel _ _ _ 10 h3 c3 (le_refl _)
  have a3 := abs_le.mp (show |v3 - v2 * D| ≤ 1 by
    have : |v3 - v2 * D| * 2 ^ 10 ≤ |v3 - v2 * D| * 2 ^ 52 :=
      mul_le_mul_of_nonneg_left (by norm_num) (abs_nonneg _)
    norm_num at b3 this
    linarith)
  -- fourth rounding: the difference
  have c4 : |tg - v3| ≤ 2 ^ 11 := by
    have c3a := abs_le.mp c3
    have tga := abs_le.mp htg
    rw [abs_le]
    constructor <;> norm_num <;> norm_num at c3a <;> linarith [a3.1, a3.2, c3a.1, c3a.2, tga.1, tga.2]
  have b4 : |v4 - (tg - v3)| * 2 ^ 52 ≤ 2 ^ 11 := abs_le_of_rel _ _ _ 11 h4 c4 (le_refl _)
  -- total error
  have hsplit : v4 - (tg - (1 - r) * D) =
      (v4 - (tg - v3)) + -(v3 - v2 * D) + -((v2 - (1 - v1)) * D) + (v1 - r) * D := by ring
  have t1 : |(v2 - (1 - v1)) * D| * 2 ^ 52 ≤ 2 * 255 := by
    rw [abs_mul]
    calc |v2 - (1 - v1)| * |D| * 2 ^ 52 = (|v2 - (1 - v1)| * 2 ^ 52) * |D| := by ring
      _ ≤ 2 ^ 1 * 255 := mul_le_mul b2 hD (abs_nonneg _) (by norm_num)
      _ = 2 * 255 := by norm_num
  have t2 : |(v1 - r) * D| * 2 ^ 51 ≤ 255 := by
    rw [abs_mul]
    calc |v1 - r| * |D| * 2 ^ 51 = (|v1 - r| * 2 ^ 51) * |D| := by ring
      _ ≤ 1 * 255 := mul_le_mul b1 hD (abs_nonneg _) (by norm_num)
      _ = 255 := by norm_num
  have tri : |v4 - (tg - (1 - r) * D)| ≤
      |v4 - (tg - v3)| + |v3 - v2 * D| + |(v2 - (1 - v1)) * D| + |(v1 - r) * D| := by
    rw [hsplit]
    refine (abs_add _ _).trans ?_
    refine add_le_add ((abs_add _ _).trans ?_) (le_refl _)
    refine add_le_add ((abs_add _ _).trans ?_) ?_
    · rw [abs_neg]
    · rw [abs_neg]
  generalize |v4 - (tg - (1 - r) * D)| = E at *
  generalize |v4 - (tg - v3)| = e4 at *
  generalize |v3 - v2 * D| = e3 at *
  generalize |(v2 - (1 - v1)) * D| = e2 at *
  generalize |(v1 - r) * D| = e1 at *
  norm_num at b4 b3 t1 t2 ⊢
  linarith


/-- The `double` opacity lies in `0..255` and is at most one away from the exact truncation. -/
theorem fadeValueDouble_near (a0 target e T : Int) (ha0 : 0 ≤ a0) (ha1 : a0 ≤ 255)
    (ht0 : 0 ≤ target) (ht1 : target ≤ 255) (he : 0 ≤ e) (heT : e < T) (hT : T < 2 ^ 53) :
    0 ≤ fadeValueDouble target (target - a0) e T ∧
    fadeValueDouble target (target - a0) e T ≤ 255 ∧
    fadeValueExact target (target - a0) e T ≤ fadeValueDouble target (target - a0) e T + 1 ∧
    fadeValueDouble target (target - a0) e T ≤ fadeValueExact target (target - a0) e T + 1 := by
  have herr := fade_val_err a0 target e T ha0 ha1 ht0 ht1 he heT hT
  have hTpos : (0 : ℤ) < T := by omega
  have hTq : (0 : ℚ) < T := by exact_mod_cast hTpos
  have hA : target * T - (T - e) * (target - a0) = e * target + (T - e) * a0 := by ring
  have hA0 : 0 ≤ target * T - (T - e) * (target - a0) := by
    rw [hA]
    exact add_nonneg (mul_nonneg he ht0) (mul_nonneg (by omega) ha0)
  have hA1 : target * T - (T - e) * (target - a0) ≤ 255 * T := by
    rw [hA]
    have h1 : e * target ≤ e * 255 := mul_le_mul_of_nonneg_left ht1 he
    have h2 : (T - e) * a0 ≤ (T - e) * 255 := mul_le_mul_of_nonneg_left ha1 (by omega)
    linarith
  have hx : ((target : ℚ) - (1 - (e : ℚ) / T) * ((target : ℚ) - a0)) * T =
      ((target * T - (T - e) * (target - a0) : ℤ) : ℚ) := by
    push_cast
    field_simp
  have hG : fadeValueExact target (target - a0) e T =
      (target * T - (T - e) * (target - a0)) / T := by
    simp only [fadeValueExact]
    exact Int.tdiv_eq_ediv hA0 hTpos.le
  have g1 := Int.ediv_mul_le (target * T - (T - e) * (target - a0)) hTpos.ne'
  have g2 := Int.lt_ediv_add_one_mul_self (target * T - (T - e) * (target - a0)) hTpos
  rw [← hG] at g1 g2
  have g1q : ((fadeValueExact target (target - a0) e T : ℤ) : ℚ) * T ≤
      ((target * T - (T - e) * (target - a0) : ℤ) : ℚ) := by exact_mod_cast g1
  have g2q : ((target * T - (T - e) * (target - a0) : ℤ) : ℚ) <
      (((fadeValueExact target (target - a0) e T : ℤ) : ℚ) + 1) * T := by exact_mod_cast g2
  have hA0q : (0 : ℚ) * T ≤ ((target * T - (T - e) * (target - a0) : ℤ) : ℚ) := by
    rw [zero_mul]
    exact_mod_cast hA0
  have hA1q : ((target * T - (T - e) * (target - a0) : ℤ) : ℚ) ≤ 255 * T := by
    exact_mod_cast hA1
  rw [← hx] at g1q g2q hA0q hA1q
  have x0 := le_of_mul_le_mul_right hA0q hTq
  have x1 := le_of_mul_le_mul_right hA1q hTq
  have gx1 := le_of_mul_le_mul_right g1q hTq
  have gx2 := lt_of_mul_lt_mul_right g2q hTq.le
  have hF : fadeValueDouble target (target - a0) e T =
      Dbl.toInt (Dbl.sub (Dbl.ofInt target)
        (Dbl.mul (Dbl.sub (Dbl.ofInt 1) (Dbl.div (Dbl.ofInt e) (Dbl.ofInt T)))
          (Dbl.ofInt (target - a0)))) := rfl
  rw [hF]
  have tr := toInt_trunc (Dbl.sub (Dbl.ofInt target)
        (Dbl.mul (Dbl.sub (Dbl.ofInt 1) (Dbl.div (Dbl.ofInt e) (Dbl.ofInt T)))
          (Dbl.ofInt (target - a0))))
  generalize Dbl.toInt (Dbl.sub (Dbl.ofInt target)
        (Dbl.mul (Dbl.sub (Dbl.ofInt 1) (Dbl.div (Dbl.ofInt e) (Dbl.ofInt T)))
          (Dbl.ofInt (target - a0)))) = F at *
  generalize Dbl.val (Dbl.sub (Dbl.ofInt target)
        (Dbl.mul (Dbl.sub (Dbl.ofInt 1) (Dbl.div (Dbl.ofInt e) (Dbl.ofInt T)))
          (Dbl.ofInt (target - a0)))) = y at *
  generalize fadeValueExact target (target - a0) e T = G at *
  generalize (target : ℚ) - (1 - (e : ℚ) / T) * ((target : ℚ) - a0) = x at *
  have hyx : |y - x| < 1 := by
    have : |y - x| * 1 ≤ |y - x| * 2 ^ 40 :=
      mul_le_mul_of_nonneg_left (by norm_num) (abs_nonneg _)
    have h2 : |y - x| * 2 ^ 40 < 2 ^ 40 := by
      have : (1 : ℚ) < 2 ^ 40 := by norm_num
      linarith
    have h3 : (0 : ℚ) < 2 ^ 40 := by norm_num
    nlinarith
  have hyx2 := abs_lt.mp hyx
  by_cases hy : 0 ≤ y
  · obtain ⟨f1, f2⟩ := tr.1 hy
    have r1 : ((-1 : ℤ) : ℚ) < (F : ℚ) := by push_cast; linarith
    have r2 : (F : ℚ) < ((256 : ℤ) : ℚ) := by push_cast; linarith [hyx2.1, hyx2.2]
    have r3 : ((G : ℤ) : ℚ) < ((F + 2 : ℤ) : ℚ) := by push_cast; linarith [hyx2.1, hyx2.2]
    have r4 : ((F : ℤ) : ℚ) < ((G + 2 : ℤ) : ℚ) := by push_cast; linarith [hyx2.1, hyx2.2]
    have r1i : (-1 : ℤ) < F := by exact_mod_cast r1
    have r2i : F < 256 := by exact_mod_cast r2
    have r3i : G < F + 2 := by exact_mod_cast r3
    have r4i : F < G + 2 := by exact_mod_cast r4
    omega
  · obtain ⟨f1, f2⟩ := tr.2 (not_le.mp hy)
    have r1 : ((-1 : ℤ) : ℚ) < (F : ℚ) := by push_cast; linarith [hyx2.1, hyx2.2]
    have r2 : (F : ℚ) ≤ ((0 : ℤ) : ℚ) := by push_cast; linarith
    have r3 : ((G : ℤ) : ℚ) < ((1 : ℤ) : ℚ) := by push_cast; linarith [hyx2.1, hyx2.2, not_le.mp hy]
    have r4 : ((-1 : ℤ) : ℚ) < ((G : ℤ) : ℚ) := by push_cast; linarith
    have r1i : (-1 : ℤ) < F := by exact_mod_cast r1
    have r2i : F ≤ 0 := by exact_mod_cast r2
    have r3i : G < 1 := by exact_mod_cast r3
    have r4i : (-1 : ℤ) < G := by exact_mod_cast r4
    omega

/-- The test `timeDone<1` holds in `double` arithmetic for every elapsed time short of the
fade time: the rounded quotient of `e < T < 2^53` stays below 1. -/
theorem timeDone_lt_one (e T : Int) (he : 0 ≤ e) (heT : e < T) (hT : T < 2 ^ 53) :
    Dbl.val (Dbl.div (Dbl.ofInt e) (Dbl.ofInt T)) < 1 := by
  rw [ofInt_exact e (by omega), ofInt_exact T (by omega)]
  obtain ⟨N, rfl⟩ := Int.eq_ofNat_of_zero_le he
  obtain ⟨M, rfl⟩ := Int.eq_ofNat_of_zero_le (by omega : (0 : ℤ) ≤ T)
  by_cases h0 : N = 0
  · subst h0
    simp [Dbl.div, Dbl.val]
  · have hMpos : 0 < M := by omega
    have hNM : N + 1 ≤ M := by omega
    have hM53 : M < 2 ^ 53 := by exact_mod_cast hT
    have hsign : (((N : ℤ) < 0) = ((M : ℤ) < 0)) := by
      simp only [eq_iff_iff]
      constructor <;> intro h <;> omega
    have hor : ¬ ((N : ℤ) = 0 ∨ (M : ℤ) = 0) := by omega
    simp only [Dbl.div, if_neg hor, if_pos hsign, one_mul, Int.natAbs_ofNat]
    generalize hst : (if N * 2 ^ (bitLen M + 55) % M = 0 then 0 else 1 : ℕ) = st
    have hst1 : st ≤ 1 := by
      rw [← hst]
      split <;> omega
    have hbl : bitLen M ≤ 53 := bitLen_le_of_lt M 53 hM53
    have hMlt : M * 2 ^ 55 < 2 ^ (bitLen M + 55) := by
      rw [pow_add]
      exact Nat.mul_lt_mul_of_pos_right (bitLen_spec M hMpos).2.1 (by norm_num)
    have hqM := Nat.div_mul_le_self (N * 2 ^ (bitLen M + 55)) M
    clear hst
    generalize N * 2 ^ (bitLen M + 55) / M = q at *
    generalize hk : bitLen M + 55 = k at *
    -- the integer quotient stays `2^55` below `2^k`
    have hq : q + 2 ^ 55 < 2 ^ k := by
      by_contra hc
      have hc1 : 2 ^ k ≤ q + 2 ^ 55 := by omega
      have h1 : 2 ^ k * M ≤ (q + 2 ^ 55) * M := Nat.mul_le_mul_right M hc1
      have h2 : N * 2 ^ k + 2 ^ k ≤ M * 2 ^ k := by
        have := Nat.mul_le_mul_right (2 ^ k) hNM
        rw [Nat.add_mul, Nat.one_mul] at this
        exact this
      have h3 : (q + 2 ^ 55) * M = q * M + M * 2 ^ 55 := by ring
      have h4 : 2 ^ k * M = M * 2 ^ k := Nat.mul_comm _ _
      omega
    have key := roundNat53_err (2 * q + st)
    generalize hr : roundNat53 (2 * q + st) = r at *
    have hk1 : (2 : ℕ) ^ (k + 1) = 2 * 2 ^ k := by rw [pow_succ]; ring
    have hs56 : 2 ^ r.2 ≤ 2 ^ 56 ∨ r.2 = 0 := by
      rcases Nat.eq_zero_or_pos r.2 with h | h
      · exact Or.inr h
      · left
        have h5 := key.2.2.2 h
        have h6 : 2 ^ (r.2 + 52) < 2 ^ (k + 1) := by
          rw [pow_add, hk1]
          omega
        have h7 : r.2 + 52 < k + 1 := (Nat.pow_lt_pow_iff_right (by norm_num)).mp h6
        exact Nat.pow_le_pow_right (by norm_num) (by omega)
    have hfin : r.1 * 2 ^ r.2 < 2 * 2 ^ k := by
      rcases hs56 with h | h
      · have := key.1
        omega
      · have h8 := key.2.2.1 h
        rw [h, h8]
        omega
    -- back to the value
    have hval : Dbl.val (Dbl.round ((2 * q + st : ℕ) : ℤ) (0 - 0 - (k : ℤ) - 1)) =
        ((r.1 * 2 ^ r.2 : ℕ) : ℚ) * 2 ^ (0 - 0 - (k : ℤ) - 1) := by
      have hnn : ¬ (((2 * q + st : ℕ) : ℤ) < 0) := by omega
      simp only [Dbl.val, Dbl.round, if_neg hnn, one_mul, Int.natAbs_ofNat, hr]
      rw [zpow_add₀ (by norm_num : (2 : ℚ) ≠ 0), zpow_natCast]
      push_cast
      ring
    rw [hval]
    have hPk : (2 : ℚ) ^ (0 - 0 - (k : ℤ) - 1) * (2 * 2 ^ k) = 1 := by
      have e1 : (2 : ℚ) * 2 ^ k = 2 ^ ((k : ℤ) + 1) := by
        rw [zpow_add₀ (by norm_num : (2 : ℚ) ≠ 0), zpow_natCast]
        ring
      rw [e1, ← zpow_add₀ (by norm_num : (2 : ℚ) ≠ 0)]
      have : (0 - 0 - (k : ℤ) - 1) + ((k : ℤ) + 1) = 0 := by ring
      rw [this, zpow_zero]
    have hP : (0 : ℚ) < 2 ^ (0 - 0 - (k : ℤ) - 1) := by positivity
    have hfq : ((r.1 * 2 ^ r.2 : ℕ) : ℚ) < 2 * 2 ^ k := by exact_mod_cast hfin
    calc ((r.1 * 2 ^ r.2 : ℕ) : ℚ) * 2 ^ (0 - 0 - (k : ℤ) - 1)
        < (2 * 2 ^ k) * 2 ^ (0 - 0 - (k : ℤ) - 1) := mul_lt_mul_of_pos_right hfq hP
      _ = 1 := by rw [mul_comm]; exact hPk


/-- Rounding never goes below the truncated significand. -/
theorem roundNat53_floor (n : Nat) : n / 2 ^ (roundNat53 n).2 ≤ (roundNat53 n).1 := by
  unfold roundNat53
  by_cases h : bitLen n ≤ 53
  · simp [h]
  · simp only [if_neg h]
    split
    · simp only
      omega
    · simp only
      exact le_refl _

/-- The value of a rounded natural number. -/
theorem val_round_nat (n : Nat) (e : Int) :
    Dbl.val (Dbl.round (n : ℤ) e) =
      (((roundNat53 n).1 * 2 ^ (roundNat53 n).2 : ℕ) : ℚ) * 2 ^ e := by
  have hnn : ¬ ((n : ℤ) < 0) := by omega
  simp only [Dbl.val, Dbl.round, if_neg hnn, one_mul, Int.natAbs_ofNat]
  rw [zpow_add₀ (by norm_num : (2 : ℚ) ≠ 0), zpow_natCast]
  push_cast
  ring

/-- The test `timeDone<1` fails in `double` arithmetic once the fade time has elapsed: the
rounded quotient of `e >= T` is at least 1. -/
theorem timeDone_ge_one (e T : Int) (hT0 : 0 < T) (heT : T ≤ e) (he : e < 2 ^ 53) :
    1 ≤ Dbl.val (Dbl.div (Dbl.ofInt e) (Dbl.ofInt T)) := by
  rw [ofInt_exact e (by omega), ofInt_exact T (by omega)]
  obtain ⟨N, rfl⟩ := Int.eq_ofNat_of_zero_le (by omega : (0 : ℤ) ≤ e)
  obtain ⟨M, rfl⟩ := Int.eq_ofNat_of_zero_le hT0.le
  have hMpos : 0 < M := by omega
  have hNM : M ≤ N := by omega
  have hsign : (((N : ℤ) < 0) = ((M : ℤ) < 0)) := by
    simp only [eq_iff_iff]
    constructor <;> intro h <;> omega
  have hor : ¬ ((N : ℤ) = 0 ∨ (M : ℤ) = 0) := by omega
  simp only [Dbl.div, if_neg hor, if_pos hsign, one_mul, Int.natAbs_ofNat]
  generalize (if N * 2 ^ (bitLen M + 55) % M = 0 then 0 else 1 : ℕ) = st
  have hqM : 2 ^ (bitLen M + 55) ≤ N * 2 ^ (bitLen M + 55) / M := by
    rw [Nat.le_div_iff_mul_le hMpos, Nat.mul_comm]
    exact Nat.mul_le_mul_right _ hNM
  generalize N * 2 ^ (bitLen M + 55) / M = q at *
  generalize bitLen M + 55 = k at *
  rw [val_round_nat]
  have key := roundNat53_err (2 * q + st)
  have hfl := roundNat53_floor (2 * q + st)
  generalize roundNat53 (2 * q + st) = r at *
  have hk1 : (2 : ℕ) ^ (k + 1) = 2 * 2 ^ k := by rw [pow_succ]; ring
  have hn : 2 ^ (k + 1) ≤ 2 * q + st := by
    rw [hk1]
    omega
  have hfin : 2 * 2 ^ k ≤ r.1 * 2 ^ r.2 := by
    rw [← hk1]
    by_cases hs : r.2 ≤ k + 1
    · have e1 : 2 ^ (k + 1) = 2 ^ (k + 1 - r.2) * 2 ^ r.2 := by
        rw [← pow_add]
        congr 1
        omega
      have h2 : 2 ^ (k + 1 - r.2) ≤ (2 * q + st) / 2 ^ r.2 := by
        rw [Nat.le_div_iff_mul_le (Nat.two_pow_pos _), ← e1]
        exact hn
      rw [e1]
      exact Nat.mul_le_mul_right _ (h2.trans hfl)
    · have hpos : 0 < r.2 := by omega
      have h5 := key.2.2.2 hpos
      have h3 : 1 ≤ (2 * q + st) / 2 ^ r.2 := by
        rw [Nat.le_div_iff_mul_le (Nat.two_pow_pos _), Nat.one_mul]
        have : 2 ^ r.2 * 1 ≤ 2 ^ r.2 * 2 ^ 52 := Nat.mul_le_mul_left _ (by norm_num)
        omega
      have h4 : 2 ^ (k + 1) ≤ 2 ^ r.2 := Nat.pow_le_pow_right (by norm_num) (by omega)
      calc 2 ^ (k + 1) ≤ 1 * 2 ^ r.2 := by rw [Nat.one_mul]; exact h4
        _ ≤ r.1 * 2 ^ r.2 := Nat.mul_le_mul_right _ (h3.trans hfl)
  have hPk : (2 : ℚ) ^ (0 - 0 - (k : ℤ) - 1) * (2 * 2 ^ k) = 1 := by
    have e1 : (2 : ℚ) * 2 ^ k = 2 ^ ((k : ℤ) + 1) := by
      rw [zpow_add₀ (by norm_num : (2 : ℚ) ≠ 0), zpow_natCast]
      ring
    rw [e1, ← zpow_add₀ (by norm_num : (2 : ℚ) ≠ 0)]
    have : (0 - 0 - (k : ℤ) - 1) + ((k : ℤ) + 1) = 0 := by ring
    rw [this, zpow_zero]
  have hP : (0 : ℚ) < 2 ^ (0 - 0 - (k : ℤ) - 1) := by positivity
  have hfq : (2 : ℚ) * 2 ^ k ≤ ((r.1 * 2 ^ r.2 : ℕ) : ℚ) := by exact_mod_cast hfin
  calc (1 : ℚ) = (2 * 2 ^ k) * 2 ^ (0 - 0 - (k : ℤ) - 1) := by rw [mul_comm]; exact hPk.symm
    _ ≤ ((r.1 * 2 ^ r.2 : ℕ) : ℚ) * 2 ^ (0 - 0 - (k : ℤ) - 1) :=
        mul_le_mul_of_nonneg_right hfq hP.le


theorem val_round_nonpos (m e : Int) (h : m ≤ 0) : Dbl.val (Dbl.round m e) ≤ 0 := by
  have hp : (0 : ℚ) < 2 ^ (e + ((roundNat53 m.natAbs).2 : ℤ)) := by positivity
  simp only [Dbl.val, Dbl.round]
  apply mul_nonpos_of_nonpos_of_nonneg _ hp.le
  by_cases hm : m < 0
  · simp only [if_pos hm]
    push_cast
    have : (0 : ℚ) ≤ ((roundNat53 m.natAbs).1 : ℚ) := Nat.cast_nonneg _
    linarith
  · have h0 : m = 0 := by omega
    subst h0
    simp [roundNat53_exact 0 (by norm_num)]

/-- A negative elapsed time gives a quotient that is not positive. -/
theorem timeDone_neg (e T : Int) (hT0 : 0 < T) (he : e < 0) (he53 : e.natAbs < 2 ^ 53)
    (hT : T < 2 ^ 53) :
    Dbl.val (Dbl.div (Dbl.ofInt e) (Dbl.ofInt T)) ≤ 0 := by
  rw [ofInt_exact e he53, ofInt_exact T (by omega)]
  have hsign : ¬ ((e < 0) = (T < 0)) := by
    simp only [eq_iff_iff]
    intro h
    have := h.mp he
    omega
  have hor : ¬ (e = 0 ∨ T = 0) := by omega
  simp only [Dbl.div, if_neg hor, if_neg hsign]
  apply val_round_nonpos
  have : (0 : ℤ) ≤ ((2 * (e.natAbs * 2 ^ (bitLen T.natAbs + 55) / T.natAbs) +
      (if e.natAbs * 2 ^ (bitLen T.natAbs + 55) % T.natAbs = 0 then 0 else 1) : ℕ) : ℤ) :=
    Int.ofNat_nonneg _
  linarith

/-- The test `timeDone<1` of `View::step`, evaluated in `double` arithmetic, agrees with
`timeDoneBelowOne` for a positive fade time and times below `2^53` in magnitude. -/
theorem timeDoneBelowOne_double (e T : Int) (hT0 : 0 < T) (hT : T < 2 ^ 53)
    (he : e.natAbs < 2 ^ 53) :
    timeDoneBelowOne e T = decide (Dbl.val (Dbl.div (Dbl.ofInt e) (Dbl.ofInt T)) < 1) := by
  simp only [timeDoneBelowOne, if_pos hT0]
  by_cases h : e < T
  · have hv : Dbl.val (Dbl.div (Dbl.ofInt e) (Dbl.ofInt T)) < 1 := by
      by_cases hneg : e < 0
      · have := timeDone_neg e T hT0 hneg he hT
        linarith
      · exact timeDone_lt_one e T (by omega) h hT
    simp [h, hv]
  · have hv := timeDone_ge_one e T hT0 (by omega) (by omega)
    simp [h, not_lt.mpr hv]

/-- In the domain of a fade the exact opacity is not negative, so its truncation is the
floor of `target - (1 - e/T) * (target - a0)`. -/
theorem fadeValueExact_floor (a0 target e T : Int) (ha0 : 0 ≤ a0) (ht0 : 0 ≤ target)
    (he : 0 ≤ e) (heT : e < T) :
    fadeValueExact target (target - a0) e T =
      ⌊(target : ℚ) - (1 - (e : ℚ) / T) * ((target : ℚ) - a0)⌋ := by
  have hTpos : (0 : ℤ) < T := by omega
  have hTq : (0 : ℚ) < T := by exact_mod_cast hTpos
  have hA : target * T - (T - e) * (target - a0) = e * target + (T - e) * a0 := by ring
  have hA0 : 0 ≤ target * T - (T - e) * (target - a0) := by
    rw [hA]
    exact add_nonneg (mul_nonneg he ht0) (mul_nonneg (by omega) ha0)
  have hx : ((target : ℚ) - (1 - (e : ℚ) / T) * ((target : ℚ) - a0)) * T =
      ((target * T - (T - e) * (target - a0) : ℤ) : ℚ) := by
    push_cast
    field_simp
  have hG : fadeValueExact target (target - a0) e T =
      (target * T - (T - e) * (target - a0)) / T := by
    simp only [fadeValueExact]
    exact Int.tdiv_eq_ediv hA0 hTpos.le
  have g1 := Int.ediv_mul_le (target * T - (T - e) * (target - a0)) hTpos.ne'
  have g2 := Int.lt_ediv_add_one_mul_self (target * T - (T - e) * (target - a0)) hTpos
  rw [← hG] at g1 g2
  have g1q : ((fadeValueExact target (target - a0) e T : ℤ) : ℚ) * T ≤
      ((target * T - (T - e) * (target - a0) : ℤ) : ℚ) := by exact_mod_cast g1
  have g2q : ((target * T - (T - e) * (target - a0) : ℤ) : ℚ) <
      (((fadeValueExact target (target - a0) e T : ℤ) : ℚ) + 1) * T := by exact_mod_cast g2
  rw [← hx] at g1q g2q
  symm
  rw [Int.floor_eq_iff]
  exact ⟨le_of_mul_le_mul_right g1q hTq, lt_of_mul_lt_mul_right g2q hTq.le⟩

/-- A step before the end of the fade passes the interpolated value to `setAlpha`. -/
theorem step_fading_value (fadeValue : FadeValue) (v : View) (now : Int)
    (ht : 0 ≤ v.targetAlpha) (hT : 0 < v.fadeTime) (he : now < v.startTime + v.fadeTime) :
    View.step fadeValue v now =
      (v.setAlpha (fadeValue v.targetAlpha v.fadeDist (now - v.startTime) v.fadeTime), []) := by
  have hb : timeDoneBelowOne (now - v.startTime) v.fadeTime = true := by
    simp only [timeDoneBelowOne, if_pos hT, decide_eq_true_eq]
    omega
  simp only [View.step, ge_iff_le, if_pos ht, hb, if_true]

/-- Arming a fade: `fadeTo` with a positive duration and a target other than the current
alpha stores the fade and invokes nothing. -/
theorem fadeTo_armed (v : View) (now target duration : Int) (cb : Option CallbackId)
    (hT : 0 < duration) (hne : target ≠ v.alpha) :
    v.fadeTo now target duration cb =
      ({ v with fadeDist := target - v.alpha, startTime := now, fadeTime := duration,
                targetAlpha := target, fadeCompleteCB := cb }, []) := by
  have hcond : ¬ (duration ≤ 0 ∨ target - (v.alpha : Int) = 0) := by omega
  simp only [View.fadeTo, if_neg hcond]

/-- The step at `t0+e`, `e < T`, after a fade was armed at `t0`: the interpolated value
goes to `setAlpha`, nothing is invoked. -/
theorem step_armed (fadeValue : FadeValue) (v0 : View) (t0 target T e : Int)
    (cb : Option CallbackId) (h0 : 0 ≤ target) (hne : target ≠ v0.alpha) (hT : 0 < T)
    (he1 : e < T) :
    View.step fadeValue (v0.fadeTo t0 target T cb).1 (t0 + e) =
      (View.setAlpha
        { v0 with fadeDist := target - v0.alpha, startTime := t0, fadeTime := T,
                  targetAlpha := target, fadeCompleteCB := cb }
        (fadeValue target (target - v0.alpha) e T), []) := by
  rw [fadeTo_armed v0 t0 target T cb hT hne,
    step_fading_value _ _ _ h0 hT (by simp only; omega)]
  simp only [add_sub_cancel_left]

/-- Claim C15, as written, fails: a fade from alpha 0 to 15 over 3 microseconds, stepped
after 1 microsecond, has the exact value `15 - (1 - 1/3) * 15 = 5`, but the `double`
evaluation of the source gives `4.999...`, so the step sets alpha 4 (and invokes
nothing). -/
theorem fade_exact_cex :
    fadeValueExact 15 (15 - 0) 1 3 = 5 ∧
    fadeValueDouble 15 (15 - 0) 1 3 = 4 ∧
    (View.step fadeValueDouble (View.fadeTo { alpha := 0 } 0 15 3 (some 7)).1 (0 + 1)).1.alpha = 4 ∧
    (View.step fadeValueDouble (View.fadeTo { alpha := 0 } 0 15 3 (some 7)).1 (0 + 1)).2 = [] := by
  refine ⟨by decide, by decide, ?_, ?_⟩
  · rw [step_armed fadeValueDouble { alpha := 0 } 0 15 3 1 (some 7) (by decide) (by decide)
      (by decide) (by decide)]
    decide
  · rw [step_armed fadeValueDouble { alpha := 0 } 0 15 3 1 (some 7) (by decide) (by decide)
      (by decide) (by decide)]

/-- Claim C15 (amended): after `fadeTo(target, T, cb)` armed at time `t0` from alpha `a0`
(`0 < T < 2^53`, target in 0..255 and different from `a0`), a step at time `t0+e` with
`0 <= e < T` sets alpha to the integer truncation of `target - (1 - e/T)*(target - a0)`
evaluated in `double` arithmetic, every operation rounded to nearest; that value lies in
0..255 and differs by at most 1 from the truncation of the exactly evaluated expression.
The step does not invoke the callback (arming did not either) and leaves the fade armed
with the callback stored: the `double` quotient `timeDone` is below 1. For
`fadeTo(0, 100ms)` from alpha 255, the step at `e = 50ms` yields alpha 127. -/
theorem fade_step_double (v0 : View) (t0 target T e : Int) (cb : CallbackId)
    (ha : v0.alpha ≤ 255) (h0 : 0 ≤ target) (h1 : target ≤ 255) (hne : target ≠ v0.alpha)
    (hT : 0 < T) (hT53 : T < 2 ^ 53) (he0 : 0 ≤ e) (he1 : e < T) :
    ((View.step fadeValueDouble (v0.fadeTo t0 target T (some cb)).1 (t0 + e)).1.alpha : Int)
      = fadeValueDouble target (target - v0.alpha) e T ∧
    0 ≤ fadeValueDouble target (target - v0.alpha) e T ∧
    fadeValueDouble target (target - v0.alpha) e T ≤ 255 ∧
    fadeValueExact target (target - v0.alpha) e T - 1
      ≤ fadeValueDouble target (target - v0.alpha) e T ∧
    fadeValueDouble target (target - v0.alpha) e T
      ≤ fadeValueExact target (target - v0.alpha) e T + 1 ∧
    fadeValueExact target (target - v0.alpha) e T
      = ⌊(target : ℚ) - (1 - (e : ℚ) / T) * ((target : ℚ) - (v0.alpha : ℤ))⌋ ∧
    (v0.fadeTo t0 target T (some cb)).2 = [] ∧
    (View.step fadeValueDouble (v0.fadeTo t0 target T (some cb)).1 (t0 + e)).2 = [] ∧
    (View.step fadeValueDouble (v0.fadeTo t0 target T (some cb)).1 (t0 + e)).1.targetAlpha
      = target ∧
    (View.step fadeValueDouble (v0.fadeTo t0 target T (some cb)).1 (t0 + e)).1.fadeCompleteCB
      = some cb ∧
    Dbl.val (Dbl.div (Dbl.ofInt e) (Dbl.ofInt T)) < 1 ∧
    (View.step fadeValueDouble (View.fadeTo {} 0 0 100000 none).1 (0 + 50000)).1.alpha
      = 127 := by
  have hnear := fadeValueDouble_near (v0.alpha : ℤ) target e T (by omega) (by omega) h0 h1
    he0 he1 hT53
  have hfl := fadeValueExact_floor (v0.alpha : ℤ) target e T (by omega) h0 he0 he1
  have hex : (View.step fadeValueDouble (View.fadeTo {} 0 0 100000 none).1
      (0 + 50000)).1.alpha = 127 := by
    rw [step_armed fadeValueDouble {} 0 0 100000 50000 none (by decide) (by decide)
      (by decide) (by decide)]
    decide
  have harm : (v0.fadeTo t0 target T (some cb)).2 = [] := by
    rw [fadeTo_armed v0 t0 target T (some cb) hT hne]
  rw [step_armed fadeValueDouble v0 t0 target T e (some cb) h0 hne hT he1]
  have hf := setAlpha_fade
    ({ v0 with fadeDist := target - v0.alpha, startTime := t0, fadeTime := T,
               targetAlpha := target, fadeCompleteCB := some cb } : View)
    (fadeValueDouble target (target - v0.alpha) e T)
  exact ⟨setAlpha_alpha _ _ hnear.1 hnear.2.1, hnear.1, hnear.2.1, by omega, hnear.2.2.2, hfl,
    harm, rfl, hf.1, hf.2.2.2.2, timeDone_lt_one e T he0 he1 hT53, hex⟩

/-- Witness for `fade_step_double`: the default view (alpha 255) fading to 0 within
100 ms, stepped after 50 ms. -/
theorem fade_step_double_witness :
    ((View.step fadeValueDouble (View.fadeTo {} 0 0 100000 (some 7)).1 (0 + 50000)).1.alpha : Int)
      = 127 ∧
    (View.step fadeValueDouble (View.fadeTo {} 0 0 100000 (some 7)).1 (0 + 50000)).2 = [] :=
  ⟨((fade_step_double {} 0 0 100000 50000 7 (by decide) (by decide) (by decide) (by decide)
      (by decide) (by decide) (by decide) (by decide)).1).trans (by decide),
   (fade_step_double {} 0 0 100000 50000 7 (by decide) (by decide) (by decide) (by decide)
      (by decide) (by decide) (by decide) (by decide)).2.2.2.2.2.2.2.1⟩

/-! ## Completion of a fade -/

/-- The step that finds the fade time elapsed pins alpha to the target, goes idle, clears
the callback and invokes it. -/
theorem step_done (fadeValue : FadeValue) (v : View) (now : Int) (cb : CallbackId)
    (ht : 0 ≤ v.targetAlpha) (ht1 : v.targetAlpha ≤ 255) (hT : 0 < v.fadeTime)
    (he : v.startTime + v.fadeTime ≤ now) (hcb : v.fadeCompleteCB = some cb) :
    ((View.step fadeValue v now).1.alpha : Int) = v.targetAlpha ∧
    (View.step fadeValue v now).1.targetAlpha = -1 ∧
    (View.step fadeValue v now).1.fadeCompleteCB = none ∧
    (View.step fadeValue v now).2 = [cb] := by
  have hb : timeDoneBelowOne (now - v.startTime) v.fadeTime = false := by
    simp only [timeDoneBelowOne, if_pos hT, decide_eq_false_iff_not]
    omega
  have hf := setAlpha_fade v v.targetAlpha
  have ha := setAlpha_alpha v v.targetAlpha ht ht1
  simp only [View.step, ge_iff_le, if_pos ht, hb, hf.2.2.2.2, hcb, Bool.false_eq_true, if_false]
  exact ⟨ha, trivial, trivial, trivial⟩

/-- Claim C16: after `fadeTo target T cb` armed at `t0` (`T > 0`, target in 0..255 and
different from the current alpha), steps at times before `t0+T` invoke nothing, the first
step at a time `>= t0+T` sets alpha exactly to the target, returns the state machine to
idle with the callback cleared and invokes `cb` exactly once, and every later run of
steps leaves the view (alpha included) unchanged and invokes nothing. -/
theorem fade_completes (fadeValue : FadeValue) (v0 : View) (t0 target T t : Int)
    (cb : CallbackId) (earlier later : List Int)
    (h0 : 0 ≤ target) (h1 : target ≤ 255) (hT : 0 < T) (hne : target ≠ v0.alpha)
    (hearly : ∀ e ∈ earlier, e < t0 + T) (hlate : t0 + T ≤ t) :
    (View.steps fadeValue (v0.fadeTo t0 target T (some cb)).1 earlier).2 = [] ∧
    ((View.step fadeValue
        (View.steps fadeValue (v0.fadeTo t0 target T (some cb)).1 earlier).1 t).1.alpha : Int)
      = target ∧
    (View.step fadeValue
        (View.steps fadeValue (v0.fadeTo t0 target T (some cb)).1 earlier).1 t).1.targetAlpha
      = -1 ∧
    (View.step fadeValue
        (View.steps fadeValue (v0.fadeTo t0 target T (some cb)).1 earlier).1 t).1.fadeCompleteCB
      = none ∧
    (View.step fadeValue
        (View.steps fadeValue (v0.fadeTo t0 target T (some cb)).1 earlier).1 t).2 = [cb] ∧
    View.steps fadeValue
        (View.step fadeValue
          (View.steps fadeValue (v0.fadeTo t0 target T (some cb)).1 earlier).1 t).1 later
      = ((View.step fadeValue
          (View.steps fadeValue (v0.fadeTo t0 target T (some cb)).1 earlier).1 t).1, []) := by
  have hcond : ¬ (T ≤ 0 ∨ target - (v0.alpha : Int) = 0) := by omega
  have e1 : (v0.fadeTo t0 target T (some cb)).1.targetAlpha = target := by
    simp only [View.fadeTo, if_neg hcond]
  have e2 : (v0.fadeTo t0 target T (some cb)).1.startTime = t0 := by
    simp only [View.fadeTo, if_neg hcond]
  have e3 : (v0.fadeTo t0 target T (some cb)).1.fadeTime = T := by
    simp only [View.fadeTo, if_neg hcond]
  have e4 : (v0.fadeTo t0 target T (some cb)).1.fadeCompleteCB = some cb := by
    simp only [View.fadeTo, if_neg hcond]
  have hs := steps_fading fadeValue earlier (v0.fadeTo t0 target T (some cb)).1
    (by rw [e1]; exact h0) (by rw [e3]; exact hT) (by rw [e2, e3]; exact hearly)
  have hd := step_done fadeValue
    (View.steps fadeValue (v0.fadeTo t0 target T (some cb)).1 earlier).1 t cb
    (by rw [hs.2.1, e1]; exact h0) (by rw [hs.2.1, e1]; exact h1)
    (by rw [hs.2.2.2.1, e3]; exact hT) (by rw [hs.2.2.1, hs.2.2.2.1, e2, e3]; exact hlate)
    (by rw [hs.2.2.2.2, e4])
  refine ⟨hs.1, ?_, hd.2.1, hd.2.2.1, hd.2.2.2, steps_idle fadeValue _ later hd.2.1⟩
  rw [hd.1, hs.2.1, e1]

/-- Witness for `fade_completes`: the fade scenario of the spec, `fadeTo(0, 100ms)` from
alpha 255 at time 0, stepped at 50 ms, 100 ms and 150 ms. -/
theorem fade_completes_witness :
    (View.step (fun _ _ _ _ => 127)
        (View.steps (fun _ _ _ _ => 127) (View.fadeTo {} 0 0 100000 (some 7)).1 [50000]).1
        100000).2 = [7] ∧
    ((View.step (fun _ _ _ _ => 127)
        (View.steps (fun _ _ _ _ => 127) (View.fadeTo {} 0 0 100000 (some 7)).1 [50000]).1
        100000).1.alpha : Int) = 0 :=
  ⟨(fade_completes (fun _ _ _ _ => 127) {} 0 0 100000 100000 7 [50000] [150000]
      (by decide) (by decide) (by decide) (by decide) (by decide) (by decide)).2.2.2.2.1,
   (fade_completes (fun _ _ _ _ => 127) {} 0 0 100000 100000 7 [50000] [150000]
      (by decide) (by decide) (by decide) (by decide) (by decide) (by decide)).2.1⟩

/-- Claim C17: `stopFading` leaves alpha at its current value, returns the state machine
to idle and drops the registered callback without invoking it (the function invokes
nothing); every subsequent run of steps leaves the view unchanged, alpha included, and
invokes no callback. -/
theorem stopFading_spec (fadeValue : FadeValue) (v : View) (times : List Int) :
    v.stopFading.alpha = v.alpha ∧ v.stopFading.targetAlpha = -1 ∧
    v.stopFading.fadeCompleteCB = none ∧
    View.steps fadeValue v.stopFading times = (v.stopFading, []) :=
  ⟨rfl, rfl, rfl, steps_idle fadeValue v.stopFading times rfl⟩

/-! ## `ViewScroller` -/

/-- Claim C18: the sample displacement `sampleOffset o` is the truncated quotient of
`o+500` by 1000 for `o > 0` and of `o-500` by 1000 otherwise; it is `o/1000` rounded to
the nearest integer with halves away from zero: for `o > 0` it is the `d` with
`1000*d - 500 <= o < 1000*d + 500`, for `o <= 0` the `d` with
`1000*d - 500 < o <= 1000*d + 500`. In particular 500 gives 1, -500 gives -1 and 499
gives 0. -/
theorem sampleOffset_rounds (o : Int) :
    (0 < o → sampleOffset o = Int.tdiv (o + 500) 1000 ∧
      1000 * sampleOffset o - 500 ≤ o ∧ o < 1000 * sampleOffset o + 500) ∧
    (o ≤ 0 → sampleOffset o = Int.tdiv (o - 500) 1000 ∧
      1000 * sampleOffset o - 500 < o ∧ o ≤ 1000 * sampleOffset o + 500) ∧
    sampleOffset 500 = 1 ∧ sampleOffset (-500) = -1 ∧ sampleOffset 499 = 0 := by
  refine ⟨?_, ?_, by decide, by decide, by decide⟩
  · intro h
    have e : sampleOffset o = Int.tdiv (o + 500) 1000 := by
      simp [sampleOffset, h]
    rw [e, Int.tdiv_eq_ediv (by omega) (by decide)]
    refine ⟨rfl, ?_, ?_⟩ <;> omega
  · intro h
    have e : sampleOffset o = Int.tdiv (o - 500) 1000 := by
      simp only [sampleOffset, if_neg (not_lt.mpr h)]
      rfl
    have e2 : Int.tdiv (o - 500) 1000 = -((500 - o) / 1000) := by
      have : o - 500 = -(500 - o) := by omega
      rw [this, Int.neg_tdiv, Int.tdiv_eq_ediv (by omega) (by decide)]
    rw [e]
    refine ⟨rfl, ?_, ?_⟩ <;> rw [e2] <;> omega

/-- Witness for `sampleOffset_rounds`: an offset of 1500 milli-units is displaced by 2. -/
theorem sampleOffset_rounds_witness :
    sampleOffset 1500 = Int.tdiv (1500 + 500) 1000 ∧
    1000 * sampleOffset 1500 - 500 ≤ 1500 ∧ (1500 : Int) < 1000 * sampleOffset 1500 + 500 :=
  (sampleOffset_rounds 1500).1 (by decide)

theorem foldMaxLoop_false (cs x : Int) : foldMaxLoop false cs x = x := by
  rw [foldMaxLoop]
  simp

theorem foldMinLoop_false (cs x : Int) : foldMinLoop false cs x = x := by
  rw [foldMinLoop]
  simp

theorem foldMaxLoop_small (flag : Bool) (cs x : Int) (hx : x < cs) :
    foldMaxLoop flag cs x = x := by
  rw [foldMaxLoop]
  simp [hx]

theorem foldMinLoop_nonneg (flag : Bool) (cs x : Int) (hx : 0 ≤ x) :
    foldMinLoop flag cs x = x := by
  rw [foldMinLoop]
  simp [not_lt.mpr hx]

theorem foldMaxLoop_nonpos (flag : Bool) (cs x : Int) (hcs : cs ≤ 0) :
    foldMaxLoop flag cs x = x := by
  rw [foldMaxLoop]
  simp [not_lt.mpr hcs]

theorem foldMinLoop_nonpos (flag : Bool) (cs x : Int) (hcs : cs ≤ 0) :
    foldMinLoop flag cs x = x := by
  rw [foldMinLoop]
  simp [not_lt.mpr hcs]

/-- Closed form of the upper fold loop for an offset that is not negative. -/
theorem foldMaxLoop_true (cs : Int) (hcs : 0 < cs) (x : Int) (hx : 0 ≤ x) :
    foldMaxLoop true cs x = x % cs := by
  induction x using foldMaxLoop.induct true cs with
  | case1 x h ih =>
    rw [foldMaxLoop, if_pos h, ih (by omega)]
    have : x = (x - cs) + cs := by omega
    conv => rhs; rw [this]
    exact Int.add_emod_self.symm
  | case2 x h =>
    rw [foldMaxLoop, if_neg h]
    have : x < cs := by
      by_contra hc
      exact h ⟨rfl, by omega, hcs⟩
    exact (Int.emod_eq_of_lt hx this).symm

/-- Closed form of the lower fold loop. -/
theorem foldMinLoop_true (cs : Int) (hcs : 0 < cs) (x : Int) :
    foldMinLoop true cs x = if x < 0 then x % cs else x := by
  induction x using foldMinLoop.induct true cs with
  | case1 x h ih =>
    rw [foldMinLoop, if_pos h, ih, if_pos h.2.1]
    split
    · exact Int.add_emod_self
    · rw [← Int.add_emod_self (a := x) (b := cs)]
      exact (Int.emod_eq_of_lt (by omega) (by omega)).symm
  | case2 x h =>
    rw [foldMinLoop, if_neg h]
    have : ¬ x < 0 := fun hx => h ⟨rfl, hx, hcs⟩
    rw [if_neg this]

/-- What a scroll step leaves alone. -/
theorem performStep_frame (s : ViewScroller) (scrolledView : Option View) :
    (s.performStep scrolledView).scrollSteps = s.scrollSteps ∧
    (s.performStep scrolledView).scrollStepX_milli = s.scrollStepX_milli ∧
    (s.performStep scrolledView).scrollStepY_milli = s.scrollStepY_milli ∧
    (s.performStep scrolledView).scrollStepInterval = s.scrollStepInterval ∧
    (s.performStep scrolledView).nextScrollStepAt = s.nextScrollStepAt ∧
    (s.performStep scrolledView).scrollCompletedCB = s.scrollCompletedCB := by
  unfold ViewScroller.performStep
  cases scrolledView with
  | none => exact ⟨rfl, rfl, rfl, rfl, rfl, rfl⟩
  | some child =>
    simp only
    split <;> split <;> exact ⟨rfl, rfl, rfl, rfl, rfl, rfl⟩

/-- Without wrap folding a scroll step adds the increments to the offsets. -/
theorem performStep_offsets (s : ViewScroller) (scrolledView : Option View)
    (hw : ∀ c, scrolledView = some c →
      c.contentWrapMode.wrapX = false ∧ c.contentWrapMode.wrapY = false) :
    (s.performStep scrolledView).scrollOffsetX_milli =
      s.scrollOffsetX_milli + s.scrollStepX_milli ∧
    (s.performStep scrolledView).scrollOffsetY_milli =
      s.scrollOffsetY_milli + s.scrollStepY_milli := by
  unfold ViewScroller.performStep
  cases scrolledView with
  | none => exact ⟨rfl, rfl⟩
  | some child =>
    obtain ⟨hx, hy⟩ := hw child rfl
    simp [hx, hy]

theorem catchUp_later (interval : Int) (hi : 0 < interval) (scrolledView : Option View)
    (s : ViewScroller) (next : Int) (h : 0 < next) :
    ViewScroller.catchUp interval hi scrolledView s next = (s, [], 0) := by
  rw [ViewScroller.catchUp, if_neg (by omega)]

theorem ediv_step (d interval : Int) (hi : 0 < interval) :
    (d - interval) / interval = d / interval - 1 := by
  have h := Int.add_mul_ediv_right d (-1) (ne_of_gt hi)
  have e : d + -1 * interval = d - interval := by ring
  rw [e] at h
  omega

/-- The catch-up loop entered with `n+1` remaining steps and `next <= 0` performs
`min (n+1) ((-next)/interval + 1)` scroll steps, invokes the completion callback exactly
when all `n+1` steps were performed, and without wrap folding moves the offsets by that
many increments. -/
theorem catchUp_spec (interval : Int) (hi : 0 < interval) (scrolledView : Option View)
    (n : Nat) :
    ∀ (s : ViewScroller) (next : Int), s.scrollSteps = (n : Int) + 1 → next ≤ 0 →
      (((ViewScroller.catchUp interval hi scrolledView s next).2.2 : Nat) : Int) =
        min ((n : Int) + 1) ((-next) / interval + 1) ∧
      (ViewScroller.catchUp interval hi scrolledView s next).2.1 =
        (if (n : Int) + 1 ≤ (-next) / interval + 1 then s.scrollCompletedCB.toList else []) ∧
      ((∀ c, scrolledView = some c →
          c.contentWrapMode.wrapX = false ∧ c.contentWrapMode.wrapY = false) →
        (ViewScroller.catchUp interval hi scrolledView s next).1.scrollOffsetX_milli =
          s.scrollOffsetX_milli +
            ((ViewScroller.catchUp interval hi scrolledView s next).2.2 : Nat) *
              s.scrollStepX_milli ∧
        (ViewScroller.catchUp interval hi scrolledView s next).1.scrollOffsetY_milli =
          s.scrollOffsetY_milli +
            ((ViewScroller.catchUp interval hi scrolledView s next).2.2 : Nat) *
              s.scrollStepY_milli) := by
  induction n with
  | zero =>
    intro s next hN hnext
    have hf := performStep_frame s scrolledView
    have hq : 0 ≤ (-next) / interval := Int.ediv_nonneg (by omega) (by omega)
    have h1 : (s.performStep scrolledView).scrollSteps > 0 := by rw [hf.1, hN]; decide
    have h2 : (s.performStep scrolledView).scrollSteps - 1 = 0 := by rw [hf.1, hN]; decide
    have hc0 : ((0 : Nat) : Int) + 1 ≤ (-next) / interval + 1 := by push_cast; omega
    rw [ViewScroller.catchUp]
    simp only [if_pos hnext, if_pos h1, if_pos h2, hf.2.2.2.2.2]
    cases hcb : s.scrollCompletedCB with
    | none =>
      simp only [Option.toList]
      refine ⟨by simp; omega, by rw [if_pos hc0], fun hw => ?_⟩
      have ho := performStep_offsets s scrolledView hw
      simp [ho.1, ho.2]
    | some cb =>
      simp only [Option.toList]
      refine ⟨by simp; omega, by rw [if_pos hc0], fun hw => ?_⟩
      have ho := performStep_offsets s scrolledView hw
      simp [ho.1, ho.2]
  | succ m ih =>
    intro s next hN hnext
    have hf := performStep_frame s scrolledView
    have hq : 0 ≤ (-next) / interval := Int.ediv_nonneg (by omega) (by omega)
    have h1 : (s.performStep scrolledView).scrollSteps > 0 := by rw [hf.1, hN]; omega
    have h2 : ¬ (s.performStep scrolledView).scrollSteps - 1 = 0 := by rw [hf.1, hN]; omega
    rw [ViewScroller.catchUp]
    simp only [if_pos hnext, if_pos h1, if_neg h2]
    by_cases hn2 : 0 < next + interval
    · rw [catchUp_later interval hi scrolledView _ _ hn2]
      have hq0 : (-next) / interval = 0 := Int.ediv_eq_zero_of_lt (by omega) (by omega)
      rw [hq0]
      have hc1 : ¬ ((m + 1 : Nat) : Int) + 1 ≤ 0 + 1 := by push_cast; omega
      refine ⟨by simp; omega, by rw [if_neg hc1], fun hw => ?_⟩
      have ho := performStep_offsets s scrolledView hw
      simp [ho.1, ho.2]
    · have hs3 : ({ s.performStep scrolledView with
            scrollSteps := (s.performStep scrolledView).scrollSteps - 1,
            nextScrollStepAt := (s.performStep scrolledView).nextScrollStepAt + interval } :
            ViewScroller).scrollSteps = (m : Int) + 1 := by
        show (s.performStep scrolledView).scrollSteps - 1 = (m : Int) + 1
        rw [hf.1, hN]
        push_cast
        omega
      have hrec := ih _ (next + interval) hs3 (by omega)
      have hdiv : (-(next + interval)) / interval = (-next) / interval - 1 := by
        have : -(next + interval) = -next - interval := by ring
        rw [this, ediv_step _ _ hi]
      rw [hdiv] at hrec
      obtain ⟨r1, r2, r3⟩ := hrec
      refine ⟨?_, ?_, fun hw => ?_⟩
      · push_cast
        simp only at r1 ⊢
        omega
      · simp only at r2 ⊢
        rw [r2]
        have hcbeq : (s.performStep scrolledView).scrollCompletedCB = s.scrollCompletedCB :=
          hf.2.2.2.2.2
        simp only [hcbeq]
        by_cases hc : (m : Int) + 1 ≤ -next / interval - 1 + 1
        · rw [if_pos hc, if_pos (by push_cast; omega)]
        · rw [if_neg hc, if_neg (by push_cast; omega)]
      · have ho := performStep_offsets s scrolledView hw
        obtain ⟨rx, ry⟩ := r3 hw
        simp only at rx ry ⊢
        rw [rx, ry, ho.1, ho.2, hf.2.1, hf.2.2.1]
        push_cast
        constructor <;> ring

/-- The scroll part of `step`, called `D >= 0` after the due time with a positive interval
and a positive number of remaining steps. -/
theorem step_catch_up (s : ViewScroller) (scrolledView : Option View) (D : Int)
    (hI : 0 < s.scrollStepInterval) (hN : 0 < s.scrollSteps) (hD : 0 ≤ D) :
    (((s.step scrolledView (s.nextScrollStepAt + D)).2.2 : Nat) : Int) =
      min s.scrollSteps (D / s.scrollStepInterval + 1) ∧
    (s.step scrolledView (s.nextScrollStepAt + D)).2.1 =
      (if (((s.step scrolledView (s.nextScrollStepAt + D)).2.2 : Nat) : Int) = s.scrollSteps
        then s.scrollCompletedCB.toList else []) ∧
    ((∀ c, scrolledView = some c →
        c.contentWrapMode.wrapX = false ∧ c.contentWrapMode.wrapY = false) →
      (s.step scrolledView (s.nextScrollStepAt + D)).1.scrollOffsetX_milli =
        s.scrollOffsetX_milli +
          ((s.step scrolledView (s.nextScrollStepAt + D)).2.2 : Nat) * s.scrollStepX_milli ∧
      (s.step scrolledView (s.nextScrollStepAt + D)).1.scrollOffsetY_milli =
        s.scrollOffsetY_milli +
          ((s.step scrolledView (s.nextScrollStepAt + D)).2.2 : Nat) * s.scrollStepY_milli) := by
  have hcond : s.scrollSteps ≠ 0 ∧ s.scrollStepInterval > 0 := ⟨by omega, hI⟩
  have hnext : s.nextScrollStepAt - (s.nextScrollStepAt + D) = -D := by omega
  have hstep : s.step scrolledView (s.nextScrollStepAt + D) =
      ViewScroller.catchUp s.scrollStepInterval hI scrolledView s (-D) := by
    simp only [ViewScroller.step, dif_pos hcond, hnext]
    rw [if_neg (by omega)]
  have hn : s.scrollSteps = (((s.scrollSteps - 1).toNat : Nat) : Int) + 1 := by omega
  have h := catchUp_spec s.scrollStepInterval hI scrolledView (s.scrollSteps - 1).toNat s (-D)
    hn (by omega)
  rw [neg_neg, ← hn] at h
  rw [hstep]
  obtain ⟨h1, h2, h3⟩ := h
  refine ⟨h1, ?_, h3⟩
  rw [h2, h1]
  by_cases hc : s.scrollSteps ≤ D / s.scrollStepInterval + 1
  · rw [if_pos hc, if_pos (by omega)]
  · rw [if_neg hc, if_neg (by omega)]

/-- Claim C19: for a scroller with a positive step interval `I`, `N > 0` remaining steps
and next due time `t0`, one `step` call at time `t0+D` with `D >= 0` performs exactly
`min N (D/I + 1)` scroll steps, invokes the completion callback exactly once if that
count equals `N` and not at all otherwise, and, when the scrolled view wraps on no edge,
advances each offset by that many increments. For
`startScroll(stepX=1, stepY=0, interval=10ms, steps=5)` followed by one `step` call 55 ms
later, 5 steps are performed, the X offset advances by 5000 milli-units and the callback
is invoked exactly once. -/
theorem scroll_catch_up :
    (∀ (s : ViewScroller) (scrolledView : Option View) (D : Int),
      0 < s.scrollStepInterval → 0 < s.scrollSteps → 0 ≤ D →
      (((s.step scrolledView (s.nextScrollStepAt + D)).2.2 : Nat) : Int) =
        min s.scrollSteps (D / s.scrollStepInterval + 1) ∧
      (s.step scrolledView (s.nextScrollStepAt + D)).2.1 =
        (if (((s.step scrolledView (s.nextScrollStepAt + D)).2.2 : Nat) : Int) = s.scrollSteps
          then s.scrollCompletedCB.toList else []) ∧
      ((∀ c, scrolledView = some c →
          c.contentWrapMode.wrapX = false ∧ c.contentWrapMode.wrapY = false) →
        (s.step scrolledView (s.nextScrollStepAt + D)).1.scrollOffsetX_milli =
          s.scrollOffsetX_milli +
            ((s.step scrolledView (s.nextScrollStepAt + D)).2.2 : Nat) * s.scrollStepX_milli ∧
        (s.step scrolledView (s.nextScrollStepAt + D)).1.scrollOffsetY_milli =
          s.scrollOffsetY_milli +
            ((s.step scrolledView (s.nextScrollStepAt + D)).2.2 : Nat) * s.scrollStepY_milli)) ∧
    (∀ (s0 : ViewScroller) (scrolledView : Option View) (now : Int) (cb : CallbackId),
      (∀ c, scrolledView = some c →
          c.contentWrapMode.wrapX = false ∧ c.contentWrapMode.wrapY = false) →
      ((s0.startScroll now 1000 0 10000 false 5 Never (some cb)).step scrolledView
          (now + 55000)).2.2 = 5 ∧
      ((s0.startScroll now 1000 0 10000 false 5 Never (some cb)).step scrolledView
          (now + 55000)).2.1 = [cb] ∧
      ((s0.startScroll now 1000 0 10000 false 5 Never (some cb)).step scrolledView
          (now + 55000)).1.scrollOffsetX_milli = s0.scrollOffsetX_milli + 5000) := by
  refine ⟨fun s scrolledView D hI hN hD => step_catch_up s scrolledView D hI hN hD, ?_⟩
  intro s0 scrolledView now cb hw
  have hnow : (s0.startScroll now 1000 0 10000 false 5 Never (some cb)).nextScrollStepAt = now := by
    simp [ViewScroller.startScroll]
  have h := step_catch_up (s0.startScroll now 1000 0 10000 false 5 Never (some cb))
    scrolledView 55000 (by simp [ViewScroller.startScroll]) (by simp [ViewScroller.startScroll])
    (by decide)
  rw [hnow] at h
  obtain ⟨h1, h2, h3⟩ := h
  have hmin : min (s0.startScroll now 1000 0 10000 false 5 Never (some cb)).scrollSteps
      (55000 / (s0.startScroll now 1000 0 10000 false 5 Never (some cb)).scrollStepInterval + 1)
      = 5 := by
    simp [ViewScroller.startScroll]
  rw [hmin] at h1
  have hcount : ((s0.startScroll now 1000 0 10000 false 5 Never (some cb)).step scrolledView
      (now + 55000)).2.2 = 5 := by exact_mod_cast h1
  refine ⟨hcount, ?_, ?_⟩
  · rw [h2, hcount]
    simp [ViewScroller.startScroll]
  · rw [(h3 hw).1, hcount]
    simp [ViewScroller.startScroll]

/-- Witness for `scroll_catch_up`: a scroller with 3 steps left and an interval of 10 ms,
stepped 12 ms after the due time, performs 2 steps and invokes nothing. -/
theorem scroll_catch_up_witness :
    (((ViewScroller.step
        { scrollStepX_milli := 1000, scrollSteps := 3, scrollStepInterval := 10000,
          nextScrollStepAt := 500, scrollCompletedCB := some 7 } none (500 + 12000)).2.2 : Nat)
      : Int) = min 3 (12000 / 10000 + 1) :=
  (scroll_catch_up.1
    { scrollStepX_milli := 1000, scrollSteps := 3, scrollStepInterval := 10000,
      nextScrollStepAt := 500, scrollCompletedCB := some 7 } none 12000
    (by decide) (by decide) (by decide)).1

/-- Claim C20, as the code has it: for a scroller whose scrolled view has content size 10
on X and wraps on both X edges, the fold modulus is 10000 milli-units: a scroll step that
drives the X offset to 10005 milli-units folds it to 5, and a scroll step that drives it
to 1005 milli-units leaves it at 1005. -/
theorem performStep_fold (s : ViewScroller) (child : View)
    (hsize : child.contentSizeX = 10)
    (hmin : child.contentWrapMode.wrapXmin = true)
    (hmax : child.contentWrapMode.wrapXmax = true) :
    (s.scrollOffsetX_milli + s.scrollStepX_milli = 10005 →
      (s.performStep (some child)).scrollOffsetX_milli = 5) ∧
    (s.scrollOffsetX_milli + s.scrollStepX_milli = 1005 →
      (s.performStep (some child)).scrollOffsetX_milli = 1005) := by
  have hx : (s.performStep (some child)).scrollOffsetX_milli =
      foldMinLoop true 10000
        (foldMaxLoop true 10000 (s.scrollOffsetX_milli + s.scrollStepX_milli)) := by
    unfold ViewScroller.performStep
    simp only [WrapMode.wrapX, hmin, hmax, hsize, Bool.or_self, if_true]
    split <;> rfl
  constructor
  · intro h
    rw [hx, h, foldMaxLoop_true 10000 (by decide) 10005 (by decide),
      foldMinLoop_nonneg _ _ _ (by decide)]
    decide
  · intro h
    rw [hx, h, foldMaxLoop_small _ _ _ (by decide), foldMinLoop_nonneg _ _ _ (by decide)]

/-- Witness for `performStep_fold`: offset 9005 plus a step of 1000 folds to 5. -/
theorem performStep_fold_witness :
    (ViewScroller.performStep { scrollOffsetX_milli := 9005, scrollStepX_milli := 1000 }
      (some { contentSizeX := 10,
              contentWrapMode := { wrapXmin := true, wrapXmax := true } })).scrollOffsetX_milli
      = 5 :=
  (performStep_fold { scrollOffsetX_milli := 9005, scrollStepX_milli := 1000 }
    { contentSizeX := 10, contentWrapMode := { wrapXmin := true, wrapXmax := true } }
    rfl rfl rfl).1 (by decide)

/-- Claim C20 as stated fails: with content size 10 and wrap on both X edges, a scroll step
from offset 5 with increment 1000 drives the X offset to 1005 milli-units, and the wrap
correction leaves it at 1005 instead of folding it to 5. -/
theorem performStep_fold_cex :
    (5 : Int) + 1000 = 1005 ∧
    (ViewScroller.performStep { scrollOffsetX_milli := 5, scrollStepX_milli := 1000 }
      (some { contentSizeX := 10,
              contentWrapMode := { wrapXmin := true, wrapXmax := true } })).scrollOffsetX_milli
      = 1005 ∧
    (ViewScroller.performStep { scrollOffsetX_milli := 5, scrollStepX_milli := 1000 }
      (some { contentSizeX := 10,
              contentWrapMode := { wrapXmin := true, wrapXmax := true } })).scrollOffsetX_milli
      ≠ 5 := by
  have h : (ViewScroller.performStep { scrollOffsetX_milli := 5, scrollStepX_milli := 1000 }
      (some { contentSizeX := 10,
              contentWrapMode := { wrapXmin := true, wrapXmax := true } })).scrollOffsetX_milli
      = 1005 := by
    unfold ViewScroller.performStep
    simp only [WrapMode.wrapX, Bool.or_self, if_true, Bool.or_false, Bool.false_eq_true, if_false]
    show foldMinLoop true (10 * 1000) (foldMaxLoop true (10 * 1000) (5 + 1000)) = 1005
    rw [foldMaxLoop_small _ _ _ (by decide), foldMinLoop_nonneg _ _ _ (by decide)]
    decide
  exact ⟨by decide, h, by rw [h]; decide⟩

/-! ## `startScroll` and `stopScroll` -/

/-- Claim C21, the code at the failing input: `startScroll` with `roundOffsets` and an X
increment of 1000 milli-units replaces the X offset -700 by 0, although the multiple
-1000 is nearer (300 away instead of 700); the result is a multiple of the increment but
farther than half an increment from the old offset. The same happens for the offset 700
with the increment -1000, which is replaced by 0 instead of 1000. -/
theorem startScroll_round_negative :
    (ViewScroller.startScroll { scrollOffsetX_milli := -700 } 0 1000 0 10000 true 5 Never
      none).scrollOffsetX_milli = 0 ∧
    ¬ (2 * |(0 : Int) - (-700)| ≤ |(1000 : Int)|) ∧
    (1000 : Int) ∣ -1000 ∧ 2 * |(-1000 : Int) - (-700)| ≤ |(1000 : Int)| ∧
    (ViewScroller.startScroll { scrollOffsetX_milli := 700 } 0 (-1000) 0 10000 true 5 Never
      none).scrollOffsetX_milli = 0 ∧
    ¬ (2 * |(0 : Int) - 700| ≤ |(-1000 : Int)|) := by
  decide

theorem step_stopped (s : ViewScroller) (scrolledView : Option View) (now : Int)
    (h : s.scrollSteps = 0) : s.step scrolledView now = (s, [], 0) := by
  simp [ViewScroller.step, h]

theorem steps_stopped (s : ViewScroller) (calls : List (Option View × Int))
    (h : s.scrollSteps = 0) : ViewScroller.steps s calls = (s, []) := by
  induction calls with
  | nil => rfl
  | cons c rest ih => simp [ViewScroller.steps, step_stopped s c.1 c.2 h, ih]

/-- Claim C22: `stopScroll` sets the remaining-step count to zero, changes neither the
offsets nor the registered callback and invokes nothing; after it every run of `step`
calls, whatever the scrolled view and the times, leaves the scroller unchanged (offsets
included) and invokes no callback. -/
theorem stopScroll_spec (s : ViewScroller) (calls : List (Option View × Int)) :
    s.stopScroll.scrollSteps = 0 ∧
    s.stopScroll.scrollOffsetX_milli = s.scrollOffsetX_milli ∧
    s.stopScroll.scrollOffsetY_milli = s.scrollOffsetY_milli ∧
    s.stopScroll.scrollCompletedCB = s.scrollCompletedCB ∧
    ViewScroller.steps s.stopScroll calls = (s.stopScroll, []) :=
  ⟨rfl, rfl, rfl, rfl, steps_stopped s.stopScroll calls rfl⟩

/-! ## Absence of wrap-around in `overlayPixel` -/

/-- Claim C24: for all channel values `b`, `o` in 0..255 and every overlay alpha `a` in
0..254, `dimVal b (255-a) + dimVal o a <= 255`; hence the `uint8_t` addition of
`addToPixel` inside `overlayPixel` yields the plain sum of the two dimmed pixels. -/
theorem overlayPixel_no_wrap :
    (∀ b o a : Nat, b < 256 → o < 256 → a < 255 →
      dimVal b (255 - a) + dimVal o a ≤ 255) ∧
    (∀ base overlay : PixelColor, base.valid → overlay.valid → overlay.a ≠ 255 →
      addToPixel (dimmedPixel base (255 - overlay.a)) (dimmedPixel overlay overlay.a) =
        { r := dimVal base.r (255 - overlay.a) + dimVal overlay.r overlay.a,
          g := dimVal base.g (255 - overlay.a) + dimVal overlay.g overlay.a,
          b := dimVal base.b (255 - overlay.a) + dimVal overlay.b overlay.a,
          a := base.a }) := by
  constructor
  · intro b o a hb ho ha
    exact dimVal_add_le b o a hb ho (by omega)
  · intro base overlay hb ho _
    obtain ⟨hbr, hbg, hbb, _⟩ := hb
    obtain ⟨hor, hog, hob, hoa⟩ := ho
    have h1 := dimVal_add_le base.r overlay.r overlay.a hbr hor hoa
    have h2 := dimVal_add_le base.g overlay.g overlay.a hbg hog hoa
    have h3 := dimVal_add_le base.b overlay.b overlay.a hbb hob hoa
    simp only [addToPixel, dimmedPixel, dimPixel, PixelColor.mk.injEq, and_true]
    exact ⟨Nat.mod_eq_of_lt (by omega), Nat.mod_eq_of_lt (by omega), Nat.mod_eq_of_lt (by omega)⟩

/-- Witness for `overlayPixel_no_wrap`: the largest channels at overlay alpha 128. -/
theorem overlayPixel_no_wrap_witness :
    dimVal 255 (255 - 128) + dimVal 255 128 ≤ 255 :=
  overlayPixel_no_wrap.1 255 255 128 (by decide) (by decide) (by decide)

/-! ## Wrap folding of the scroll offsets -/

/-- The upper fold loop returns an offset at which its condition is false. -/
theorem foldMaxLoop_exit (flag : Bool) (cs x : Int) :
    ¬ (flag = true ∧ foldMaxLoop flag cs x ≥ cs ∧ cs > 0) := by
  induction x using foldMaxLoop.induct flag cs with
  | case1 x h ih =>
    rw [foldMaxLoop, if_pos h]
    exact ih
  | case2 x h =>
    rw [foldMaxLoop, if_neg h]
    exact h

/-- The lower fold loop returns an offset at which its condition is false. -/
theorem foldMinLoop_exit (flag : Bool) (cs x : Int) :
    ¬ (flag = true ∧ foldMinLoop flag cs x < 0 ∧ cs > 0) := by
  induction x using foldMinLoop.induct flag cs with
  | case1 x h ih =>
    rw [foldMinLoop, if_pos h]
    exact ih
  | case2 x h =>
    rw [foldMinLoop, if_neg h]
    exact h

/-- With both flags and a positive size the two fold loops reduce modulo the size. -/
theorem fold_both (cs : Int) (hcs : 0 < cs) (x : Int) :
    foldMinLoop true cs (foldMaxLoop true cs x) = x % cs := by
  by_cases hx : 0 ≤ x
  · rw [foldMaxLoop_true cs hcs x hx,
      foldMinLoop_nonneg _ _ _ (Int.emod_nonneg _ (by omega))]
  · rw [foldMaxLoop_small _ _ _ (by omega), foldMinLoop_true cs hcs, if_pos (by omega)]

theorem performStep_offsetX (s : ViewScroller) (child : View) :
    (s.performStep (some child)).scrollOffsetX_milli =
      if child.contentWrapMode.wrapX then
        foldMinLoop child.contentWrapMode.wrapXmin (child.contentSizeX * 1000)
          (foldMaxLoop child.contentWrapMode.wrapXmax (child.contentSizeX * 1000)
            (s.scrollOffsetX_milli + s.scrollStepX_milli))
      else s.scrollOffsetX_milli + s.scrollStepX_milli := by
  unfold ViewScroller.performStep
  simp only
  split <;> split <;> rfl

theorem performStep_offsetY (s : ViewScroller) (child : View) :
    (s.performStep (some child)).scrollOffsetY_milli =
      if child.contentWrapMode.wrapY then
        foldMinLoop child.contentWrapMode.wrapYmin (child.contentSizeY * 1000)
          (foldMaxLoop child.contentWrapMode.wrapYmax (child.contentSizeY * 1000)
            (s.scrollOffsetY_milli + s.scrollStepY_milli))
      else s.scrollOffsetY_milli + s.scrollStepY_milli := by
  unfold ViewScroller.performStep
  simp only
  split <;> split <;> rfl

/-- Claim C25: for a scrolled view that wraps on both edges of an axis, a scroll step
leaves the offset of that axis at `u % (size*1000)` when the content size is positive,
where `u` is the unfolded offset (old offset plus increment): a value in
`[0, size*1000)` congruent to `u` modulo `size*1000`; with a content size `<= 0` the
offset is left at `u`. The fold loops are total functions and return an offset at which
the loop condition is false, for every flag, size and offset. -/
theorem performStep_fold_range (s : ViewScroller) (child : View) :
    (child.contentWrapMode.wrapXmin = true → child.contentWrapMode.wrapXmax = true →
      (0 < child.contentSizeX →
        (s.performStep (some child)).scrollOffsetX_milli =
          (s.scrollOffsetX_milli + s.scrollStepX_milli) % (child.contentSizeX * 1000) ∧
        0 ≤ (s.performStep (some child)).scrollOffsetX_milli ∧
        (s.performStep (some child)).scrollOffsetX_milli < child.contentSizeX * 1000 ∧
        (child.contentSizeX * 1000) ∣
          (s.scrollOffsetX_milli + s.scrollStepX_milli) -
            (s.performStep (some child)).scrollOffsetX_milli) ∧
      (child.contentSizeX ≤ 0 →
        (s.performStep (some child)).scrollOffsetX_milli =
          s.scrollOffsetX_milli + s.scrollStepX_milli)) ∧
    (child.contentWrapMode.wrapYmin = true → child.contentWrapMode.wrapYmax = true →
      (0 < child.contentSizeY →
        (s.performStep (some child)).scrollOffsetY_milli =
          (s.scrollOffsetY_milli + s.scrollStepY_milli) % (child.contentSizeY * 1000) ∧
        0 ≤ (s.performStep (some child)).scrollOffsetY_milli ∧
        (s.performStep (some child)).scrollOffsetY_milli < child.contentSizeY * 1000 ∧
        (child.contentSizeY * 1000) ∣
          (s.scrollOffsetY_milli + s.scrollStepY_milli) -
            (s.performStep (some child)).scrollOffsetY_milli) ∧
      (child.contentSizeY ≤ 0 →
        (s.performStep (some child)).scrollOffsetY_milli =
          s.scrollOffsetY_milli + s.scrollStepY_milli)) ∧
    (∀ (flag : Bool) (cs x : Int),
      ¬ (flag = true ∧ foldMaxLoop flag cs x ≥ cs ∧ cs > 0) ∧
      ¬ (flag = true ∧ foldMinLoop flag cs x < 0 ∧ cs > 0)) := by
  refine ⟨?_, ?_, fun flag cs x => ⟨foldMaxLoop_exit flag cs x, foldMinLoop_exit flag cs x⟩⟩
  · intro h1 h2
    have e := performStep_offsetX s child
    simp only [WrapMode.wrapX, h1, h2, Bool.or_self, if_true] at e
    constructor
    · intro hs
      have hcs : 0 < child.contentSizeX * 1000 := by omega
      rw [e, fold_both _ hcs]
      have h := emod_spec (child.contentSizeX * 1000)
        (s.scrollOffsetX_milli + s.scrollStepX_milli) hcs
      exact ⟨rfl, h.1, h.2.1, h.2.2.1⟩
    · intro hs
      rw [e, foldMaxLoop_nonpos _ _ _ (by omega), foldMinLoop_nonpos _ _ _ (by omega)]
  · intro h1 h2
    have e := performStep_offsetY s child
    simp only [WrapMode.wrapY, h1, h2, Bool.or_self, if_true] at e
    constructor
    · intro hs
      have hcs : 0 < child.contentSizeY * 1000 := by omega
      rw [e, fold_both _ hcs]
      have h := emod_spec (child.contentSizeY * 1000)
        (s.scrollOffsetY_milli + s.scrollStepY_milli) hcs
      exact ⟨rfl, h.1, h.2.1, h.2.2.1⟩
    · intro hs
      rw [e, foldMaxLoop_nonpos _ _ _ (by omega), foldMinLoop_nonpos _ _ _ (by omega)]

/-- Witness for `performStep_fold_range`: with content size 10 a step from 9500 by 1000
ends at `10500 % 10000`. -/
theorem performStep_fold_range_witness :
    (ViewScroller.performStep { scrollOffsetX_milli := 9500, scrollStepX_milli := 1000 }
      (some { contentSizeX := 10,
              contentWrapMode := { wrapXmin := true, wrapXmax := true } })).scrollOffsetX_milli
      = ((9500 : Int) + 1000) % (10 * 1000) :=
  (((performStep_fold_range { scrollOffsetX_milli := 9500, scrollStepX_milli := 1000 }
    { contentSizeX := 10, contentWrapMode := { wrapXmin := true, wrapXmax := true } }).1
      rfl rfl).1 (by decide)).1

/-! ## Totality of `View::colorAt` -/

/-- The lower wrap loop returns a coordinate at which its condition is false. -/
theorem wrapMinLoop_exit (flag : Bool) (size : Int) (hs : 0 < size) (x : Int) :
    ¬ (flag = true ∧ wrapMinLoop flag size hs x < 0) := by
  induction x using wrapMinLoop.induct flag size hs with
  | case1 x h ih =>
    rw [wrapMinLoop, if_pos h]
    exact ih
  | case2 x h =>
    rw [wrapMinLoop, if_neg h]
    exact h

/-- The upper wrap loop returns a coordinate at which its condition is false. -/
theorem wrapMaxLoop_exit (flag : Bool) (size : Int) (hs : 0 < size) (x : Int) :
    ¬ (flag = true ∧ wrapMaxLoop flag size hs x ≥ size) := by
  induction x using wrapMaxLoop.induct flag size hs with
  | case1 x h ih =>
    rw [wrapMaxLoop, if_pos h]
    exact ih
  | case2 x h =>
    rw [wrapMaxLoop, if_neg h]
    exact h

theorem colorAtTraced_length (v : View) (contentColorAt : Int → Int → PixelColor)
    (aX aY : Int) : (v.colorAtTraced contentColorAt aX aY).2.length ≤ 1 := by
  unfold View.colorAtTraced
  simp only
  split
  · simp
  · split <;> simp

/-- Claim C26: `colorAt` is a total function: for every view state, content hook and
coordinate it returns a pixel after at most one content query, and each wrap loop
returns a coordinate at which its loop condition is false. When the content size of an
axis is `<= 0` the coordinate of that axis is passed on unwrapped, whatever the wrap
flags are: a visible, unclipped query asks the content at `wrappedCoord`, whose component
on such an axis is the content coordinate itself. -/
theorem colorAt_total (v : View) (contentColorAt : Int → Int → PixelColor) (aX aY : Int) :
    (∃ pc : PixelColor, v.colorAt contentColorAt aX aY = pc ∧
      (v.colorAtTraced contentColorAt aX aY).1 = pc ∧
      (v.colorAtTraced contentColorAt aX aY).2.length ≤ 1) ∧
    (v.contentSizeX ≤ 0 → (v.wrappedCoord aX aY).1 = (v.contentCoord aX aY).1) ∧
    (v.contentSizeY ≤ 0 → (v.wrappedCoord aX aY).2 = (v.contentCoord aX aY).2) ∧
    (v.alpha ≠ 0 → v.clips (v.contentCoord aX aY).1 (v.contentCoord aX aY).2 = false →
      (v.colorAtTraced contentColorAt aX aY).2 = [v.wrappedCoord aX aY]) ∧
    (∀ (flag : Bool) (size : Int) (hs : 0 < size) (x : Int),
      ¬ (flag = true ∧ wrapMinLoop flag size hs x < 0) ∧
      ¬ (flag = true ∧ wrapMaxLoop flag size hs x ≥ size)) := by
  refine ⟨⟨_, rfl, rfl, colorAtTraced_length v contentColorAt aX aY⟩, ?_, ?_, ?_, ?_⟩
  · intro h
    exact wrapAxis_nonpos _ _ _ h _
  · intro h
    exact wrapAxis_nonpos _ _ _ h _
  · intro ha hc
    rw [colorAtTraced_inside v contentColorAt aX aY ha hc]
    rfl
  · intro flag size hs x
    exact ⟨wrapMinLoop_exit flag size hs x, wrapMaxLoop_exit flag size hs x⟩

/-- Witness for `colorAt_total`: a view of content size 0 that wraps on all edges asks the
content at the unwrapped coordinate (-3, 5). -/
theorem colorAt_total_witness :
    (View.colorAtTraced
        { contentWrapMode :=
            { wrapXmin := true, wrapXmax := true, wrapYmin := true, wrapYmax := true } }
        (fun _ _ => ⟨9, 9, 9, 255⟩) (-3) 5).2 =
      [View.wrappedCoord
        { contentWrapMode :=
            { wrapXmin := true, wrapXmax := true, wrapYmin := true, wrapYmax := true } }
        (-3) 5] ∧
    (View.wrappedCoord
        { contentWrapMode :=
            { wrapXmin := true, wrapXmax := true, wrapYmin := true, wrapYmax := true } }
        (-3) 5).1 = -3 :=
  ⟨(colorAt_total
      { contentWrapMode :=
          { wrapXmin := true, wrapXmax := true, wrapYmin := true, wrapYmax := true } }
      (fun _ _ => ⟨9, 9, 9, 255⟩) (-3) 5).2.2.2.1 (by decide) (by decide),
   ((colorAt_total
      { contentWrapMode :=
          { wrapXmin := true, wrapXmax := true, wrapYmin := true, wrapYmax := true } }
      (fun _ _ => ⟨9, 9, 9, 255⟩) (-3) 5).2.1 (by decide)).trans (by decide)⟩

/-! ## The mixed-transparency branch of `mixinPixel` -/

theorem dimVal_mono (v1 v2 d : Nat) (h : v1 ≤ v2) (h2 : v2 < 256) (hd : d < 256) :
    dimVal v1 d ≤ dimVal v2 d := by
  rw [dimVal_eq_div v1 d (by omega) hd, dimVal_eq_div v2 d h2 hd]
  exact Nat.div_le_div_right (Nat.mul_le_mul_left _ h)

theorem dimVal_le_dim (c a : Nat) (hc : c < 256) (ha : a < 256) : dimVal c a ≤ a := by
  rw [dimVal_eq_div c a hc ha]
  have h : (a + 1) * c ≤ (a + 1) * 255 := Nat.mul_le_mul_left _ (by omega)
  generalize (a + 1) * c = m at h
  omega

/-- A premultiplied channel is at most the alpha of its pixel. -/
theorem alpahDimPixel_le (p : PixelColor) (hp : p.valid) :
    (alpahDimPixel p).r ≤ p.a ∧ (alpahDimPixel p).g ≤ p.a ∧ (alpahDimPixel p).b ≤ p.a := by
  obtain ⟨hr, hg, hb, ha⟩ := hp
  unfold alpahDimPixel
  split
  · simp only [dimPixel]
    exact ⟨dimVal_le_dim _ _ hr ha, dimVal_le_dim _ _ hg ha, dimVal_le_dim _ _ hb ha⟩
  · rename_i h
    simp only [ne_eq, Decidable.not_not] at h
    omega

/-- The blend of two premultiplied channels is at most the blend of the two alphas. -/
theorem blend_le (c1 a1 c2 a2 w : Nat) (h1 : c1 ≤ a1) (h2 : c2 ≤ a2) (ha1 : a1 < 256)
    (ha2 : a2 < 256) (hw : w < 256) :
    dimVal c1 (255 - w) + dimVal c2 w ≤ dimVal a1 (255 - w) + dimVal a2 w :=
  Nat.add_le_add (dimVal_mono c1 a1 _ h1 ha1 (by omega)) (dimVal_mono c2 a2 _ h2 ha2 hw)

/-- The un-dim step on a channel that is at most the combined alpha stays within 8 bits. -/
theorem undim_bound (A ch : Nat) (hA : 0 < A) (hA2 : A ≤ 255) (hch : ch ≤ A) :
    ((65025 / A + 1) * ch) >>> 8 ≤ 255 ∧
    dimVal ch ((65025 / A) % 65536) = ((65025 / A + 1) * ch) >>> 8 := by
  have hq : 65025 / A * A ≤ 65025 := Nat.div_mul_le_self 65025 A
  have hq2 : 65025 / A ≤ 65025 := Nat.div_le_self 65025 A
  have hmul : (65025 / A + 1) * ch ≤ (65025 / A + 1) * A := Nat.mul_le_mul_left _ hch
  have hexp : (65025 / A + 1) * A = 65025 / A * A + A := by ring
  have hb : ((65025 / A + 1) * ch) >>> 8 ≤ 255 := by
    rw [Nat.shiftRight_eq_div_pow]
    generalize (65025 / A + 1) * ch = m at hmul
    omega
  refine ⟨hb, ?_⟩
  unfold dimVal
  have e1 : 65025 / A % 65536 = 65025 / A := Nat.mod_eq_of_lt (by omega)
  have e2 : ch % 256 = ch := Nat.mod_eq_of_lt (by omega)
  rw [e1, e1, e2]
  exact Nat.mod_eq_of_lt (Nat.lt_succ_of_le hb)

/-- Claim C28: in the mixed-transparency branch of `mixinPixel` (not both inputs opaque,
weight `w` in 1..255, combined alpha `A = dimVal main.a (255-w) + dimVal outside.a w`
positive) nothing wraps: `A <= 255`; for each colour channel the sum of the two blended
premultiplied channels is at most `A`; the un-dim value `((65025/A + 1) * sum) >> 8` is
at most 255; the channel of the result is exactly that value and its alpha is `A`. -/
theorem mixinPixel_mixed_no_wrap (main outside : PixelColor) (w : Nat)
    (hm : main.valid) (ho : outside.valid) (hw1 : 0 < w) (hw : w < 256)
    (hmixed : main.a ≠ 255 ∨ outside.a ≠ 255)
    (hA : 0 < dimVal main.a (255 - w) + dimVal outside.a w) :
    dimVal main.a (255 - w) + dimVal outside.a w ≤ 255 ∧
    (dimVal (alpahDimPixel main).r (255 - w) + dimVal (alpahDimPixel outside).r w ≤
        dimVal main.a (255 - w) + dimVal outside.a w ∧
      ((65025 / (dimVal main.a (255 - w) + dimVal outside.a w) + 1) *
        (dimVal (alpahDimPixel main).r (255 - w) + dimVal (alpahDimPixel outside).r w)) >>> 8
        ≤ 255 ∧
      (mixinPixel main outside w).r =
        ((65025 / (dimVal main.a (255 - w) + dimVal outside.a w) + 1) *
          (dimVal (alpahDimPixel main).r (255 - w) + dimVal (alpahDimPixel outside).r w))
          >>> 8) ∧
    (dimVal (alpahDimPixel main).g (255 - w) + dimVal (alpahDimPixel outside).g w ≤
        dimVal main.a (255 - w) + dimVal outside.a w ∧
      ((65025 / (dimVal main.a (255 - w) + dimVal outside.a w) + 1) *
        (dimVal (alpahDimPixel main).g (255 - w) + dimVal (alpahDimPixel outside).g w)) >>> 8
        ≤ 255 ∧
      (mixinPixel main outside w).g =
        ((65025 / (dimVal main.a (255 - w) + dimVal outside.a w) + 1) *
          (dimVal (alpahDimPixel main).g (255 - w) + dimVal (alpahDimPixel outside).g w))
          >>> 8) ∧
    (dimVal (alpahDimPixel main).b (255 - w) + dimVal (alpahDimPixel outside).b w ≤
        dimVal main.a (255 - w) + dimVal outside.a w ∧
      ((65025 / (dimVal main.a (255 - w) + dimVal outside.a w) + 1) *
        (dimVal (alpahDimPixel main).b (255 - w) + dimVal (alpahDimPixel outside).b w)) >>> 8
        ≤ 255 ∧
      (mixinPixel main outside w).b =
        ((65025 / (dimVal main.a (255 - w) + dimVal outside.a w) + 1) *
          (dimVal (alpahDimPixel main).b (255 - w) + dimVal (alpahDimPixel outside).b w))
          >>> 8) ∧
    (mixinPixel main outside w).a = dimVal main.a (255 - w) + dimVal outside.a w := by
  have hA255 := dimVal_add_le main.a outside.a w hm.2.2.2 ho.2.2.2 hw
  obtain ⟨mr, mg, mb⟩ := alpahDimPixel_le main hm
  obtain ⟨or', og, ob⟩ := alpahDimPixel_le outside ho
  have sr := blend_le _ _ _ _ w mr or' hm.2.2.2 ho.2.2.2 hw
  have sg := blend_le _ _ _ _ w mg og hm.2.2.2 ho.2.2.2 hw
  have sb := blend_le _ _ _ _ w mb ob hm.2.2.2 ho.2.2.2 hw
  have ur := undim_bound _ _ hA hA255 sr
  have ug := undim_bound _ _ hA hA255 sg
  have ub := undim_bound _ _ hA hA255 sb
  have hAmod : (dimVal main.a (255 - w) + dimVal outside.a w) % 256 =
      dimVal main.a (255 - w) + dimVal outside.a w := Nat.mod_eq_of_lt (by omega)
  have hres : mixinPixel main outside w =
      { dimPixel (addToPixel (dimPixel (alpahDimPixel main) (255 - w))
          (dimmedPixel (alpahDimPixel outside) w))
          ((65025 / (dimVal main.a (255 - w) + dimVal outside.a w)) % 65536) with
        a := dimVal main.a (255 - w) + dimVal outside.a w } := by
    simp only [mixinPixel, if_pos hw1, if_pos hmixed, hAmod, if_pos hA]
  refine ⟨hA255, ⟨sr, ur.1, ?_⟩, ⟨sg, ug.1, ?_⟩, ⟨sb, ub.1, ?_⟩, ?_⟩
  · rw [hres, ← ur.2]
    simp only [dimPixel, addToPixel, dimmedPixel]
    rw [Nat.mod_eq_of_lt (by omega)]
  · rw [hres, ← ug.2]
    simp only [dimPixel, addToPixel, dimmedPixel]
    rw [Nat.mod_eq_of_lt (by omega)]
  · rw [hres, ← ub.2]
    simp only [dimPixel, addToPixel, dimmedPixel]
    rw [Nat.mod_eq_of_lt (by omega)]
  · rw [hres]

/-- Witness for `mixinPixel_mixed_no_wrap`: a half-transparent red towards an opaque blue
at weight 100. -/
theorem mixinPixel_mixed_no_wrap_witness :
    dimVal 128 (255 - 100) + dimVal 255 100 ≤ 255 ∧
    (mixinPixel ⟨255, 0, 0, 128⟩ ⟨0, 0, 255, 255⟩ 100).a =
      dimVal 128 (255 - 100) + dimVal 255 100 :=
  ⟨(mixinPixel_mixed_no_wrap ⟨255, 0, 0, 128⟩ ⟨0, 0, 255, 255⟩ 100 (by decide) (by decide)
      (by decide) (by decide) (by decide) (by decide)).1,
   (mixinPixel_mixed_no_wrap ⟨255, 0, 0, 128⟩ ⟨0, 0, 255, 255⟩ 100 (by decide) (by decide)
      (by decide) (by decide) (by decide) (by decide)).2.2.2.2⟩

/-! ## Scheduling of the scroll steps -/

/-- A pass of the catch-up loop that ends the scroll: the step count reaches zero, the
callback is cleared and invoked. -/
theorem catchUp_break (interval : Int) (hi : 0 < interval) (scrolledView : Option View)
    (s : ViewScroller) (next : Int) (hnext : next ≤ 0) (h1 : s.scrollSteps = 1) :
    (ViewScroller.catchUp interval hi scrolledView s next).1.scrollSteps = 0 ∧
    (ViewScroller.catchUp interval hi scrolledView s next).1.scrollCompletedCB = none ∧
    (ViewScroller.catchUp interval hi scrolledView s next).2.1 = s.scrollCompletedCB.toList ∧
    (ViewScroller.catchUp interval hi scrolledView s next).2.2 = 1 := by
  have hf := performStep_frame s scrolledView
  have p1 : (s.performStep scrolledView).scrollSteps > 0 := by rw [hf.1, h1]; decide
  have p2 : (s.performStep scrolledView).scrollSteps - 1 = 0 := by rw [hf.1, h1]; decide
  rw [ViewScroller.catchUp]
  simp only [if_pos hnext, if_pos p1, if_pos p2, hf.2.2.2.2.2]
  cases s.scrollCompletedCB <;> simp [p2]

/-- A pass of the catch-up loop that does not end the scroll continues with a state whose
due time is one interval later and whose step count is decremented when it is finite. -/
theorem catchUp_continue (interval : Int) (hi : 0 < interval) (scrolledView : Option View)
    (s : ViewScroller) (next : Int) (hnext : next ≤ 0) (h1 : s.scrollSteps ≠ 1) :
    ∃ s3 : ViewScroller,
      s3.nextScrollStepAt = s.nextScrollStepAt + interval ∧
      s3.scrollSteps = (if s.scrollSteps > 0 then s.scrollSteps - 1 else s.scrollSteps) ∧
      s3.scrollCompletedCB = s.scrollCompletedCB ∧
      s3.scrollStepInterval = s.scrollStepInterval ∧
      ViewScroller.catchUp interval hi scrolledView s next =
        ((ViewScroller.catchUp interval hi scrolledView s3 (next + interval)).1,
         (ViewScroller.catchUp interval hi scrolledView s3 (next + interval)).2.1,
         (ViewScroller.catchUp interval hi scrolledView s3 (next + interval)).2.2 + 1) := by
  have hf := performStep_frame s scrolledView
  by_cases p1 : s.scrollSteps > 0
  · have q1 : (s.performStep scrolledView).scrollSteps > 0 := by rw [hf.1]; exact p1
    have q2 : ¬ (s.performStep scrolledView).scrollSteps - 1 = 0 := by rw [hf.1]; omega
    refine ⟨{ s.performStep scrolledView with
        scrollSteps := (s.performStep scrolledView).scrollSteps - 1,
        nextScrollStepAt := (s.performStep scrolledView).nextScrollStepAt + interval },
      ?_, ?_, hf.2.2.2.2.2, hf.2.2.2.1, ?_⟩
    · show (s.performStep scrolledView).nextScrollStepAt + interval = _
      rw [hf.2.2.2.2.1]
    · show (s.performStep scrolledView).scrollSteps - 1 = _
      rw [hf.1, if_pos p1]
    · conv => lhs; rw [ViewScroller.catchUp]
      simp only [if_pos hnext, if_pos q1, if_neg q2]
  · have q1 : ¬ (s.performStep scrolledView).scrollSteps > 0 := by rw [hf.1]; exact p1
    refine ⟨{ s.performStep scrolledView with
        nextScrollStepAt := (s.performStep scrolledView).nextScrollStepAt + interval },
      ?_, ?_, hf.2.2.2.2.2, hf.2.2.2.1, ?_⟩
    · show (s.performStep scrolledView).nextScrollStepAt + interval = _
      rw [hf.2.2.2.2.1]
    · show (s.performStep scrolledView).scrollSteps = _
      rw [hf.1, if_neg p1]
    · conv => lhs; rw [ViewScroller.catchUp]
      simp only [if_pos hnext, if_neg q1]

/-- When the catch-up loop leaves the scroll active, it has added one interval to the due
time per step performed, and the remaining time `next` has become positive. -/
theorem catchUp_drift (interval : Int) (hi : 0 < interval) (scrolledView : Option View)
    (m : Nat) :
    ∀ (s : ViewScroller) (next : Int), (1 - next).toNat ≤ m →
      (ViewScroller.catchUp interval hi scrolledView s next).1.scrollSteps ≠ 0 →
      (ViewScroller.catchUp interval hi scrolledView s next).1.nextScrollStepAt =
        s.nextScrollStepAt +
          ((ViewScroller.catchUp interval hi scrolledView s next).2.2 : Nat) * interval ∧
      0 < next +
        ((ViewScroller.catchUp interval hi scrolledView s next).2.2 : Nat) * interval := by
  induction m with
  | zero =>
    intro s next hm _
    rw [catchUp_later interval hi scrolledView s next (by omega)]
    simp
    omega
  | succ k ih =>
    intro s next hm hact
    by_cases hn : 0 < next
    · rw [catchUp_later interval hi scrolledView s next hn]
      simp
      omega
    · have hnext : next ≤ 0 := by omega
      by_cases h1 : s.scrollSteps = 1
      · exact absurd (catchUp_break interval hi scrolledView s next hnext h1).1 hact
      · obtain ⟨s3, e1, _, _, _, e⟩ := catchUp_continue interval hi scrolledView s next hnext h1
        rw [e] at hact ⊢
        have hrec := ih s3 (next + interval) (by omega) hact
        generalize ViewScroller.catchUp interval hi scrolledView s3 (next + interval) = R
          at hrec hact ⊢
        obtain ⟨r1, r2⟩ := hrec
        simp only at r1 r2 ⊢
        rw [r1, e1]
        push_cast
        constructor
        · ring
        · linarith

/-- When a pass of the catch-up loop leaves the scroll active, no callback was invoked. -/
theorem catchUp_silent (interval : Int) (hi : 0 < interval) (scrolledView : Option View)
    (m : Nat) :
    ∀ (s : ViewScroller) (next : Int), (1 - next).toNat ≤ m →
      (ViewScroller.catchUp interval hi scrolledView s next).1.scrollSteps ≠ 0 →
      (ViewScroller.catchUp interval hi scrolledView s next).2.1 = [] := by
  induction m with
  | zero =>
    intro s next hm _
    rw [catchUp_later interval hi scrolledView s next (by omega)]
  | succ k ih =>
    intro s next hm hact
    by_cases hn : 0 < next
    · rw [catchUp_later interval hi scrolledView s next hn]
    · have hnext : next ≤ 0 := by omega
      by_cases h1 : s.scrollSteps = 1
      · exact absurd (catchUp_break interval hi scrolledView s next hnext h1).1 hact
      · obtain ⟨s3, _, _, _, _, e⟩ := catchUp_continue interval hi scrolledView s next hnext h1
        rw [e] at hact ⊢
        exact ih s3 (next + interval) (by omega) hact

/-- A `step` call that leaves the scroll active at the end of its loop has moved the due
time by one interval per step performed, to a time later than `now`, and has invoked no
callback. -/
theorem step_drift (s : ViewScroller) (scrolledView : Option View) (now : Int)
    (hI : 0 < s.scrollStepInterval)
    (hact : (s.step scrolledView now).1.scrollSteps ≠ 0) :
    (s.step scrolledView now).1.nextScrollStepAt =
      s.nextScrollStepAt + ((s.step scrolledView now).2.2 : Nat) * s.scrollStepInterval ∧
    now < (s.step scrolledView now).1.nextScrollStepAt ∧
    (s.step scrolledView now).2.1 = [] := by
  by_cases h0 : s.scrollSteps = 0
  · exfalso
    rw [step_stopped s scrolledView now h0] at hact
    exact hact h0
  · have hcond : s.scrollSteps ≠ 0 ∧ s.scrollStepInterval > 0 := ⟨h0, hI⟩
    by_cases hn : s.nextScrollStepAt - now > 0
    · have e : s.step scrolledView now = (s, [], 0) := by
        simp only [ViewScroller.step, dif_pos hcond, if_pos hn]
      rw [e]
      simp
      omega
    · have e : s.step scrolledView now =
          ViewScroller.catchUp s.scrollStepInterval hI scrolledView s
            (s.nextScrollStepAt - now) := by
        simp only [ViewScroller.step, dif_pos hcond, if_neg hn]
      rw [e] at hact ⊢
      have h := catchUp_drift s.scrollStepInterval hI scrolledView
        (1 - (s.nextScrollStepAt - now)).toNat s (s.nextScrollStepAt - now) (le_refl _) hact
      have h2 := catchUp_silent s.scrollStepInterval hI scrolledView
        (1 - (s.nextScrollStepAt - now)).toNat s (s.nextScrollStepAt - now) (le_refl _) hact
      exact ⟨h.1, by rw [h.1]; linarith [h.2], h2⟩

/-! ## Completion callbacks -/

/-- When the catch-up loop performs all remaining steps of a finite scroll, it ends with
the step count at zero and the callback cleared, and it invokes the callback. -/
theorem catchUp_done (interval : Int) (hi : 0 < interval) (scrolledView : Option View)
    (n : Nat) :
    ∀ (s : ViewScroller) (next : Int), s.scrollSteps = (n : Int) + 1 → next ≤ 0 →
      (n : Int) + 1 ≤ (-next) / interval + 1 →
      (ViewScroller.catchUp interval hi scrolledView s next).1.scrollSteps = 0 ∧
      (ViewScroller.catchUp interval hi scrolledView s next).1.scrollCompletedCB = none ∧
      (ViewScroller.catchUp interval hi scrolledView s next).2.1 =
        s.scrollCompletedCB.toList := by
  induction n with
  | zero =>
    intro s next hN hnext _
    have h := catchUp_break interval hi scrolledView s next hnext (by rw [hN]; rfl)
    exact ⟨h.1, h.2.1, h.2.2.1⟩
  | succ m ih =>
    intro s next hN hnext hle
    have hne : s.scrollSteps ≠ 1 := by rw [hN]; push_cast; omega
    obtain ⟨s3, _, e2, e3, _, e⟩ := catchUp_continue interval hi scrolledView s next hnext hne
    have hpos : s.scrollSteps > 0 := by rw [hN]; push_cast; omega
    rw [if_pos hpos, hN] at e2
    have hge : interval ≤ -next := by
      by_contra hc
      have h0 : (-next) / interval = 0 := Int.ediv_eq_zero_of_lt (by omega) (by omega)
      rw [h0] at hle
      push_cast at hle
      omega
    have hdiv : (-(next + interval)) / interval = (-next) / interval - 1 := by
      have : -(next + interval) = -next - interval := by ring
      rw [this, ediv_step _ _ hi]
    have hrec := ih s3 (next + interval) (by rw [e2]; push_cast; omega) (by omega)
      (by rw [hdiv]; push_cast at hle ⊢; omega)
    rw [e]
    exact ⟨hrec.1, hrec.2.1, by rw [← e3]; exact hrec.2.2⟩

/-- Claim C27: when `View::step` completes a fade, resp. `ViewScroller::step` performs the
last scroll step, the state in which the callback is invoked holds no callback and is
idle (`targetAlpha = -1`, resp. `scrollSteps = 0`), and the callback is the only one
invoked. If the callback itself calls `fadeTo`, resp. `startScroll`, with a new target and
callback, the state at the return of `step` (`stepRun`) is armed with exactly that new
animation and callback. -/
theorem callbacks_cleared_before_run :
    (∀ (fadeValue : FadeValue) (v : View) (now : Int) (cb : CallbackId),
      0 ≤ v.targetAlpha → v.targetAlpha ≤ 255 → 0 < v.fadeTime →
      v.startTime + v.fadeTime ≤ now → v.fadeCompleteCB = some cb →
      (View.step fadeValue v now).2 = [cb] ∧
      (View.step fadeValue v now).1.fadeCompleteCB = none ∧
      (View.step fadeValue v now).1.targetAlpha = -1 ∧
      ∀ (run : CallbackId → View → View) (now2 target2 duration2 : Int) (cb2 : CallbackId),
        run cb = (fun st => (st.fadeTo now2 target2 duration2 (some cb2)).1) →
        0 ≤ target2 → target2 ≤ 255 → 0 < duration2 → target2 ≠ v.targetAlpha →
        (View.stepRun run fadeValue v now).targetAlpha = target2 ∧
        (View.stepRun run fadeValue v now).fadeCompleteCB = some cb2 ∧
        (View.stepRun run fadeValue v now).startTime = now2 ∧
        (View.stepRun run fadeValue v now).fadeTime = duration2 ∧
        (View.stepRun run fadeValue v now).fadeDist = target2 - v.targetAlpha ∧
        ((View.stepRun run fadeValue v now).alpha : Int) = v.targetAlpha) ∧
    (∀ (s : ViewScroller) (scrolledView : Option View) (D : Int) (cb : CallbackId),
      0 < s.scrollStepInterval → 0 < s.scrollSteps → 0 ≤ D →
      s.scrollSteps ≤ D / s.scrollStepInterval + 1 → s.scrollCompletedCB = some cb →
      (s.step scrolledView (s.nextScrollStepAt + D)).2.1 = [cb] ∧
      (s.step scrolledView (s.nextScrollStepAt + D)).1.scrollCompletedCB = none ∧
      (s.step scrolledView (s.nextScrollStepAt + D)).1.scrollSteps = 0 ∧
      ∀ (run : CallbackId → ViewScroller → ViewScroller) (now2 stepX2 stepY2 interval2 : Int)
        (round2 : Bool) (numSteps2 startTime2 : Int) (cb2 : CallbackId),
        run cb = (fun st =>
          st.startScroll now2 stepX2 stepY2 interval2 round2 numSteps2 startTime2 (some cb2)) →
        (s.stepRun run scrolledView (s.nextScrollStepAt + D)).scrollSteps = numSteps2 ∧
        (s.stepRun run scrolledView (s.nextScrollStepAt + D)).scrollCompletedCB = some cb2 ∧
        (s.stepRun run scrolledView (s.nextScrollStepAt + D)).scrollStepInterval = interval2 ∧
        (s.stepRun run scrolledView (s.nextScrollStepAt + D)).scrollStepX_milli = stepX2 ∧
        (s.stepRun run scrolledView (s.nextScrollStepAt + D)).scrollStepY_milli = stepY2 ∧
        (s.stepRun run scrolledView (s.nextScrollStepAt + D)).nextScrollStepAt =
          (if startTime2 = Never ∨ startTime2 < now2 then now2 else startTime2)) := by
  constructor
  · intro fadeValue v now cb h0 h1 hT he hcb
    have hd := step_done fadeValue v now cb h0 h1 hT he hcb
    refine ⟨hd.2.2.2, hd.2.2.1, hd.2.1, ?_⟩
    intro run now2 target2 duration2 cb2 hrun t0 t1 hT2 hne
    have hcond : ¬ (duration2 ≤ 0 ∨
        target2 - ((View.step fadeValue v now).1.alpha : Int) = 0) := by
      rw [hd.1]
      omega
    have e : View.stepRun run fadeValue v now =
        ((View.step fadeValue v now).1.fadeTo now2 target2 duration2 (some cb2)).1 := by
      simp only [View.stepRun, hd.2.2.2, List.foldl, hrun]
    rw [e]
    simp only [View.fadeTo, if_neg hcond]
    exact ⟨trivial, trivial, trivial, trivial, by rw [hd.1], hd.1⟩
  · intro s scrolledView D cb hI hN hD hle hcb
    have hcond : s.scrollSteps ≠ 0 ∧ s.scrollStepInterval > 0 := ⟨by omega, hI⟩
    have hnext : s.nextScrollStepAt - (s.nextScrollStepAt + D) = -D := by omega
    have hstep : s.step scrolledView (s.nextScrollStepAt + D) =
        ViewScroller.catchUp s.scrollStepInterval hI scrolledView s (-D) := by
      simp only [ViewScroller.step, dif_pos hcond, hnext]
      rw [if_neg (by omega)]
    have hn : s.scrollSteps = (((s.scrollSteps - 1).toNat : Nat) : Int) + 1 := by omega
    have h := catchUp_done s.scrollStepInterval hI scrolledView (s.scrollSteps - 1).toNat s (-D)
      hn (by omega) (by rw [neg_neg, ← hn]; exact hle)
    rw [← hstep, hcb] at h
    refine ⟨h.2.2, h.2.1, h.1, ?_⟩
    intro run now2 stepX2 stepY2 interval2 round2 numSteps2 startTime2 cb2 hrun
    have e : s.stepRun run scrolledView (s.nextScrollStepAt + D) =
        (s.step scrolledView (s.nextScrollStepAt + D)).1.startScroll now2 stepX2 stepY2
          interval2 round2 numSteps2 startTime2 (some cb2) := by
      simp only [ViewScroller.stepRun, h.2.2, Option.toList, List.foldl, hrun]
    rw [e]
    unfold ViewScroller.startScroll
    simp only
    refine ⟨trivial, trivial, trivial, ?_, ?_, trivial⟩
    · cases round2
      · rfl
      · simp only [if_true]
        split <;> split <;> rfl
    · cases round2
      · rfl
      · simp only [if_true]
        split <;> split <;> rfl

/-- Witness for `callbacks_cleared_before_run`: a fade to 0 that ended at 100 ms, stepped
at 100 ms with callback 7 registered, invokes exactly callback 7 on an idle view. -/
theorem callbacks_cleared_before_run_witness :
    (View.step (fun _ _ _ _ => 0)
      { targetAlpha := 0, fadeDist := -255, startTime := 0, fadeTime := 100000,
        fadeCompleteCB := some 7 } 100000).2 = [7] ∧
    (View.step (fun _ _ _ _ => 0)
      { targetAlpha := 0, fadeDist := -255, startTime := 0, fadeTime := 100000,
        fadeCompleteCB := some 7 } 100000).1.fadeCompleteCB = none :=
  ⟨(callbacks_cleared_before_run.1 (fun _ _ _ _ => 0)
      { targetAlpha := 0, fadeDist := -255, startTime := 0, fadeTime := 100000,
        fadeCompleteCB := some 7 } 100000 7
      (by decide) (by decide) (by decide) (by decide) rfl).1,
   (callbacks_cleared_before_run.1 (fun _ _ _ _ => 0)
      { targetAlpha := 0, fadeDist := -255, startTime := 0, fadeTime := 100000,
        fadeCompleteCB := some 7 } 100000 7
      (by decide) (by decide) (by decide) (by decide) rfl).2.1⟩

/-! ## Drift-free scheduling -/

/-- Claim C29, as the code has it: for a scroller with a positive interval `I` and next
due time `t0`, when a `step` call at time `now` performs `k` scroll steps without
completing the scroll (the remaining-step count is not zero when the loop ends), no
callback runs, and at the return of the call the next due time is exactly `t0 + k*I`
and strictly later than `now`. When the call completes a finite scroll and the completion
callback re-arms it with `startScroll` at time `now2`, the scroll is active at the return
with the due time `startScroll` has set: `now2` for a start time that is `Never` or in
the past, else the start time; it is never earlier than `now2`. -/
theorem scroll_drift_free :
    (∀ (s : ViewScroller) (scrolledView : Option View) (now : Int),
      0 < s.scrollStepInterval → (s.step scrolledView now).1.scrollSteps ≠ 0 →
      (s.step scrolledView now).2.1 = [] ∧
      (∀ run : CallbackId → ViewScroller → ViewScroller,
        s.stepRun run scrolledView now = (s.step scrolledView now).1) ∧
      (s.step scrolledView now).1.nextScrollStepAt =
        s.nextScrollStepAt + ((s.step scrolledView now).2.2 : Nat) * s.scrollStepInterval ∧
      now < (s.step scrolledView now).1.nextScrollStepAt) ∧
    (∀ (s : ViewScroller) (scrolledView : Option View) (D : Int) (cb : CallbackId),
      0 < s.scrollStepInterval → 0 < s.scrollSteps → 0 ≤ D →
      s.scrollSteps ≤ D / s.scrollStepInterval + 1 → s.scrollCompletedCB = some cb →
      ∀ (run : CallbackId → ViewScroller → ViewScroller) (now2 stepX2 stepY2 interval2 : Int)
        (round2 : Bool) (numSteps2 startTime2 : Int) (cb2 : Option CallbackId),
        run cb = (fun st =>
          st.startScroll now2 stepX2 stepY2 interval2 round2 numSteps2 startTime2 cb2) →
        (s.stepRun run scrolledView (s.nextScrollStepAt + D)).scrollSteps = numSteps2 ∧
        (s.stepRun run scrolledView (s.nextScrollStepAt + D)).nextScrollStepAt =
          (if startTime2 = Never ∨ startTime2 < now2 then now2 else startTime2) ∧
        now2 ≤ (s.stepRun run scrolledView (s.nextScrollStepAt + D)).nextScrollStepAt) := by
  constructor
  · intro s scrolledView now hI hact
    have h := step_drift s scrolledView now hI hact
    refine ⟨h.2.2, ?_, h.1, h.2.1⟩
    intro run
    simp only [ViewScroller.stepRun, h.2.2, List.foldl]
  · intro s scrolledView D cb hI hN hD hle hcb
    have hcond : s.scrollSteps ≠ 0 ∧ s.scrollStepInterval > 0 := ⟨by omega, hI⟩
    have hnext : s.nextScrollStepAt - (s.nextScrollStepAt + D) = -D := by omega
    have hstep : s.step scrolledView (s.nextScrollStepAt + D) =
        ViewScroller.catchUp s.scrollStepInterval hI scrolledView s (-D) := by
      simp only [ViewScroller.step, dif_pos hcond, hnext]
      rw [if_neg (by omega)]
    have hn : s.scrollSteps = (((s.scrollSteps - 1).toNat : Nat) : Int) + 1 := by omega
    have h := catchUp_done s.scrollStepInterval hI scrolledView (s.scrollSteps - 1).toNat s (-D)
      hn (by omega) (by rw [neg_neg, ← hn]; exact hle)
    rw [← hstep, hcb] at h
    intro run now2 stepX2 stepY2 interval2 round2 numSteps2 startTime2 cb2 hrun
    have e : s.stepRun run scrolledView (s.nextScrollStepAt + D) =
        (s.step scrolledView (s.nextScrollStepAt + D)).1.startScroll now2 stepX2 stepY2
          interval2 round2 numSteps2 startTime2 cb2 := by
      simp only [ViewScroller.stepRun, h.2.2, Option.toList, List.foldl, hrun]
    have e2 : (s.stepRun run scrolledView (s.nextScrollStepAt + D)).nextScrollStepAt =
        (if startTime2 = Never ∨ startTime2 < now2 then now2 else startTime2) := by
      rw [e]
      rfl
    refine ⟨by rw [e]; rfl, e2, ?_⟩
    rw [e2]
    split <;> omega

/-- Witness for `scroll_drift_free`: an endless scroll (step count -1) with interval
10 ms, due at 500, stepped at 500: the next due time is later than 500. A scroll with one
step left, due at 3000 and stepped at 3000, whose completion callback starts a scroll of
5 steps: the scroll is active at the return. -/
theorem scroll_drift_free_witness :
    (500 : Int) <
      (ViewScroller.step
        { scrollStepX_milli := 1000, scrollSteps := -1, scrollStepInterval := 10000,
          nextScrollStepAt := 500 } none 500).1.nextScrollStepAt ∧
    (ViewScroller.stepRun
      (fun _ st => st.startScroll 3000 1000 0 1000 false 5 Never (some 8))
      { scrollStepX_milli := 1000, scrollSteps := 1, scrollStepInterval := 1000,
        nextScrollStepAt := 3000, scrollCompletedCB := some 7 } none (3000 + 0)).scrollSteps
      = 5 :=
  ⟨(scroll_drift_free.1
    { scrollStepX_milli := 1000, scrollSteps := -1, scrollStepInterval := 10000,
      nextScrollStepAt := 500 } none 500 (by decide)
    (by simp [ViewScroller.step, ViewScroller.catchUp, ViewScroller.performStep])).2.2.2,
   (scroll_drift_free.2
    { scrollStepX_milli := 1000, scrollSteps := 1, scrollStepInterval := 1000,
      nextScrollStepAt := 3000, scrollCompletedCB := some 7 } none 0 7
    (by decide) (by decide) (by decide) (by decide) rfl
    (fun _ st => st.startScroll 3000 1000 0 1000 false 5 Never (some 8))
    3000 1000 0 1000 false 5 Never (some 8) rfl).1⟩

/-- Claim C29 as stated fails: a scroller with one step left, interval 1 ms and due time
3000 is stepped at 3000; the call performs the step (k = 1), completes the scroll and
invokes callback 7, which re-arms the scroll with `startScroll` and no start time. At the
return of the call the scroll is active (5 steps) but the next due time is 3000: it is
not later than `now` and it is not `t0 + k*I = 4000`. -/
theorem scroll_drift_free_cex :
    (ViewScroller.step
      { scrollStepX_milli := 1000, scrollSteps := 1, scrollStepInterval := 1000,
        nextScrollStepAt := 3000, scrollCompletedCB := some 7 } none 3000).2 = ([7], 1) ∧
    (ViewScroller.stepRun
      (fun _ st => st.startScroll 3000 1000 0 1000 false 5 Never (some 8))
      { scrollStepX_milli := 1000, scrollSteps := 1, scrollStepInterval := 1000,
        nextScrollStepAt := 3000, scrollCompletedCB := some 7 } none 3000).scrollSteps = 5 ∧
    (ViewScroller.stepRun
      (fun _ st => st.startScroll 3000 1000 0 1000 false 5 Never (some 8))
      { scrollStepX_milli := 1000, scrollSteps := 1, scrollStepInterval := 1000,
        nextScrollStepAt := 3000, scrollCompletedCB := some 7 } none 3000).nextScrollStepAt
      = 3000 ∧
    ¬ ((3000 : Int) <
      (ViewScroller.stepRun
        (fun _ st => st.startScroll 3000 1000 0 1000 false 5 Never (some 8))
        { scrollStepX_milli := 1000, scrollSteps := 1, scrollStepInterval := 1000,
          nextScrollStepAt := 3000, scrollCompletedCB := some 7 } none 3000).nextScrollStepAt) ∧
    (ViewScroller.stepRun
      (fun _ st => st.startScroll 3000 1000 0 1000 false 5 Never (some 8))
      { scrollStepX_milli := 1000, scrollSteps := 1, scrollStepInterval := 1000,
        nextScrollStepAt := 3000, scrollCompletedCB := some 7 } none 3000).nextScrollStepAt
      ≠ 3000 + 1 * 1000 := by
  have hs : ViewScroller.step
      { scrollStepX_milli := 1000, scrollSteps := 1, scrollStepInterval := 1000,
        nextScrollStepAt := 3000, scrollCompletedCB := some 7 } none 3000 =
      ({ scrollOffsetX_milli := 1000, scrollStepX_milli := 1000, scrollSteps := 0,
         scrollStepInterval := 1000, nextScrollStepAt := 3000, scrollCompletedCB := none,
         dirty := true }, [7], 1) := by
    simp [ViewScroller.step, ViewScroller.catchUp, ViewScroller.performStep]
  have hr : ViewScroller.stepRun
      (fun _ st => st.startScroll 3000 1000 0 1000 false 5 Never (some 8))
      { scrollStepX_milli := 1000, scrollSteps := 1, scrollStepInterval := 1000,
        nextScrollStepAt := 3000, scrollCompletedCB := some 7 } none 3000 =
      { scrollOffsetX_milli := 1000, scrollStepX_milli := 1000, scrollSteps := 5,
        scrollStepInterval := 1000, nextScrollStepAt := 3000, scrollCompletedCB := some 8,
        dirty := true } := by
    simp only [ViewScroller.stepRun, hs, List.foldl]
    rfl
  rw [hs, hr]
  decide

/-! ## Sampling in `ViewScroller::contentColorAt` -/

theorem sampleOffset_residual (o : Int) :
    -500 ≤ o - sampleOffset o * 1000 ∧ o - sampleOffset o * 1000 ≤ 500 := by
  by_cases h : 0 < o
  · have e : sampleOffset o = (o + 500) / 1000 := by
      simp only [sampleOffset, if_pos h]
      exact Int.tdiv_eq_ediv (by omega) (by decide)
    rw [e]
    omega
  · have e : sampleOffset o = -((500 - o) / 1000) := by
      simp only [sampleOffset, if_neg h]
      have : o + -500 = -(500 - o) := by omega
      rw [this, Int.neg_tdiv, Int.tdiv_eq_ediv (by omega) (by decide)]
    rw [e]
    omega

theorem outsideWeight_bound (o : Int) : -127 ≤ outsideWeight o ∧ outsideWeight o ≤ 127 := by
  have hr := sampleOffset_residual o
  unfold outsideWeight
  generalize o - sampleOffset o * 1000 = r at hr
  by_cases h : 0 ≤ r
  · rw [Int.tdiv_eq_ediv (by omega) (by decide)]
    omega
  · have : r * 255 = -((-r) * 255) := by ring
    rw [this, Int.neg_tdiv, Int.tdiv_eq_ediv (by omega) (by decide)]
    omega

/-- The weight handed to `mixinPixel` as `uint8_t` is the absolute value of the signed
weight. -/
theorem weight_uint8 (o : Int) :
    ((if outsideWeight o < 0 then outsideWeight o * -1 else outsideWeight o) % 256).toNat =
      residualWeight o ∧
    ((if outsideWeight o < 0 then outsideWeight o * -1 else outsideWeight o) ≠ 0 ↔
      residualWeight o ≠ 0) := by
  have hb := outsideWeight_bound o
  unfold residualWeight
  generalize outsideWeight o = w at hb
  split <;> constructor <;> omega

/-- Claim C23: `contentColorAt` returns the transparent pixel when there is no scrolled
view. Otherwise, with the sample displacements `sampleOffset`, the weights
`residualWeight` and the neighbour directions `subSampleDir` of the two offsets: it is
the child sample at the displaced coordinate when both weights are zero; the `mixinPixel`
of that sample with the neighbour along the axis of the non-zero weight when exactly one
weight is non-zero; and the `mixinPixel` by the Y weight of the X blend of the base row
with the X blend of the neighbour row when both are non-zero (four samples). -/
theorem contentColorAt_sampling (s : ViewScroller) (child : Int → Int → PixelColor)
    (aX aY : Int) :
    s.contentColorAt none aX aY = transparent ∧
    (residualWeight s.scrollOffsetX_milli = 0 → residualWeight s.scrollOffsetY_milli = 0 →
      s.contentColorAt (some child) aX aY =
        child (sampleOffset s.scrollOffsetX_milli + aX)
          (sampleOffset s.scrollOffsetY_milli + aY)) ∧
    (residualWeight s.scrollOffsetX_milli ≠ 0 → residualWeight s.scrollOffsetY_milli = 0 →
      s.contentColorAt (some child) aX aY =
        mixinPixel
          (child (sampleOffset s.scrollOffsetX_milli + aX)
            (sampleOffset s.scrollOffsetY_milli + aY))
          (child (sampleOffset s.scrollOffsetX_milli + aX + subSampleDir s.scrollOffsetX_milli)
            (sampleOffset s.scrollOffsetY_milli + aY))
          (residualWeight s.scrollOffsetX_milli)) ∧
    (residualWeight s.scrollOffsetX_milli = 0 → residualWeight s.scrollOffsetY_milli ≠ 0 →
      s.contentColorAt (some child) aX aY =
        mixinPixel
          (child (sampleOffset s.scrollOffsetX_milli + aX)
            (sampleOffset s.scrollOffsetY_milli + aY))
          (child (sampleOffset s.scrollOffsetX_milli + aX)
            (sampleOffset s.scrollOffsetY_milli + aY + subSampleDir s.scrollOffsetY_milli))
          (residualWeight s.scrollOffsetY_milli)) ∧
    (residualWeight s.scrollOffsetX_milli ≠ 0 → residualWeight s.scrollOffsetY_milli ≠ 0 →
      s.contentColorAt (some child) aX aY =
        mixinPixel
          (mixinPixel
            (child (sampleOffset s.scrollOffsetX_milli + aX)
              (sampleOffset s.scrollOffsetY_milli + aY))
            (child (sampleOffset s.scrollOffsetX_milli + aX + subSampleDir s.scrollOffsetX_milli)
              (sampleOffset s.scrollOffsetY_milli + aY))
            (residualWeight s.scrollOffsetX_milli))
          (mixinPixel
            (child (sampleOffset s.scrollOffsetX_milli + aX)
              (sampleOffset s.scrollOffsetY_milli + aY + subSampleDir s.scrollOffsetY_milli))
            (child (sampleOffset s.scrollOffsetX_milli + aX + subSampleDir s.scrollOffsetX_milli)
              (sampleOffset s.scrollOffsetY_milli + aY + subSampleDir s.scrollOffsetY_milli))
            (residualWeight s.scrollOffsetX_milli))
          (residualWeight s.scrollOffsetY_milli)) := by
  have hx := weight_uint8 s.scrollOffsetX_milli
  have hy := weight_uint8 s.scrollOffsetY_milli
  refine ⟨rfl, ?_, ?_, ?_, ?_⟩
  · intro h1 h2
    have n1 := fun h => hx.2.mp h h1
    have n2 := fun h => hy.2.mp h h2
    simp only [ViewScroller.contentColorAt, if_neg n1, if_neg n2]
  · intro h1 h2
    have p1 := hx.2.mpr h1
    have n2 := fun h => hy.2.mp h h2
    simp only [ViewScroller.contentColorAt, if_pos p1, if_neg n2, hx.1, subSampleDir]
  · intro h1 h2
    have n1 := fun h => hx.2.mp h h1
    have p2 := hy.2.mpr h2
    simp only [ViewScroller.contentColorAt, if_neg n1, if_pos p2, hy.1, subSampleDir]
  · intro h1 h2
    have p1 := hx.2.mpr h1
    have p2 := hy.2.mpr h2
    simp only [ViewScroller.contentColorAt, if_pos p1, if_pos p2, hx.1, hy.1, subSampleDir]

/-- Witness for `contentColorAt_sampling`: at the X offset 250 milli-units (weight 63
towards the right neighbour) a child that is red at x = 0 and blue elsewhere is
sampled twice. -/
theorem contentColorAt_sampling_witness :
    ViewScroller.contentColorAt { scrollOffsetX_milli := 250 }
      (some (fun x _ => if x = 0 then ⟨255, 0, 0, 255⟩ else ⟨0, 0, 255, 255⟩)) 0 0 =
      mixinPixel ⟨255, 0, 0, 255⟩ ⟨0, 0, 255, 255⟩ 63 :=
  ((contentColorAt_sampling { scrollOffsetX_milli := 250 }
    (fun x _ => if x = 0 then ⟨255, 0, 0, 255⟩ else ⟨0, 0, 255, 255⟩) 0 0).2.2.1
      (by decide) (by decide)).trans (by decide)

/-! ## WifiTrack: the most common MAC -/

/-- Claim C30, the code at the failing input: the sighted MAC has the SSIDs 1..4, the new
SSID is 1 and `minCommonSsidCount` is 3. Candidate 1 shares 4 SSIDs and belongs to person
10, candidate 2 shares 3 SSIDs and belongs to person 20. Visited in the order 1, 2 the
search ends with candidate 2 as `mostCommonMac` and person 20 as `mostProbablePerson`,
because `maxCommonSsids` is still 0; visited in the order 2, 1 it ends with candidate 1:
the result is the last candidate visited, not the one with the most SSIDs in common. -/
theorem findRelated_last_candidate :
    commonSsidCount ⟨0, [1, 2, 3, 4], none⟩ 1 ⟨1, [1, 2, 3, 4], some 10⟩ = 4 ∧
    commonSsidCount ⟨0, [1, 2, 3, 4], none⟩ 1 ⟨2, [1, 2, 3], some 20⟩ = 3 ∧
    (findRelated 3 ⟨0, [1, 2, 3, 4], none⟩ 1
      [⟨0, [1, 2, 3, 4], none⟩, ⟨1, [1, 2, 3, 4], some 10⟩, ⟨2, [1, 2, 3], some 20⟩]).relatedMacs
      = [1, 2] ∧
    (findRelated 3 ⟨0, [1, 2, 3, 4], none⟩ 1
      [⟨0, [1, 2, 3, 4], none⟩, ⟨1, [1, 2, 3, 4], some 10⟩, ⟨2, [1, 2, 3], some 20⟩]).mostCommonMac
      = some ⟨2, [1, 2, 3], some 20⟩ ∧
    (findRelated 3 ⟨0, [1, 2, 3, 4], none⟩ 1
      [⟨0, [1, 2, 3, 4], none⟩, ⟨1, [1, 2, 3, 4], some 10⟩,
        ⟨2, [1, 2, 3], some 20⟩]).mostProbablePerson = some 20 ∧
    (findRelated 3 ⟨0, [1, 2, 3, 4], none⟩ 1
      [⟨0, [1, 2, 3, 4], none⟩, ⟨1, [1, 2, 3, 4], some 10⟩,
        ⟨2, [1, 2, 3], some 20⟩]).maxCommonSsids = 0 ∧
    (findRelated 3 ⟨0, [1, 2, 3, 4], none⟩ 1
      [⟨0, [1, 2, 3, 4], none⟩, ⟨2, [1, 2, 3], some 20⟩,
        ⟨1, [1, 2, 3, 4], some 10⟩]).mostProbablePerson = some 10 := by
  decide

end p44
